import Mathlib

/-!
# STUI window server: z-order registry and damage propagation

Shallow embedding of `src/server/server.c`, and of the message queue of
`src/osal/linux/os_queue.c`.

* A `struct window *` is an `Option Nat`: `none` is `NULL`, `some p` is the
  address `p`.  The heap maps an address to the record stored there, or to
  `none` when nothing is allocated at that address.
* Every function that dereferences a pointer returns `Except Fault _`:
  `Fault.segv` is a read or write through `NULL` or through an address that is
  not allocated.
* The `while` loops walk the `up` / `down` links, so on an arbitrary heap they
  need not terminate; they take a step bound and return `Fault.fuel` when it
  is used up.
* `unsigned int` is 32 bits wide: sums and differences are taken modulo `2^32`.
* The API functions are modelled on the path where `osal_mutex_obtain`
  succeeds (returns 0), that is, as the body of their critical section.
-/

namespace Stui

/-! ## Data model -/

/-- Record behind a window handle, `struct window`. Pointers are `Option Nat`,
the two one-bit flags are `Bool`, `callback` and `userdata` are addresses. -/
structure window where
  width : Nat
  height : Nat
  row : Nat
  col : Nat
  callback : Nat
  up : Option Nat
  down : Option Nat
  visible : Bool
  dirty : Bool
  userdata : Nat
  deriving DecidableEq, Repr

/-- Ways in which a run of the C code can fail to return. -/
inductive Fault where
  | segv
  | fuel
  deriving DecidableEq, Repr

/-- Heap of window records: `m p = none` when address `p` is not allocated. -/
abbrev Heap := Nat → Option window

/-- Write a whole record at address `p`. -/
def store (m : Heap) (p : Nat) (w : window) : Heap :=
  fun q => if q = p then some w else m q

/-- Release the record at address `p`, the effect of `free`. -/
def release (m : Heap) (p : Nat) : Heap :=
  fun q => if q = p then none else m q

/-- Read through a pointer. -/
def load (m : Heap) : Option Nat → Except Fault window
  | none => .error .segv
  | some p =>
    match m p with
    | none => .error .segv
    | some w => .ok w

/-- Assign to fields of the record a pointer refers to. -/
def modify (m : Heap) (p : Option Nat) (f : window → window) : Except Fault Heap :=
  match load m p with
  | .error e => .error e
  | .ok w =>
    match p with
    | none => .error .segv
    | some a => .ok (store m a (f w))

/-- The file-scope state of the server that the window functions use: the heap
holding the window records and the pointer `root` (bottom of the stack). -/
structure Server where
  mem : Heap
  root : Option Nat

/-- Value of an `unsigned int` expression. -/
def u32 (n : Nat) : Nat := n % 4294967296

/-- What `calloc( 1, sizeof(*hWnd) )` leaves in the new record. -/
def zeroed : window :=
  { width := 0, height := 0, row := 0, col := 0, callback := 0,
    up := none, down := none, visible := false, dirty := false, userdata := 0 }

/-! ## Damage propagation -/

/-- The condition on lines 190-193 of `mark_dirty_underlapping`. -/
def underlap_test (src win : window) : Bool :=
  decide (src.col ≤ u32 (win.col + win.width))
    && decide (u32 (src.col + src.width) ≥ win.col)
    && decide (src.row ≤ u32 (win.row + win.height))
    && decide (u32 (src.row + src.height) ≥ win.row)

/-- The condition on lines 212-215 of `mark_dirty_overlapping`. -/
def overlap_test (win src : window) : Bool :=
  decide (win.col ≤ u32 (src.col + src.width))
    && decide (u32 (win.col + win.width) ≥ src.col)
    && decide (win.row ≤ u32 (src.row + src.height))
    && decide (u32 (win.row + win.height) ≥ src.row)

/-- Embedding of `mark_dirty_underlapping( win, src )`: walk `down` from `win`
and set the dirty flag of every visible, clean window that passes the test
against `src`. -/
def mark_dirty_underlapping : Nat → Heap → Option Nat → Nat → Except Fault Heap
  | _, m, none, _ => .ok m
  | 0, _, some _, _ => .error .fuel
  | fuel + 1, m, some p, src =>
    match m p with
    | none => .error .segv
    | some win =>
      if win.visible && !win.dirty then
        match m src with
        | none => .error .segv
        | some s =>
          if underlap_test s win then
            mark_dirty_underlapping fuel (store m p { win with dirty := true }) win.down src
          else
            mark_dirty_underlapping fuel m win.down src
      else
        mark_dirty_underlapping fuel m win.down src

/-- Embedding of `mark_dirty_overlapping( win, src )`: walk `up` from `win`;
a visible, clean window that passes the test against `src` is flagged dirty
and the scan recurses from the window above it with that window as source;
`win = win->up` then reads the link again from memory. -/
def mark_dirty_overlapping : Nat → Heap → Option Nat → Nat → Except Fault Heap
  | _, m, none, _ => .ok m
  | 0, _, some _, _ => .error .fuel
  | fuel + 1, m, some p, src =>
    match m p with
    | none => .error .segv
    | some win =>
      if win.visible && !win.dirty then
        match m src with
        | none => .error .segv
        | some s =>
          if overlap_test win s then
            match mark_dirty_overlapping fuel (store m p { win with dirty := true }) win.up p with
            | .error e => .error e
            | .ok m2 =>
              match m2 p with
              | none => .error .segv
              | some win2 => mark_dirty_overlapping fuel m2 win2.up src
          else
            mark_dirty_overlapping fuel m win.up src
      else
        mark_dirty_overlapping fuel m win.up src

/-- The statement `mark_dirty_overlapping( root->up, root );` that
`redim_window`, `stui_destroy_window`, `stui_hide_window` and
`stui_raise_window` all contain. -/
def mark_from_root (fuel : Nat) (m : Heap) (root : Option Nat) : Except Fault Heap :=
  match root with
  | none => .error .segv
  | some r =>
    match m r with
    | none => .error .segv
    | some rw => mark_dirty_overlapping fuel m rw.up r

/-- The two statements `mark_dirty_underlapping( win->down, win );`
`mark_dirty_overlapping( root->up, root );` that `redim_window`,
`stui_destroy_window`, `stui_hide_window` and `stui_raise_window` run for a
visible window. -/
def vacate (fuel : Nat) (s : Server) (win : Nat) : Except Fault Heap := do
  let w ← load s.mem (some win)
  let m ← mark_dirty_underlapping fuel s.mem w.down win
  mark_from_root fuel m s.root

/-- Embedding of `redim_window( win, row, col, width, height )`. -/
def redim_window (fuel : Nat) (s : Server) (win : Nat) (row col width height : Nat) :
    Except Fault Server := do
  let w ← load s.mem (some win)
  let m1 ← if w.visible then vacate fuel s win else pure s.mem
  let m2 ← modify m1 (some win)
    (fun x => { x with row := row, col := col, width := width, height := height })
  let w2 ← load m2 (some win)
  let m3 ← if w2.visible then mark_dirty_overlapping fuel m2 w2.up win else pure m2
  pure { s with mem := m3 }

/-! ## Window lifecycle -/

/-- Embedding of `stui_create_window( cb )`. `fresh` is what `calloc` returns:
`none` when the allocation fails, otherwise an address that was not allocated
before; the new record is all zero. The result is the new state and the
returned handle. -/
def stui_create_window (s : Server) (fresh : Option Nat) (cb : Nat) :
    Except Fault (Server × Option Nat) :=
  match fresh with
  | none => .ok (s, none)
  | some h => do
    let m0 := store s.mem h zeroed
    let m1 ← modify m0 (some h) (fun x => { x with callback := cb })
    let m2 ← match s.root with
      | some r => do
        let m ← modify m1 (some h) (fun x => { x with up := some r })
        let w ← load m (some h)
        modify m w.up (fun x => { x with down := some h })
      | none => pure m1
    pure ({ mem := m2, root := some h }, some h)

/-- The statement `if ( win->down ) win->down->up = win->up; else root = win->up;`
of `stui_destroy_window` (lines 362-365) and `stui_raise_window` (lines 498-501). -/
def unlink_below (s : Server) (h : Nat) : Except Fault Server := do
  let win ← load s.mem (some h)
  match win.down with
  | some d => do
    let m ← modify s.mem (some d) (fun x => { x with up := win.up })
    pure { s with mem := m }
  | none => pure { s with root := win.up }

/-- The statement `if ( win->up ) win->up->down = win->down;` of
`stui_destroy_window` (lines 367-368) and `stui_raise_window` (lines 503-504). -/
def unlink_above (s : Server) (h : Nat) : Except Fault Server := do
  let win ← load s.mem (some h)
  match win.up with
  | some u => do
    let m ← modify s.mem (some u) (fun x => { x with down := win.down })
    pure { s with mem := m }
  | none => pure s

/-- The unlinking code shared by `stui_destroy_window` (lines 362-368) and
`stui_raise_window` (lines 498-504). -/
def unlink (s : Server) (h : Nat) : Except Fault Server := do
  let s1 ← unlink_below s h
  unlink_above s1 h

/-- Embedding of `stui_destroy_window( hWnd )`. -/
def stui_destroy_window (fuel : Nat) (s : Server) (h : Nat) : Except Fault Server := do
  let s1 ← unlink s h
  let win ← load s1.mem (some h)
  let m2 ← if win.visible then vacate fuel s1 h else pure s1.mem
  let _ ← load m2 (some h)
  pure { s1 with mem := release m2 h }

/-- Embedding of `stui_show_window( hWnd )`. -/
def stui_show_window (fuel : Nat) (s : Server) (h : Nat) : Except Fault Server := do
  let m1 ← modify s.mem (some h) (fun x => { x with visible := true })
  let m2 ← mark_dirty_overlapping fuel m1 (some h) h
  pure { s with mem := m2 }

/-- Embedding of `stui_hide_window( hWnd )`. -/
def stui_hide_window (fuel : Nat) (s : Server) (h : Nat) : Except Fault Server := do
  let win ← load s.mem (some h)
  if win.visible then do
    let m1 ← modify s.mem (some h) (fun x => { x with visible := false })
    let m2 ← vacate fuel { s with mem := m1 } h
    pure { s with mem := m2 }
  else pure s

/-- Embedding of `stui_move_window( hWnd, row, col )`. -/
def stui_move_window (fuel : Nat) (s : Server) (h : Nat) (row col : Nat) :
    Except Fault Server := do
  let win ← load s.mem (some h)
  redim_window fuel s h row col win.width win.height

/-- Embedding of `stui_resize_window( hWnd, width, height )`. `rows` and `cols`
are what `drv_get_screen_size` reports. -/
def stui_resize_window (fuel : Nat) (rows cols : Nat) (s : Server) (h : Nat)
    (width height : Nat) : Except Fault Server := do
  let win ← load s.mem (some h)
  let width1 := if (width = 0 ∨ height = 0) ∧ width = 0
    then u32 (cols + 4294967296 - win.col) else width
  let height1 := if (width = 0 ∨ height = 0) ∧ height = 0
    then u32 (rows + 4294967296 - win.row) else height
  redim_window fuel s h win.row win.col width1 height1

/-- The loop `while ( win->down->up ) win->down = win->down->up;` of
`stui_raise_window`. The condition is evaluated before a step is counted. -/
def raise_walk : Nat → Heap → Nat → Except Fault Heap
  | fuel, m, h =>
    match load m (some h) with
    | .error e => .error e
    | .ok win =>
      match load m win.down with
      | .error e => .error e
      | .ok d =>
        match d.up with
        | none => .ok m
        | some u =>
          match fuel with
          | 0 => .error .fuel
          | fuel1 + 1 =>
            match modify m (some h) (fun x => { x with down := some u }) with
            | .error e => .error e
            | .ok m1 => raise_walk fuel1 m1 h

/-- The part of `stui_raise_window` under the comment `Put onto top of list`
(lines 506-512). -/
def put_on_top (fuel : Nat) (s : Server) (h : Nat) : Except Fault Server := do
  let m1 ← modify s.mem (some h) (fun x => { x with up := none })
  let m2 ← modify m1 (some h) (fun x => { x with down := s.root })
  let m3 ← raise_walk fuel m2 h
  let win ← load m3 (some h)
  let m4 ← modify m3 win.down (fun x => { x with up := some h })
  pure { s with mem := m4 }

/-- Embedding of `stui_raise_window( hWnd )`. -/
def stui_raise_window (fuel : Nat) (s : Server) (h : Nat) : Except Fault Server := do
  let win ← load s.mem (some h)
  let m1 ← if win.visible then vacate fuel s h else pure s.mem
  let s2 ← unlink { s with mem := m1 } h
  put_on_top fuel s2 h

/-- Embedding of `stui_repaint( hWnd )`. -/
def stui_repaint (fuel : Nat) (s : Server) (h : Nat) : Except Fault Server := do
  let m1 ← mark_dirty_overlapping fuel s.mem (some h) h
  pure { s with mem := m1 }

/-! ## Compositor -/

/-- What one pass of the server task does to the outside world: a call of a
window's repaint callback with its five arguments, or `drv_put_screen`. -/
inductive Event where
  | callback (cb hWnd tl_row tl_col br_row br_col : Nat)
  | put_screen
  deriving DecidableEq, Repr

/-- The `for ( hWnd = root; hWnd; hWnd = hWnd->up )` loop of `server_task`.
The call `hWnd->callback( ... )` through a null pointer (`callback = 0`, what
`calloc` leaves and what `stui_create_window( NULL )` stores) is a fault.
A callback that is called is taken not to change the registry; its call is
recorded. The result is the heap, the calls made in order, and
`need_refresh`. -/
def repaint_scan : Nat → Heap → Option Nat → Bool → Except Fault (Heap × List Event × Bool)
  | _, m, none, need_refresh => .ok (m, [], need_refresh)
  | 0, _, some _, _ => .error .fuel
  | fuel + 1, m, some p, need_refresh =>
    match m p with
    | none => .error .segv
    | some w =>
      if w.visible && w.dirty then
        if w.callback = 0 then .error .segv
        else
          let m1 := store m p { w with dirty := false }
          match repaint_scan fuel m1 w.up true with
          | .error e => .error e
          | .ok (m2, evs, nr) =>
            .ok (m2, Event.callback w.callback p 0 0 w.height w.width :: evs, nr)
      else
        repaint_scan fuel m w.up need_refresh

/-- One turn of the `while(1)` loop of `server_task`, after the sleep and with
the lock obtained: the scan, then `drv_put_screen` if something was repainted. -/
def server_task (fuel : Nat) (s : Server) : Except Fault (Server × List Event) :=
  match repaint_scan fuel s.mem s.root false with
  | .error e => .error e
  | .ok (m, evs, need_refresh) =>
    .ok ({ s with mem := m }, if need_refresh then evs ++ [Event.put_screen] else evs)

/-! ## Walks, well-formed registries and the scans as list functions -/

/-- `Seg next m p l q`: following the link `next` from pointer `p` passes
through exactly the addresses `l`, in this order, and arrives at `q`. -/
def Seg (next : window → Option Nat) (m : Heap) : Option Nat → List Nat → Option Nat → Prop
  | p, [], q => p = q
  | p, a :: l, q => p = some a ∧ ∃ w, m a = some w ∧ Seg next m (next w) l q

/-- Set the dirty flag of a record. -/
def setDirty (w : window) : window := { w with dirty := true }

/-- What `mark_dirty_underlapping` does when the walk from its start pointer
visits the addresses of the list. -/
def mduL : List Nat → Heap → Nat → Heap
  | [], m, _ => m
  | a :: t, m, src =>
    match m a, m src with
    | some w, some s =>
      if (w.visible && !w.dirty) && underlap_test s w then mduL t (store m a (setDirty w)) src
      else mduL t m src
    | _, _ => m

/-- What `mark_dirty_overlapping` does when the walk from its start pointer
visits the addresses of the list. -/
def mdoL : List Nat → Heap → Nat → Heap
  | [], m, _ => m
  | a :: t, m, src =>
    match m a, m src with
    | some w, some s =>
      if (w.visible && !w.dirty) && overlap_test w s then
        mdoL t (mdoL t (store m a (setDirty w)) a) src
      else mdoL t m src
    | _, _ => m

/-- Every record of `m'` is the record of `m`, or that record with its clear
dirty flag set. -/
def Marked (m m' : Heap) : Prop :=
  ∀ p, m' p = m p ∨ ∃ w, m p = some w ∧ w.dirty = false ∧ m' p = some (setDirty w)

/-- The registry of `s` is well formed and `l` is its z-order, bottom first:
walking `up` from `root` visits exactly `l` and ends at `NULL`, walking `down`
from the top window visits `l` backwards and ends at `NULL`, no address occurs
twice, and the allocated records are exactly those of `l`. -/
structure WF (s : Server) (l : List Nat) : Prop where
  up : Seg window.up s.mem s.root l none
  down : ∃ top, Seg window.down s.mem top l.reverse none
  nodup : l.Nodup
  live : ∀ p, (∃ w, s.mem p = some w) ↔ p ∈ l

/-- Heap `m'` has the same allocated addresses as `m` and the same links. -/
def SameLinks (m m' : Heap) : Prop :=
  ∀ p, (m p = none → m' p = none) ∧
    ∀ w, m p = some w → ∃ w', m' p = some w' ∧ w'.up = w.up ∧ w'.down = w.down

/-! ## Building a registry from a list of windows -/

/-- Heap that holds the given records at the given addresses, linked in list
order; `d` is the pointer stored as `down` in the first one. -/
def mkHeap : Option Nat → List (Nat × window) → Heap
  | _, [] => fun _ => none
  | d, (a, w) :: t =>
    store (mkHeap (some a) t) a { w with down := d, up := t.head?.map Prod.fst }

/-- Registry whose z-order, bottom first, is the given list. -/
def mkServer (ws : List (Nat × window)) : Server :=
  { mem := mkHeap none ws, root := ws.head?.map Prod.fst }

/-- Unlinked record with the given geometry and flags. -/
def rect (row col width height : Nat) (visible dirty : Bool) : window :=
  { zeroed with row := row, col := col, width := width, height := height,
                visible := visible, dirty := dirty }

/-- Unlinked record with the given repaint callback, geometry and flags. -/
def rect_cb (cb row col width height : Nat) (visible dirty : Bool) : window :=
  { width := width, height := height, row := row, col := col, callback := cb,
    up := none, down := none, visible := visible, dirty := dirty, userdata := 0 }

/-! ## The compositor pass as a function of the z-order -/

/-- Every window of the list that is visible and dirty has a callback: its
`callback` field is not null. The header asks for this of every window
(`Applications must associate a callback with each window created`). -/
def HasCallbacks (m : Heap) (l : List Nat) : Prop :=
  ∀ a ∈ l, ∀ w, m a = some w → w.visible = true → w.dirty = true → w.callback ≠ 0


/-- The call of the repaint callback that the compositor makes for the window
at address `a` with record `w`. -/
def paintCall (a : Nat) (w : window) : Event :=
  Event.callback w.callback a 0 0 w.height w.width

/-- The window at address `a` is both visible and dirty. -/
def needsPaint (m : Heap) (a : Nat) : Bool :=
  match m a with
  | some w => w.visible && w.dirty
  | none => false

/-- The callback calls for the visible and dirty windows of `l`, in the order
of `l`. -/
def paintCalls (m : Heap) (l : List Nat) : List Event :=
  (l.filter (needsPaint m)).filterMap (fun a => (m a).map (paintCall a))

/-- The heap with the dirty flag of every visible window of `l` cleared. -/
def repainted (m : Heap) (l : List Nat) : Heap :=
  fun q => if q ∈ l then (m q).map (fun w => if w.visible then { w with dirty := false } else w)
    else m q

/-- Heap `m'` has the same allocated addresses as `m`, and each record of `m'`
is the record of `m` up to its two links. -/
def SameData (m m' : Heap) : Prop :=
  ∀ p, (m p = none → m' p = none) ∧
    ∀ v, m p = some v → ∃ v', m' p = some v' ∧ v' = { v with up := v'.up, down := v'.down }

/-- The record of a window right after `stui_create_window`: all zero but for
the callback and the `up` link. -/
def created (cb : Nat) (up : Option Nat) : window :=
  { width := 0, height := 0, row := 0, col := 0, callback := cb,
    up := up, down := none, visible := false, dirty := false, userdata := 0 }

/-- The scan `mark_dirty_overlapping( root->up, root )` when the z-order is `l`. -/
def rootScan (l : List Nat) (m : Heap) : Heap :=
  match l with
  | [] => m
  | r :: t => mdoL t m r

/-- What `vacate` does for window `h` when the windows below it, from the one
just below downwards, are `below` and the z-order is `l`. -/
def vacateL (l below : List Nat) (h : Nat) (m : Heap) : Heap :=
  rootScan l (mduL below m h)

/-- The record with its geometry replaced. -/
def setGeom (w : window) (row col width height : Nat) : window :=
  { w with row := row, col := col, width := width, height := height }

/-- The heap after `redim_window` on a well-formed registry with z-order `l`,
where `pre` are the windows below `h`, `post` those above it, and `w` is the
record of `h` before the call. -/
def redimL (l pre post : List Nat) (h : Nat) (w : window) (row col width height : Nat)
    (m : Heap) : Heap :=
  if w.visible = true then
    match vacateL l pre.reverse h m h with
    | some w1 => mdoL post (store (vacateL l pre.reverse h m) h (setGeom w1 row col width height)) h
    | none => vacateL l pre.reverse h m
  else
    store m h (setGeom w row col width height)

/-- The registry at server start: nothing allocated, `root == NULL`. -/
def init : Server := { mem := fun _ => none, root := none }

/-- Records `w` and `w'` describe the same rectangle. -/
def GeomEq (w w' : window) : Prop :=
  w'.row = w.row ∧ w'.col = w.col ∧ w'.width = w.width ∧ w'.height = w.height

/-- The record `wb` does not pass the overlap test against the record that
heap `m` holds at `c`. -/
def Misses (m : Heap) (wb : window) (c : Nat) : Prop :=
  ∀ wc, m c = some wc → overlap_test wb wc = false

/-- The record `wb` passes the overlap test against no window of `t` that is
visible and clean in heap `m`. -/
def ClearOf (m : Heap) (wb : window) (t : List Nat) : Prop :=
  ∀ c ∈ t, ∀ wc, m c = some wc → wc.visible = true → wc.dirty = false →
    overlap_test wb wc = false

/-- Every record of `m'` other than that of window `A` has the rectangle and
the visible flag of the record that `m` holds at the same address, and is
dirty if that one is. -/
def Tracks (m m' : Heap) (A : Nat) : Prop :=
  ∀ c wc', c ≠ A → m' c = some wc' → ∃ wc, m c = some wc ∧ GeomEq wc wc' ∧
    wc'.visible = wc.visible ∧ (wc.dirty = true → wc'.dirty = true)

/-- No scan of an operation on window `A` can mark from below a window with
record `wb` below which the windows `below` lie, bottom first: `wb` passes the
overlap test against no window of `below`, other than `A`, that is the lowest
window other than `A` (the source of the scan from `root`) or is visible and
clean (and so can be marked and become the source of a nested scan). -/
def ClearBelow (m : Heap) (below : List Nat) (A : Nat) (wb : window) : Prop :=
  ∀ c ∈ below, c ≠ A → ∀ wc, m c = some wc →
    ((below.erase A).head? = some c ∨ (wc.visible = true ∧ wc.dirty = false)) →
    overlap_test wb wc = false

/-- The operations on one window that propagate damage. -/
inductive WinOp where
  | opShow
  | opHide
  | opMove (row col : Nat)
  | opResize (width height : Nat)
  | opRaise
  | opRepaint
  | opDestroy
  deriving DecidableEq, Repr

/-- Run an operation on window `h`; `rows` and `cols` are the screen size
that the driver reports. -/
def run_op (fuel rows cols : Nat) (s : Server) (h : Nat) : WinOp → Except Fault Server
  | WinOp.opShow => stui_show_window fuel s h
  | WinOp.opHide => stui_hide_window fuel s h
  | WinOp.opMove row col => stui_move_window fuel s h row col
  | WinOp.opResize width height => stui_resize_window fuel rows cols s h width height
  | WinOp.opRaise => stui_raise_window fuel s h
  | WinOp.opRepaint => stui_repaint fuel s h
  | WinOp.opDestroy => stui_destroy_window fuel s h

/-- The record of a window with the rectangle it has after an operation on it:
`stui_move_window` and `stui_resize_window` store new geometry, the other
operations leave it alone. -/
def rect_after (rows cols : Nat) (w : window) : WinOp → window
  | WinOp.opMove row col => setGeom w row col w.width w.height
  | WinOp.opResize width height =>
    setGeom w w.row w.col
      (if (width = 0 ∨ height = 0) ∧ width = 0 then u32 (cols + 4294967296 - w.col) else width)
      (if (width = 0 ∨ height = 0) ∧ height = 0 then u32 (rows + 4294967296 - w.row) else height)
  | _ => w

/-- The operations that change the z-order. For `create` the first argument is
the address that `calloc` returns. -/
inductive RegOp where
  | create (fresh cb : Nat)
  | destroy (h : Nat)
  | raise (h : Nat)
  deriving DecidableEq, Repr

/-- Run one z-order operation. -/
def run_reg_op (fuel : Nat) (s : Server) : RegOp → Except Fault Server
  | RegOp.create fresh cb =>
    match stui_create_window s (some fresh) cb with
    | .error e => .error e
    | .ok r => .ok r.1
  | RegOp.destroy h => stui_destroy_window fuel s h
  | RegOp.raise h => stui_raise_window fuel s h

/-- The caller's side of the contract: `calloc` returns an address that is not
in use, and handles passed to destroy and raise are live. -/
def Admissible (s : Server) : RegOp → Prop
  | RegOp.create fresh _ => s.mem fresh = none
  | RegOp.destroy h => ∃ w, s.mem h = some w
  | RegOp.raise h => ∃ w, s.mem h = some w

/-- Run a sequence of z-order operations, stopping at the first fault. -/
def run_reg_ops (fuel : Nat) : Server → List RegOp → Except Fault Server
  | s, [] => .ok s
  | s, op :: ops =>
    match run_reg_op fuel s op with
    | .error e => .error e
    | .ok s1 => run_reg_ops fuel s1 ops

/-- Every operation of the sequence is admissible in the state it is run in. -/
def AdmissibleRun (fuel : Nat) : Server → List RegOp → Prop
  | _, [] => True
  | s, op :: ops =>
    Admissible s op ∧ ∀ s1, run_reg_op fuel s op = .ok s1 → AdmissibleRun fuel s1 ops

/-! ## Accessors -/

/-- Embedding of `stui_set_userdata( hWnd, ud )`. -/
def stui_set_userdata (s : Server) (h : Nat) (ud : Nat) : Except Fault Server := do
  let m ← modify s.mem (some h) (fun x => { x with userdata := ud })
  pure { s with mem := m }

/-- Embedding of `stui_get_userdata( hWnd )`. -/
def stui_get_userdata (s : Server) (h : Nat) : Except Fault Nat := do
  let win ← load s.mem (some h)
  pure win.userdata

/-- Embedding of `stui_get_window_dims( hWnd, p_width, p_height )`. The two
flags say whether `p_width` and `p_height` are non-null; the result holds what
is stored through them. -/
def stui_get_window_dims (s : Server) (h : Nat) (p_width p_height : Bool) :
    Except Fault (Option Nat × Option Nat) := do
  let wd ← if p_width then do
      let win ← load s.mem (some h)
      pure (some win.width)
    else pure none
  let ht ← if p_height then do
      let win ← load s.mem (some h)
      pure (some win.height)
    else pure none
  pure (wd, ht)

/-! ## Display surface -/

/-- The physical screen, `struct visual`: the buffer of cells `vbuf` (one
`STUI_CHAR_T` per cell, row after row) and the size of the screen. -/
structure visual where
  vbuf : List Nat
  width : Nat
  height : Nat
  deriving DecidableEq, Repr

/-- The state that callbacks run in: the registry and the display surface
(the static `vis`). -/
structure Display where
  srv : Server
  vis : visual

/-- The buffer holds `width * height` cells, and that number fits in an
`unsigned int`, as when `stui_server` allocates `rows * cols` cells. -/
def SurfaceOk (v : visual) : Prop :=
  v.vbuf.length = v.width * v.height ∧ v.width * v.height < 4294967296

/-- The subscript `( ( win->row + row ) * vis.width ) + ( win->col + col )` of
`stui_cb_putchar`, an `unsigned int` expression. -/
def cell_index (v : visual) (win : window) (row col : Nat) : Nat :=
  u32 (u32 (u32 (win.row + row) * v.width) + u32 (win.col + col))

/-- Embedding of `stui_cb_putchar( hWnd, row, col, c )`. A write past the end
of the buffer is a fault. -/
def stui_cb_putchar (d : Display) (h row col c : Nat) : Except Fault Display :=
  match d.srv.mem h with
  | none => .error .segv
  | some win =>
    if row < win.height ∧ col < win.width
        ∧ u32 (win.row + row) < d.vis.height
        ∧ u32 (win.col + col) < d.vis.width then
      if cell_index d.vis win row col < d.vis.vbuf.length then
        .ok ⟨d.srv, ⟨d.vis.vbuf.set (cell_index d.vis win row col) c, d.vis.width, d.vis.height⟩⟩
      else .error .segv
    else .ok d

/-- A call of `stui_cb_putchar` as a callback makes it. -/
structure PutChar where
  hWnd : Nat
  row : Nat
  col : Nat
  c : Nat
  deriving DecidableEq, Repr

/-- The buffer subscript that a call of `stui_cb_putchar` writes, if it passes
the clipping and the handle is live. -/
def writeIndex (m : Heap) (v : visual) (p : PutChar) : Option Nat :=
  match m p.hWnd with
  | none => none
  | some win =>
    if p.row < win.height ∧ p.col < win.width
        ∧ u32 (win.row + p.row) < v.height
        ∧ u32 (win.col + p.col) < v.width then
      some (cell_index v win p.row p.col)
    else none

/-- The surface after a call of `stui_cb_putchar` that does not fault. -/
def putL (m : Heap) (v : visual) (p : PutChar) : visual :=
  match writeIndex m v p with
  | some i => ⟨v.vbuf.set i p.c, v.width, v.height⟩
  | none => v

/-- Client code: the calls of `stui_cb_putchar` that a repaint callback makes,
in order, when it is called as the event says. -/
abbrev Client := Event → List PutChar

/-- Run a sequence of `stui_cb_putchar` calls. -/
def put_all : Display → List PutChar → Except Fault Display
  | d, [] => .ok d
  | d, p :: ps =>
    match stui_cb_putchar d p.hWnd p.row p.col p.c with
    | .error e => .error e
    | .ok d1 => put_all d1 ps

/-- The loop of `server_task` as in `repaint_scan`, now with the display
surface: calling the callback of a window runs the `stui_cb_putchar` calls of
the client code; the call through a null callback (`callback = 0`) is a
fault. -/
def repaint_scan_vis (client : Client) :
    Nat → Display → Option Nat → Bool → Except Fault (Display × List Event × Bool)
  | _, d, none, need_refresh => .ok (d, [], need_refresh)
  | 0, _, some _, _ => .error .fuel
  | fuel + 1, d, some p, need_refresh =>
    match d.srv.mem p with
    | none => .error .segv
    | some w =>
      if w.visible && w.dirty then
        if w.callback = 0 then .error .segv
        else
          match put_all d (client (Event.callback w.callback p 0 0 w.height w.width)) with
          | .error e => .error e
          | .ok d1 =>
            match repaint_scan_vis client fuel
                ⟨⟨store d1.srv.mem p { w with dirty := false }, d1.srv.root⟩, d1.vis⟩ w.up
                true with
            | .error e => .error e
            | .ok (d2, evs, nr) =>
              .ok (d2, Event.callback w.callback p 0 0 w.height w.width :: evs, nr)
      else
        repaint_scan_vis client fuel d w.up need_refresh

/-- One turn of the loop of `server_task` with the display surface; the surface
that `drv_put_screen` pushes is the one in the resulting state. -/
def server_task_vis (client : Client) (fuel : Nat) (d : Display) :
    Except Fault (Display × List Event) :=
  match repaint_scan_vis client fuel d d.srv.root false with
  | .error e => .error e
  | .ok (d1, evs, need_refresh) =>
    .ok (d1, if need_refresh then evs ++ [Event.put_screen] else evs)

/-- The surface after the callbacks of the given events have run. -/
def paintL (client : Client) (m : Heap) (v : visual) (evs : List Event) : visual :=
  evs.foldl (fun v1 e => (client e).foldl (putL m) v1) v

/-- The value that the last write to cell `i` among the given calls stores, if
one of them writes cell `i`. -/
def lastWrite (m : Heap) (v : visual) (ps : List PutChar) (i : Nat) : Option Nat :=
  ps.foldl (fun acc p => if writeIndex m v p = some i then some p.c else acc) none

/-! ## Server start -/

/-- A call that `stui_server` makes to the driver, to the OS layer or to the
allocator; `calloc n` asks for `n` cells. -/
inductive StartCall where
  | drv_open
  | osal_mutex_init
  | drv_get_screen_size
  | calloc (n : Nat)
  | osal_task_init
  | osal_task_start
  | osal_task_destroy
  | free
  | osal_mutex_destroy
  | drv_close
  deriving DecidableEq, Repr

/-- What the collaborators answer during `stui_server`: the status values
returned by `drv_open`, `osal_mutex_init`, `osal_task_init` and
`osal_task_start`, the screen size stored by `drv_get_screen_size`, and
whether `calloc` returns a non-null pointer. -/
structure StartEnv where
  open_status : Int
  mutex_status : Int
  rows : Nat
  cols : Nat
  vbuf_ok : Bool
  init_status : Int
  start_status : Int

/-- Outcome of `stui_server`: the value returned, the calls made in program
order, and the static `vis` afterwards (an empty buffer stands for a null or
freed `vbuf`). -/
structure StartResult where
  ret : Int
  calls : List StartCall
  vis : visual

/-- Embedding of `stui_server()`. The product `rows * cols` is an
`unsigned int`; the loop after `calloc` stores `' '` (32) in each of the
`vis.width * vis.height` cells. -/
def stui_server (env : StartEnv) : StartResult :=
  if env.open_status = -1 then
    ⟨-1, [.drv_open], ⟨[], 0, 0⟩⟩
  else if env.mutex_status ≠ 0 then
    ⟨-1, [.drv_open, .osal_mutex_init, .drv_close], ⟨[], 0, 0⟩⟩
  else if env.vbuf_ok = false then
    ⟨-1, [.drv_open, .osal_mutex_init, .drv_get_screen_size,
      .calloc (u32 (env.rows * env.cols)), .osal_mutex_destroy, .drv_close],
      ⟨[], env.cols, env.rows⟩⟩
  else if env.init_status ≠ 0 then
    ⟨-1, [.drv_open, .osal_mutex_init, .drv_get_screen_size,
      .calloc (u32 (env.rows * env.cols)), .osal_task_init,
      .free, .osal_mutex_destroy, .drv_close],
      ⟨[], env.cols, env.rows⟩⟩
  else if env.start_status ≠ 0 then
    ⟨-1, [.drv_open, .osal_mutex_init, .drv_get_screen_size,
      .calloc (u32 (env.rows * env.cols)), .osal_task_init, .osal_task_start,
      .osal_task_destroy, .free, .osal_mutex_destroy, .drv_close],
      ⟨[], env.cols, env.rows⟩⟩
  else
    ⟨0, [.drv_open, .osal_mutex_init, .drv_get_screen_size,
      .calloc (u32 (env.rows * env.cols)), .osal_task_init, .osal_task_start],
      ⟨List.replicate (u32 (env.cols * env.rows)) 32, env.cols, env.rows⟩⟩

/-- The call that gives back what a call of `stui_server` acquired, if it
acquired something. -/
def release_of : StartCall → Option StartCall
  | .drv_open => some .drv_close
  | .osal_mutex_init => some .osal_mutex_destroy
  | .calloc _ => some .free
  | .osal_task_init => some .osal_task_destroy
  | _ => none

/-! ## The recursion of the upward scan, counted -/

/-- The scan `mark_dirty_overlapping` with two counters added: the number of
recursive calls made (the call on line 217) and the greatest number of such
calls that are active at the same time. -/
def mark_dirty_overlapping_count :
    Nat → Heap → Option Nat → Nat → Except Fault (Heap × Nat × Nat)
  | _, m, none, _ => .ok (m, 0, 0)
  | 0, _, some _, _ => .error .fuel
  | fuel + 1, m, some p, src =>
    match m p with
    | none => .error .segv
    | some win =>
      if win.visible && !win.dirty then
        match m src with
        | none => .error .segv
        | some s =>
          if overlap_test win s then
            match mark_dirty_overlapping_count fuel (store m p { win with dirty := true })
                win.up p with
            | .error e => .error e
            | .ok (m2, n1, d1) =>
              match m2 p with
              | none => .error .segv
              | some win2 =>
                match mark_dirty_overlapping_count fuel m2 win2.up src with
                | .error e => .error e
                | .ok (m3, n2, d2) => .ok (m3, n1 + 1 + n2, max (d1 + 1) d2)
          else
            mark_dirty_overlapping_count fuel m win.up src
      else
        mark_dirty_overlapping_count fuel m win.up src

/-- The window at address `a` is allocated and its dirty flag is clear. -/
def isClean (m : Heap) (a : Nat) : Bool :=
  match m a with
  | some w => !w.dirty
  | none => false

/-- The number of windows of the list whose dirty flag is clear. -/
def cleanCount (m : Heap) (l : List Nat) : Nat := (l.filter (isClean m)).length

/-! ## The API as a whole -/

/-- A call of the window API: `stui_create_window` with what `calloc`
returns, an operation on an existing window, or `stui_set_userdata`. -/
inductive ApiCall where
  | create (fresh : Option Nat) (cb : Nat)
  | win (h : Nat) (op : WinOp)
  | set_userdata (h ud : Nat)
  deriving DecidableEq, Repr

/-- Run a call of the window API. -/
def run_api (fuel rows cols : Nat) (s : Server) : ApiCall → Except Fault Server
  | ApiCall.create fresh cb =>
    match stui_create_window s fresh cb with
    | .error e => .error e
    | .ok r => .ok r.1
  | ApiCall.win h op => run_op fuel rows cols s h op
  | ApiCall.set_userdata h ud => stui_set_userdata s h ud

/-- Every window of heap `m` is still allocated in `m'`, and dirty there if it
was dirty in `m`. -/
def Keeps (m m' : Heap) : Prop :=
  ∀ a w, m a = some w → ∃ w', m' a = some w' ∧ (w.dirty = true → w'.dirty = true)

/-! ## Message queue

Shallow embedding of `src/osal/linux/os_queue.c`, run by one task at a time:
a semaphore is its count, obtaining it fails when the count is 0 (the call
does not wait forever), and the status of `osal_mutex_obtain` is an input. -/

/-- The error numbers that the queue functions return. -/
def EINVAL : Nat := 22

/-- Error number for a failed system call. -/
def EFAULT : Nat := 14

/-- Error number for a wait that timed out. -/
def ETIMEDOUT : Nat := 110

/-- The record `osal_queue_t`: message size, length of the queue in messages,
the bytes of the queue store, the two indices, and the counts of the two
semaphores. -/
structure osal_queue_t where
  msg_size : Nat
  len : Nat
  qmem : List Nat
  head : Nat
  tail : Nat
  sem_put : Nat
  sem_get : Nat
  deriving DecidableEq, Repr

/-- Embedding of `osal_queue_init( queue, length, size, nametag )`. `qmem_ok`
says whether `calloc` returns a block, `status` is the combined status of the
two `osal_sem_init` and of `osal_mutex_init`. The result is the status and
the queue when the call succeeds. -/
def osal_queue_init (length size : Nat) (qmem_ok : Bool) (status : Nat) :
    Nat × Option osal_queue_t :=
  if length = 0 ∨ size = 0 then (EINVAL, none)
  else if qmem_ok = false ∨ status ≠ 0 then (EFAULT, none)
  else (0, some ⟨size, length, List.replicate (length * size) 0, 0, 0, length, 0⟩)

/-- Embedding of `osal_sem_obtain` for a call that does not wait forever, on a
semaphore with the given count: the status and the new count. -/
def osal_sem_obtain (count : Nat) : Nat × Nat :=
  if 0 < count then (0, count - 1) else (ETIMEDOUT, count)

/-- The effect of `memcpy( &dst[off], src, n )` on `dst`. -/
def memcpy_into (dst : List Nat) (off : Nat) (src : List Nat) (n : Nat) : List Nat :=
  dst.take off ++ src.take n ++ dst.drop (off + n)

/-- The bytes that `memcpy( message, &src[off], n )` stores in `message`. -/
def memcpy_from (src : List Nat) (off n : Nat) : List Nat :=
  (src.drop off).take n

/-- The statements `i++; if ( i >= len ) i = 0;` on an `unsigned int`. -/
def bump_wrap (i len : Nat) : Nat :=
  if u32 (i + 1) ≥ len then 0 else u32 (i + 1)

/-- Embedding of `osal_queue_send_to( queue, message, suspend )`; `mtx` is the
status of `osal_mutex_obtain`. Reading past the end of the message or writing
past the end of the store is a fault. The offset `head * msg_size` is a
`size_t` product; below the size of the store it does not wrap. -/
def osal_queue_send_to (q : osal_queue_t) (message : List Nat) (mtx : Nat) :
    Except Fault (Nat × osal_queue_t) :=
  if (osal_sem_obtain q.sem_put).1 = 0 then
    if mtx = 0 then
      if message.length < q.msg_size ∨ q.qmem.length < q.head * q.msg_size + q.msg_size then
        .error .segv
      else
        .ok (0, ⟨q.msg_size, q.len, memcpy_into q.qmem (q.head * q.msg_size) message q.msg_size,
          bump_wrap q.head q.len, q.tail, (osal_sem_obtain q.sem_put).2, q.sem_get + 1⟩)
    else
      .ok (mtx, ⟨q.msg_size, q.len, q.qmem, q.head, q.tail,
        (osal_sem_obtain q.sem_put).2 + 1, q.sem_get⟩)
  else .ok ((osal_sem_obtain q.sem_put).1, q)

/-- Embedding of `osal_queue_recv_from( queue, message, suspend )`; `mtx` is
the status of `osal_mutex_obtain`. The third component is what the call
stored in `message`, if it stored something. -/
def osal_queue_recv_from (q : osal_queue_t) (mtx : Nat) :
    Except Fault (Nat × osal_queue_t × Option (List Nat)) :=
  if (osal_sem_obtain q.sem_get).1 = 0 then
    if mtx = 0 then
      if q.qmem.length < q.tail * q.msg_size + q.msg_size then .error .segv
      else
        .ok (0, ⟨q.msg_size, q.len, q.qmem, q.head, bump_wrap q.tail q.len,
          q.sem_put + 1, (osal_sem_obtain q.sem_get).2⟩,
          some (memcpy_from q.qmem (q.tail * q.msg_size) q.msg_size))
    else
      .ok (mtx, ⟨q.msg_size, q.len, q.qmem, q.head, q.tail, q.sem_put,
        (osal_sem_obtain q.sem_get).2 + 1⟩, none)
  else .ok ((osal_sem_obtain q.sem_get).1, q, none)

/-- A call on a queue: send the message, or receive; `mtx` is the status of
`osal_mutex_obtain` in that call. -/
inductive QueueCall where
  | send (message : List Nat) (mtx : Nat)
  | recv (mtx : Nat)
  deriving DecidableEq, Repr

/-- Run a sequence of calls on a queue. The result is the queue afterwards
and, for each call in order, the status that the call returned and what it
stored in `message` (a send stores nothing). -/
def run_queue : osal_queue_t → List QueueCall →
    Except Fault (osal_queue_t × List (Nat × Option (List Nat)))
  | q, [] => .ok (q, [])
  | q, QueueCall.send message mtx :: cs =>
    match osal_queue_send_to q message mtx with
    | .error e => .error e
    | .ok (status, q1) =>
      match run_queue q1 cs with
      | .error e => .error e
      | .ok (q2, rs) => .ok (q2, (status, none) :: rs)
  | q, QueueCall.recv mtx :: cs =>
    match osal_queue_recv_from q mtx with
    | .error e => .error e
    | .ok (status, q1, out) =>
      match run_queue q1 cs with
      | .error e => .error e
      | .ok (q2, rs) => .ok (q2, (status, out) :: rs)

/-- The messages of the sends that returned 0, in order, given the calls and
what each of them returned. -/
def sent_messages : List QueueCall → List (Nat × Option (List Nat)) → List (List Nat)
  | QueueCall.send message _ :: cs, r :: rs =>
    if r.1 = 0 then message :: sent_messages cs rs else sent_messages cs rs
  | QueueCall.recv _ :: cs, _ :: rs => sent_messages cs rs
  | _, _ => []

/-- The messages stored by the receives that returned 0, in order, given the
calls and what each of them returned. -/
def received_messages : List QueueCall → List (Nat × Option (List Nat)) → List (List Nat)
  | QueueCall.recv _ :: cs, (0, some message) :: rs => message :: received_messages cs rs
  | _ :: cs, _ :: rs => received_messages cs rs
  | _, _ => []

/-- Reference model of a first-in first-out queue of capacity `L` that holds
the messages `pend`, oldest first: what each call of a sequence returns. A
send returns `ETIMEDOUT` when `L` messages are held, otherwise the status of
the mutex, and the message is appended when that status is 0. A receive
returns `ETIMEDOUT` when no message is held, otherwise the status of the
mutex, and it hands out the oldest message when that status is 0. -/
def fifo_model (L : Nat) : List (List Nat) → List QueueCall → List (Nat × Option (List Nat))
  | _, [] => []
  | pend, QueueCall.send message mtx :: cs =>
    if pend.length < L then
      if mtx = 0 then (0, none) :: fifo_model L (pend ++ [message]) cs
      else (mtx, none) :: fifo_model L pend cs
    else (ETIMEDOUT, none) :: fifo_model L pend cs
  | [], QueueCall.recv _ :: cs => (ETIMEDOUT, none) :: fifo_model L [] cs
  | message :: rest, QueueCall.recv mtx :: cs =>
    if mtx = 0 then (0, some message) :: fifo_model L rest cs
    else (mtx, none) :: fifo_model L (message :: rest) cs

/-- The message stored in slot `k` of a queue store with messages of `n`
bytes. -/
def slot (n : Nat) (mem : List Nat) (k : Nat) : List Nat := (mem.drop (k * n)).take n

/-- The queue `q` of length `L` and message size `S` holds the messages
`pend`, oldest first: indices in range, semaphore counts matching, and the
messages in the slots from `tail` on, wrapping around. -/
def QInv (L S : Nat) (q : osal_queue_t) (pend : List (List Nat)) : Prop :=
  q.len = L ∧ q.msg_size = S ∧ q.qmem.length = L * S ∧ q.head < L ∧ q.tail < L ∧
  q.sem_get = pend.length ∧ q.sem_put + pend.length = L ∧
  q.head = (q.tail + pend.length) % L ∧
  ∀ i, i < pend.length → pend[i]? = some (slot S q.qmem ((q.tail + i) % L))

/-! ## The cascade of the upward scan -/

/-- Window `a` is visible, not dirty, and passes the test of
`mark_dirty_overlapping` against window `prev`. -/
def cascades (m : Heap) (prev a : Nat) : Bool :=
  match m a, m prev with
  | some wa, some wp => (wa.visible && !wa.dirty) && overlap_test wa wp
  | _, _ => false

/-- The list is a chain from `prev`: its first window cascades from `prev`,
and each further window from the one before it. -/
def IsChain (m : Heap) : Nat → List Nat → Bool
  | _, [] => true
  | prev, a :: c => cascades m prev a && IsChain m a c

/-- Window `a` cascades from one of the windows `S`. -/
def hits (m : Heap) (S : List Nat) (a : Nat) : Bool := S.any (fun p => cascades m p a)

/-- The heap with the dirty flag of the window at `a` set. -/
def mark (m : Heap) (a : Nat) : Heap :=
  fun q => if q = a then (m a).map setDirty else m q

/-- One pass over the windows of the list, bottom first, with a growing set of
sources: a window that cascades from a source is marked and becomes a source
itself. -/
def mdoS : List Nat → Heap → List Nat → Heap
  | [], m, _ => m
  | a :: t, m, S => if hits m S a then mdoS t (mark m a) (a :: S) else mdoS t m S

/-- The rectangle of a window. -/
def geo (w : window) : Nat × Nat × Nat × Nat := (w.row, w.col, w.width, w.height)

/-- Heap `m'` has the same windows as `m`, with the same rectangles. -/
def SameGeo (m m' : Heap) : Prop := ∀ p, (m' p).map geo = (m p).map geo

/-! ## Walks -/

theorem seg_append {n : window → Option Nat} {m : Heap} (l1 l2 : List Nat) (p q : Option Nat) :
    Seg n m p (l1 ++ l2) q ↔ ∃ r, Seg n m p l1 r ∧ Seg n m r l2 q := by
  induction l1 generalizing p with
  | nil => simp [Seg]
  | cons a l ih =>
    rw [List.cons_append]
    constructor
    · rintro ⟨hp, w, hw, hs⟩
      obtain ⟨r, h1, h2⟩ := (ih _).1 hs
      exact ⟨r, ⟨hp, w, hw, h1⟩, h2⟩
    · rintro ⟨r, ⟨hp, w, hw, h1⟩, h2⟩
      exact ⟨hp, w, hw, (ih _).2 ⟨r, h1, h2⟩⟩

theorem seg_congr {n : window → Option Nat} {m m' : Heap} {l : List Nat} {p q : Option Nat}
    (h : Seg n m p l q)
    (hm : ∀ a ∈ l, ∀ w, m a = some w → ∃ w', m' a = some w' ∧ n w' = n w) :
    Seg n m' p l q := by
  induction l generalizing p with
  | nil => exact h
  | cons a l ih =>
    obtain ⟨hp, w, hw, hs⟩ := h
    obtain ⟨w', hw', hn⟩ := hm a (List.mem_cons_self _ _) w hw
    refine ⟨hp, w', hw', ?_⟩
    rw [hn]
    exact ih hs (fun b hb => hm b (List.mem_cons_of_mem _ hb))

theorem seg_live {n : window → Option Nat} {m : Heap} {l : List Nat} {p q : Option Nat}
    (h : Seg n m p l q) : ∀ a ∈ l, ∃ w, m a = some w := by
  induction l generalizing p with
  | nil => intro a ha; cases ha
  | cons b l ih =>
    obtain ⟨_, w, hw, hs⟩ := h
    intro a ha
    rcases List.mem_cons.1 ha with rfl | ha
    · exact ⟨w, hw⟩
    · exact ih hs a ha

/-- Within a walk, the link of an element leads to the rest of the walk. -/
theorem seg_at {n : window → Option Nat} {m : Heap} {xs ys : List Nat} {a : Nat}
    {p q : Option Nat} (h : Seg n m p (xs ++ a :: ys) q) :
    ∃ w, m a = some w ∧ Seg n m p xs (some a) ∧ Seg n m (n w) ys q := by
  obtain ⟨r, h1, h2⟩ := (seg_append xs (a :: ys) p q).1 h
  obtain ⟨hr, w, hw, hs⟩ := h2
  subst hr
  exact ⟨w, hw, h1, hs⟩

theorem seg_start {n : window → Option Nat} {m : Heap} {l : List Nat} {p : Option Nat}
    (h : Seg n m p l none) : p = l.head? := by
  cases l with
  | nil => exact h
  | cons a l => exact h.1

theorem marked_refl (m : Heap) : Marked m m := fun _ => Or.inl rfl

theorem marked_trans {m1 m2 m3 : Heap} (h12 : Marked m1 m2) (h23 : Marked m2 m3) :
    Marked m1 m3 := by
  intro p
  rcases h12 p with h | ⟨w, hw, hd, h⟩
  · rcases h23 p with h' | ⟨w', hw', hd', h'⟩
    · exact Or.inl (h'.trans h)
    · exact Or.inr ⟨w', h ▸ hw', hd', h'⟩
  · rcases h23 p with h' | ⟨w', hw', hd', _⟩
    · exact Or.inr ⟨w, hw, hd, h'.trans h⟩
    · rw [h] at hw'
      cases hw'
      simp [setDirty] at hd'

theorem marked_store {m : Heap} {a : Nat} {w : window} (hw : m a = some w)
    (hd : w.dirty = false) : Marked m (store m a (setDirty w)) := by
  intro p
  by_cases hp : p = a
  · subst hp
    exact Or.inr ⟨w, hw, hd, by simp [store]⟩
  · exact Or.inl (by simp [store, hp])

/-- A marked heap holds, at every allocated address, the old record up to its
dirty flag, which can only have been raised. -/
theorem marked_get {m m' : Heap} (h : Marked m m') {p : Nat} {w : window} (hw : m p = some w) :
    ∃ w', m' p = some w' ∧ w' = { w with dirty := w'.dirty } ∧ (w.dirty = true → w'.dirty = true) := by
  rcases h p with h | ⟨v, hv, _, h⟩
  · exact ⟨w, h.trans hw, rfl, id⟩
  · rw [hw] at hv
    cases hv
    exact ⟨setDirty w, h, rfl, fun _ => rfl⟩

theorem marked_get_back {m m' : Heap} (h : Marked m m') {p : Nat} {w' : window}
    (hw : m' p = some w') :
    ∃ w, m p = some w ∧ w' = { w with dirty := w'.dirty } ∧ (w.dirty = true → w'.dirty = true) := by
  rcases h p with h | ⟨v, hv, _, h⟩
  · exact ⟨w', h ▸ hw, rfl, id⟩
  · rw [hw] at h
    cases h
    exact ⟨v, hv, rfl, fun _ => rfl⟩

theorem marked_seg {n : window → Option Nat} (hn : ∀ w b, n { w with dirty := b } = n w)
    {m m' : Heap} (h : Marked m m') {l : List Nat} {p q : Option Nat}
    (hs : Seg n m p l q) : Seg n m' p l q := by
  refine seg_congr hs (fun a _ w hw => ?_)
  obtain ⟨w', hw', he, _⟩ := marked_get h hw
  refine ⟨w', hw', ?_⟩
  rw [he]
  exact hn _ _

theorem mduL_marked (l : List Nat) (m : Heap) (src : Nat) : Marked m (mduL l m src) := by
  induction l generalizing m with
  | nil => exact marked_refl m
  | cons a t ih =>
    unfold mduL
    split
    · rename_i w s hw hs
      split
      · rename_i hc
        simp only [Bool.and_eq_true, Bool.not_eq_true', Bool.not_eq_eq_eq_not, Bool.not_true] at hc
        exact marked_trans (marked_store hw hc.1.2) (ih _)
      · exact ih _
    · exact marked_refl m

theorem mdoL_marked (l : List Nat) (m : Heap) (src : Nat) : Marked m (mdoL l m src) := by
  induction l generalizing m src with
  | nil => exact marked_refl m
  | cons a t ih =>
    unfold mdoL
    split
    · rename_i w s hw hs
      split
      · rename_i hc
        simp only [Bool.and_eq_true, Bool.not_eq_true', Bool.not_eq_eq_eq_not, Bool.not_true] at hc
        exact marked_trans (marked_store hw hc.1.2) (marked_trans (ih _ _) (ih _ _))
      · exact ih _ _
    · exact marked_refl m

theorem marked_live {m m' : Heap} (h : Marked m m') {p : Nat} (hp : ∃ w, m p = some w) :
    ∃ w, m' p = some w := by
  obtain ⟨w, hw⟩ := hp
  obtain ⟨w', hw', _⟩ := marked_get h hw
  exact ⟨w', hw'⟩

/-- On a walk that ends at `NULL` the loop of `mark_dirty_underlapping` returns,
and its result is `mduL` of the addresses walked. -/
theorem mark_dirty_underlapping_eq (l : List Nat) (fuel : Nat) (m : Heap) (start : Option Nat)
    (src : Nat) (hs : Seg window.down m start l none) (hf : l.length ≤ fuel)
    (hsrc : ∃ ws, m src = some ws) :
    mark_dirty_underlapping fuel m start src = .ok (mduL l m src) := by
  induction l generalizing fuel m start with
  | nil =>
    have : start = none := hs
    subst this
    cases fuel <;> rfl
  | cons a t ih =>
    obtain ⟨hp, w, hw, hseg⟩ := hs
    subst hp
    obtain ⟨ws, hws⟩ := hsrc
    cases fuel with
    | zero => simp at hf
    | succ f =>
      have hf' : t.length ≤ f := by simpa using hf
      simp only [mark_dirty_underlapping, mduL, hw, hws]
      by_cases hc : (w.visible && !w.dirty) = true
      · by_cases ht : underlap_test ws w = true
        · have hd : w.dirty = false := by
            simp only [Bool.and_eq_true, Bool.not_eq_true', Bool.not_eq_eq_eq_not, Bool.not_true] at hc
            exact hc.2
          have hmk := marked_store hw hd
          simp only [hc, ht, Bool.and_self, if_true]
          exact ih f _ _ (marked_seg (n := window.down) (fun _ _ => rfl) hmk hseg) hf' (marked_live hmk ⟨ws, hws⟩)
        · simp only [hc, ht, Bool.true_and, if_true, if_false, Bool.false_eq_true]
          exact ih f _ _ hseg hf' ⟨ws, hws⟩
      · simp only [hc, Bool.false_and, if_false, Bool.false_eq_true]
        exact ih f _ _ hseg hf' ⟨ws, hws⟩

/-- On a walk that ends at `NULL` the recursive scan `mark_dirty_overlapping`
returns, and its result is `mdoL` of the addresses walked. -/
theorem mark_dirty_overlapping_eq (l : List Nat) (fuel : Nat) (m : Heap) (start : Option Nat)
    (src : Nat) (hs : Seg window.up m start l none) (hf : l.length ≤ fuel)
    (hsrc : ∃ ws, m src = some ws) :
    mark_dirty_overlapping fuel m start src = .ok (mdoL l m src) := by
  induction l generalizing fuel m start src with
  | nil =>
    have : start = none := hs
    subst this
    cases fuel <;> rfl
  | cons a t ih =>
    obtain ⟨hp, w, hw, hseg⟩ := hs
    subst hp
    obtain ⟨ws, hws⟩ := hsrc
    cases fuel with
    | zero => simp at hf
    | succ f =>
      have hf' : t.length ≤ f := by simpa using hf
      simp only [mark_dirty_overlapping, mdoL, hw, hws]
      by_cases hc : (w.visible && !w.dirty) = true
      · by_cases ht : overlap_test w ws = true
        · have hd : w.dirty = false := by
            simp only [Bool.and_eq_true, Bool.not_eq_true', Bool.not_eq_eq_eq_not, Bool.not_true] at hc
            exact hc.2
          have hmk := marked_store hw hd
          have hseg1 := marked_seg (n := window.up) (fun _ _ => rfl) hmk hseg
          have ha1 : store m a (setDirty w) a = some (setDirty w) := by simp [store]
          simp only [hc, ht, Bool.and_self, if_true]
          have e1 := ih f _ _ a hseg1 hf' ⟨_, ha1⟩
          have hmk2 := mdoL_marked t (store m a (setDirty w)) a
          obtain ⟨w2, hw2, he2, _⟩ := marked_get hmk2 ha1
          have hup : w2.up = w.up := by rw [he2]; rfl
          have hseg2 := marked_seg (n := window.up) (fun _ _ => rfl) hmk2 hseg1
          have e2 := ih f _ _ src hseg2 hf' (marked_live (marked_trans hmk hmk2) ⟨ws, hws⟩)
          show (match mark_dirty_overlapping f (store m a { w with dirty := true }) w.up a with
            | .error e => Except.error e
            | .ok m2 =>
              match m2 a with
              | none => .error .segv
              | some win2 => mark_dirty_overlapping f m2 win2.up src) = _
          have e1' : mark_dirty_overlapping f (store m a { w with dirty := true }) w.up a
              = .ok (mdoL t (store m a (setDirty w)) a) := e1
          rw [e1']
          simp only [hw2, hup]
          exact e2
        · simp only [hc, ht, Bool.true_and, if_true, if_false, Bool.false_eq_true]
          exact ih f _ _ src hseg hf' ⟨ws, hws⟩
      · simp only [hc, Bool.false_and, if_false, Bool.false_eq_true]
        exact ih f _ _ src hseg hf' ⟨ws, hws⟩

theorem overlap_test_congr {w w' s s' : window} (hw : w' = { w with dirty := w'.dirty })
    (hs : s' = { s with dirty := s'.dirty }) : overlap_test w' s' = overlap_test w s := by
  rw [hw, hs]; rfl

theorem underlap_test_eq (s w : window) : underlap_test s w = overlap_test w s := by
  simp only [underlap_test, overlap_test, ge_iff_le]
  cases decide (s.col ≤ u32 (w.col + w.width)) <;> cases decide (w.col ≤ u32 (s.col + s.width))
    <;> cases decide (s.row ≤ u32 (w.row + w.height))
    <;> cases decide (w.row ≤ u32 (s.row + s.height)) <;> rfl

theorem overlap_test_symm (a b : window) : overlap_test a b = overlap_test b a := by
  simp only [overlap_test, ge_iff_le]
  cases decide (a.col ≤ u32 (b.col + b.width)) <;> cases decide (b.col ≤ u32 (a.col + a.width))
    <;> cases decide (a.row ≤ u32 (b.row + b.height))
    <;> cases decide (b.row ≤ u32 (a.row + a.height)) <;> rfl

theorem mduL_support (l : List Nat) (m : Heap) (src b : Nat) (hb : b ∉ l) :
    mduL l m src b = m b := by
  induction l generalizing m with
  | nil => rfl
  | cons a t ih =>
    have hba : b ≠ a := fun h => hb (h ▸ List.mem_cons_self _ _)
    have hbt : b ∉ t := fun h => hb (List.mem_cons_of_mem _ h)
    cases h1 : m a with
    | none => simp only [mduL, h1]
    | some w =>
      cases h2 : m src with
      | none => simp only [mduL, h1, h2]
      | some s =>
        simp only [mduL, h1, h2]
        split
        · rw [ih _ hbt]; simp [store, hba]
        · exact ih _ hbt

theorem mdoL_support (l : List Nat) (m : Heap) (src b : Nat) (hb : b ∉ l) :
    mdoL l m src b = m b := by
  induction l generalizing m src with
  | nil => rfl
  | cons a t ih =>
    have hba : b ≠ a := fun h => hb (h ▸ List.mem_cons_self _ _)
    have hbt : b ∉ t := fun h => hb (List.mem_cons_of_mem _ h)
    cases h1 : m a with
    | none => simp only [mdoL, h1]
    | some w =>
      cases h2 : m src with
      | none => simp only [mdoL, h1, h2]
      | some s =>
        simp only [mdoL, h1, h2]
        split
        · rw [ih _ _ hbt, ih _ _ hbt]; simp [store, hba]
        · exact ih _ _ hbt

/-- The upward scan leaves dirty every visible window on its walk that passes
the test against the source. -/
theorem mdoL_marks (l : List Nat) (m : Heap) (src b : Nat) (hl : ∀ a ∈ l, ∃ w, m a = some w)
    (hb : b ∈ l) {wb ws : window} (hwb : m b = some wb) (hws : m src = some ws)
    (hv : wb.visible = true) (ho : overlap_test wb ws = true) :
    ∃ wb', mdoL l m src b = some wb' ∧ wb'.dirty = true := by
  induction l generalizing m wb ws with
  | nil => cases hb
  | cons a t ih =>
    obtain ⟨w, hw⟩ := hl a (List.mem_cons_self _ _)
    have key : ∀ m2 : Heap, Marked m m2 → (b = a → ∃ w2, m2 a = some w2 ∧ w2.dirty = true) →
        ∃ wb', mdoL t m2 src b = some wb' ∧ wb'.dirty = true := by
      intro m2 hmk hba
      rcases List.mem_cons.1 hb with rfl | hbt
      · obtain ⟨w2, hw2, hd2⟩ := hba rfl
        obtain ⟨w3, hw3, _, hd3⟩ := marked_get (mdoL_marked t m2 src) hw2
        exact ⟨w3, hw3, hd3 hd2⟩
      · obtain ⟨wb2, hwb2, hbe, _⟩ := marked_get hmk hwb
        obtain ⟨ws2, hws2, hse, _⟩ := marked_get hmk hws
        refine ih m2 (fun c hc => marked_live hmk (hl c (List.mem_cons_of_mem _ hc))) hbt hwb2 hws2
          (by rw [hbe]; exact hv) (by rw [overlap_test_congr hbe hse]; exact ho)
    simp only [mdoL, hw, hws]
    by_cases hc : ((w.visible && !w.dirty) && overlap_test w ws) = true
    · have hd : w.dirty = false := by
        simp only [Bool.and_eq_true, Bool.not_eq_true', Bool.not_eq_eq_eq_not, Bool.not_true] at hc
        exact hc.1.2
      rw [if_pos hc]
      have hmk1 := marked_store hw hd
      have hmk2 := mdoL_marked t (store m a (setDirty w)) a
      refine key _ (marked_trans hmk1 hmk2) (fun _ => ?_)
      obtain ⟨w2, hw2, _, hd2⟩ := marked_get hmk2 (show store m a (setDirty w) a = some (setDirty w) by
        simp [store])
      exact ⟨w2, hw2, hd2 rfl⟩
    · rw [if_neg hc]
      refine key m (marked_refl m) (fun hba => ⟨w, hw, ?_⟩)
      subst hba
      rw [hw] at hwb
      cases hwb
      simp only [hv, ho, Bool.true_and, Bool.and_true, Bool.not_eq_true', Bool.not_eq_eq_eq_not,
        Bool.not_true, Bool.not_eq_false] at hc
      exact hc

/-- The downward scan leaves dirty every visible window on its walk that
passes the test against the source. -/
theorem mduL_marks (l : List Nat) (m : Heap) (src b : Nat) (hl : ∀ a ∈ l, ∃ w, m a = some w)
    (hb : b ∈ l) {wb ws : window} (hwb : m b = some wb) (hws : m src = some ws)
    (hv : wb.visible = true) (ho : underlap_test ws wb = true) :
    ∃ wb', mduL l m src b = some wb' ∧ wb'.dirty = true := by
  induction l generalizing m wb ws with
  | nil => cases hb
  | cons a t ih =>
    obtain ⟨w, hw⟩ := hl a (List.mem_cons_self _ _)
    have key : ∀ m2 : Heap, Marked m m2 → (b = a → ∃ w2, m2 a = some w2 ∧ w2.dirty = true) →
        ∃ wb', mduL t m2 src b = some wb' ∧ wb'.dirty = true := by
      intro m2 hmk hba
      rcases List.mem_cons.1 hb with rfl | hbt
      · obtain ⟨w2, hw2, hd2⟩ := hba rfl
        obtain ⟨w3, hw3, _, hd3⟩ := marked_get (mduL_marked t m2 src) hw2
        exact ⟨w3, hw3, hd3 hd2⟩
      · obtain ⟨wb2, hwb2, hbe, _⟩ := marked_get hmk hwb
        obtain ⟨ws2, hws2, hse, _⟩ := marked_get hmk hws
        refine ih m2 (fun c hc => marked_live hmk (hl c (List.mem_cons_of_mem _ hc))) hbt hwb2 hws2
          (by rw [hbe]; exact hv) ?_
        rw [underlap_test_eq, overlap_test_congr hbe hse, ← underlap_test_eq]; exact ho
    simp only [mduL, hw, hws]
    by_cases hc : ((w.visible && !w.dirty) && underlap_test ws w) = true
    · have hd : w.dirty = false := by
        simp only [Bool.and_eq_true, Bool.not_eq_true', Bool.not_eq_eq_eq_not, Bool.not_true] at hc
        exact hc.1.2
      rw [if_pos hc]
      refine key _ (marked_store hw hd) (fun _ => ⟨setDirty w, by simp [store], rfl⟩)
    · rw [if_neg hc]
      refine key m (marked_refl m) (fun hba => ⟨w, hw, ?_⟩)
      subst hba
      rw [hw] at hwb
      cases hwb
      simp only [hv, ho, Bool.true_and, Bool.and_true, Bool.not_eq_true', Bool.not_eq_eq_eq_not,
        Bool.not_true, Bool.not_eq_false] at hc
      exact hc

theorem sameLinks_refl (m : Heap) : SameLinks m m :=
  fun _ => ⟨id, fun w hw => ⟨w, hw, rfl, rfl⟩⟩

theorem sameLinks_trans {m1 m2 m3 : Heap} (h12 : SameLinks m1 m2) (h23 : SameLinks m2 m3) :
    SameLinks m1 m3 := by
  intro p
  refine ⟨fun h => (h23 p).1 ((h12 p).1 h), fun w hw => ?_⟩
  obtain ⟨w2, hw2, hu2, hd2⟩ := (h12 p).2 w hw
  obtain ⟨w3, hw3, hu3, hd3⟩ := (h23 p).2 w2 hw2
  exact ⟨w3, hw3, hu3.trans hu2, hd3.trans hd2⟩

theorem sameLinks_of_marked {m m' : Heap} (h : Marked m m') : SameLinks m m' := by
  intro p
  constructor
  · intro hp
    rcases h p with h | ⟨w, hw, _⟩
    · exact h.trans hp
    · rw [hp] at hw; cases hw
  · intro w hw
    obtain ⟨w', hw', he, _⟩ := marked_get h hw
    exact ⟨w', hw', by rw [he], by rw [he]⟩

theorem sameLinks_store {m : Heap} {a : Nat} {w w' : window} (hw : m a = some w)
    (hu : w'.up = w.up) (hd : w'.down = w.down) : SameLinks m (store m a w') := by
  intro p
  by_cases hp : p = a
  · subst hp
    refine ⟨fun h => ?_, fun v hv => ?_⟩
    · rw [hw] at h; cases h
    · rw [hw] at hv; cases hv
      exact ⟨w', by simp [store], hu, hd⟩
  · refine ⟨fun h => by simp [store, hp, h], fun v hv => ⟨v, by simp [store, hp, hv], rfl, rfl⟩⟩

theorem sameLinks_seg_up {m m' : Heap} (h : SameLinks m m') {l : List Nat} {p q : Option Nat}
    (hs : Seg window.up m p l q) : Seg window.up m' p l q :=
  seg_congr hs (fun a _ w hw => by
    obtain ⟨w', hw', hu, _⟩ := (h a).2 w hw
    exact ⟨w', hw', hu⟩)

theorem sameLinks_seg_down {m m' : Heap} (h : SameLinks m m') {l : List Nat} {p q : Option Nat}
    (hs : Seg window.down m p l q) : Seg window.down m' p l q :=
  seg_congr hs (fun a _ w hw => by
    obtain ⟨w', hw', _, hd⟩ := (h a).2 w hw
    exact ⟨w', hw', hd⟩)

theorem sameLinks_live {m m' : Heap} (h : SameLinks m m') (p : Nat) :
    (∃ w, m' p = some w) ↔ ∃ w, m p = some w := by
  constructor
  · rintro ⟨w', hw'⟩
    cases hp : m p with
    | none => rw [(h p).1 hp] at hw'; cases hw'
    | some w => exact ⟨w, rfl⟩
  · rintro ⟨w, hw⟩
    obtain ⟨w', hw', _⟩ := (h p).2 w hw
    exact ⟨w', hw'⟩

/-- Changing anything but the links and the set of windows keeps the registry
well formed with the same z-order. -/
theorem WF.sameLinks {s : Server} {l : List Nat} (h : WF s l) {m' : Heap}
    (hm : SameLinks s.mem m') : WF { s with mem := m' } l where
  up := sameLinks_seg_up hm h.up
  down := by
    obtain ⟨top, ht⟩ := h.down
    exact ⟨top, sameLinks_seg_down hm ht⟩
  nodup := h.nodup
  live := fun p => (sameLinks_live hm p).trans (h.live p)

/-- In a well-formed registry the record of a window links up to the windows
above it and down to the windows below it. -/
theorem wf_at {s : Server} {pre post : List Nat} {h : Nat} (hwf : WF s (pre ++ h :: post)) :
    ∃ w, s.mem h = some w ∧ Seg window.up s.mem s.root pre (some h)
      ∧ Seg window.up s.mem w.up post none
      ∧ Seg window.down s.mem w.down pre.reverse none := by
  obtain ⟨w, hw, h1, h2⟩ := seg_at hwf.up
  obtain ⟨top, ht⟩ := hwf.down
  rw [List.reverse_append, List.reverse_cons, List.append_assoc, List.singleton_append] at ht
  obtain ⟨w', hw', _, h4⟩ := seg_at ht
  rw [hw] at hw'
  cases hw'
  exact ⟨w, hw, h1, h2, h4⟩

theorem modify_eq {m : Heap} {a : Nat} {w : window} (hw : m a = some w) (f : window → window) :
    modify m (some a) f = .ok (store m a (f w)) := by
  simp [modify, load, hw]

theorem load_eq {m : Heap} {a : Nat} {w : window} (hw : m a = some w) :
    load m (some a) = .ok w := by
  simp [load, hw]

/-- Result of `stui_show_window` on a well-formed registry. -/
theorem stui_show_window_eq {s : Server} {pre post : List Nat} {h fuel : Nat} {w : window}
    (hwf : WF s (pre ++ h :: post)) (hw : s.mem h = some w) (hf : post.length + 1 ≤ fuel) :
    stui_show_window fuel s h
      = .ok { s with mem := (mdoL (h :: post) (store s.mem h { w with visible := true }) h) } := by
  obtain ⟨w0, hw0, _, hup, _⟩ := wf_at hwf
  rw [hw] at hw0; cases hw0
  have hsl : SameLinks s.mem (store s.mem h { w with visible := true }) :=
    sameLinks_store hw rfl rfl
  have h1 : store s.mem h { w with visible := true } h = some { w with visible := true } := by
    simp [store]
  have hseg : Seg window.up (store s.mem h { w with visible := true }) (some h) (h :: post) none :=
    ⟨rfl, _, h1, sameLinks_seg_up hsl hup⟩
  simp only [stui_show_window, modify_eq hw, bind, Except.bind,
    mark_dirty_overlapping_eq (h :: post) fuel _ (some h) h hseg (by simpa using hf) ⟨_, h1⟩]
  rfl

/-! ## Show -/

theorem overlap_test_self (w : window) (hc : w.col < 4294967296) (hwd : w.width < 4294967296)
    (hr : w.row < 4294967296) (hh : w.height < 4294967296) :
    overlap_test w w = true ↔
      (w.col + w.width < 4294967296 ∧ w.row + w.height < 4294967296) := by
  simp only [overlap_test, u32, Bool.and_eq_true, decide_eq_true_eq, ge_iff_le]
  constructor <;> intro h <;> omega

theorem wf_mem {s : Server} {l : List Nat} (hwf : WF s l) {h : Nat} {w : window}
    (hw : s.mem h = some w) : ∃ pre post, l = pre ++ h :: post :=
  List.append_of_mem ((hwf.live h).1 ⟨w, hw⟩)

/-- The scan `mark_dirty_overlapping( win, win )` of `stui_show_window` and
`stui_repaint` sets the dirty flag of `win` itself exactly when `win` is
visible and passes the test against itself. -/
theorem mdoL_self {m : Heap} {h : Nat} {post : List Nat} {w1 : window} (hnp : h ∉ post)
    (hw1 : m h = some w1) :
    mdoL (h :: post) m h h
      = some { w1 with dirty := w1.dirty || (w1.visible && overlap_test w1 w1) } := by
  simp only [mdoL, hw1]
  by_cases hc : ((w1.visible && !w1.dirty) && overlap_test w1 w1) = true
  · rw [if_pos hc, mdoL_support _ _ _ _ hnp, mdoL_support _ _ _ _ hnp]
    simp only [Bool.and_eq_true, Bool.not_eq_true', Bool.not_eq_eq_eq_not, Bool.not_true] at hc
    obtain ⟨⟨hv, hd⟩, ho⟩ := hc
    simp [store, setDirty, hv, hd, ho]
  · rw [if_neg hc, mdoL_support _ _ _ _ hnp, hw1]
    cases w1 with
    | mk wd ht r c cb u d v dy ud =>
      cases v <;> cases dy <;> simp_all

/-- C9 (amended): on a well-formed registry `stui_show_window` returns, the
window is visible afterwards, and it is dirty afterwards exactly when it was
dirty before or its rectangle does not wrap around, that is when `col + width`
and `row + height` both fit in 32 bits. -/
theorem show_visible_dirty (s : Server) (l : List Nat) (h fuel : Nat) (w : window)
    (hwf : WF s l) (hw : s.mem h = some w) (hf : l.length ≤ fuel)
    (hc : w.col < 4294967296) (hwd : w.width < 4294967296)
    (hr : w.row < 4294967296) (hh : w.height < 4294967296) :
    ∃ s' w', stui_show_window fuel s h = .ok s' ∧ s'.mem h = some w' ∧ w'.visible = true ∧
      (w'.dirty = true ↔
        (w.dirty = true ∨ (w.col + w.width < 4294967296 ∧ w.row + w.height < 4294967296))) := by
  obtain ⟨pre, post, rfl⟩ := wf_mem hwf hw
  have hf' : post.length + 1 ≤ fuel := by
    simp only [List.length_append, List.length_cons] at hf; omega
  have hnp : h ∉ post := by
    have := hwf.nodup
    rw [List.nodup_append] at this
    exact (List.nodup_cons.1 this.2.1).1
  have h1 : store s.mem h { w with visible := true } h = some { w with visible := true } := by
    simp [store]
  refine ⟨_, _, stui_show_window_eq hwf hw hf', mdoL_self hnp h1, rfl, ?_⟩
  have hself : overlap_test { w with visible := true } { w with visible := true }
      = overlap_test w w := rfl
  rw [← overlap_test_self w hc hwd hr hh]
  simp only [hself, Bool.true_and, Bool.or_eq_true]

/-! ## Registries built from a list are well formed -/

theorem store_same (m : Heap) (a : Nat) (w : window) : store m a w a = some w := by
  simp [store]

theorem store_other (m : Heap) {a b : Nat} (w : window) (h : b ≠ a) : store m a w b = m b := by
  simp [store, h]

theorem mkHeap_live (d : Option Nat) (ws : List (Nat × window)) (p : Nat) :
    (∃ w, mkHeap d ws p = some w) ↔ p ∈ ws.map Prod.fst := by
  induction ws generalizing d with
  | nil => simp [mkHeap]
  | cons x t ih =>
    obtain ⟨a, w⟩ := x
    by_cases hp : p = a
    · subst hp
      simp [mkHeap, store]
    · simp only [mkHeap, store, hp, if_false, List.map_cons, List.mem_cons, false_or]
      exact ih _

theorem mkHeap_up (d : Option Nat) (ws : List (Nat × window)) (hn : (ws.map Prod.fst).Nodup) :
    Seg window.up (mkHeap d ws) (ws.head?.map Prod.fst) (ws.map Prod.fst) none := by
  induction ws generalizing d with
  | nil => rfl
  | cons x t ih =>
    obtain ⟨a, w⟩ := x
    rw [List.map_cons, List.nodup_cons] at hn
    refine ⟨rfl, _, store_same _ _ _, ?_⟩
    refine seg_congr (ih (some a) hn.2) (fun b hb v hv => ⟨v, ?_, rfl⟩)
    have hba : b ≠ a := fun e => hn.1 (e ▸ hb)
    simp [mkHeap, store, hba, hv]

theorem mkHeap_down (d : Option Nat) (ws : List (Nat × window)) (hn : (ws.map Prod.fst).Nodup) :
    ∃ top, Seg window.down (mkHeap d ws) top (ws.map Prod.fst).reverse d := by
  induction ws generalizing d with
  | nil => exact ⟨d, rfl⟩
  | cons x t ih =>
    obtain ⟨a, w⟩ := x
    rw [List.map_cons, List.nodup_cons] at hn
    obtain ⟨top, ht⟩ := ih (some a) hn.2
    refine ⟨top, ?_⟩
    rw [List.map_cons, List.reverse_cons, seg_append]
    refine ⟨some a, ?_, rfl, _, store_same _ _ _, rfl⟩
    refine seg_congr ht (fun b hb v hv => ⟨v, ?_, rfl⟩)
    have hba : b ≠ a := fun e => hn.1 (e ▸ List.mem_reverse.1 hb)
    simp [mkHeap, store, hba, hv]

/-- A registry built by `mkServer` from distinct addresses is well formed. -/
theorem wf_mkServer (ws : List (Nat × window)) (hn : (ws.map Prod.fst).Nodup) :
    WF (mkServer ws) (ws.map Prod.fst) where
  up := mkHeap_up none ws hn
  down := mkHeap_down none ws hn
  nodup := hn
  live := mkHeap_live none ws

/-- Instance of `show_visible_dirty`: a registry with one hidden, clean window at
`(0,0)` of size `10 x 5`. -/
theorem show_visible_dirty_witness :
    ∃ s' w', stui_show_window 1 (mkServer [(1, rect 0 0 10 5 false false)]) 1 = .ok s'
      ∧ s'.mem 1 = some w' ∧ w'.visible = true ∧
      (w'.dirty = true ↔ ((rect 0 0 10 5 false false).dirty = true
        ∨ ((rect 0 0 10 5 false false).col + (rect 0 0 10 5 false false).width < 4294967296
          ∧ (rect 0 0 10 5 false false).row + (rect 0 0 10 5 false false).height < 4294967296))) :=
  show_visible_dirty (mkServer [(1, rect 0 0 10 5 false false)]) [1] 1 1
    (rect 0 0 10 5 false false) (wf_mkServer _ (by decide)) rfl (by decide)
    (by decide) (by decide) (by decide) (by decide)

/-- C9 fails as stated: a clean window with `col = 2^32 - 1` and `width = 1`
is visible after `stui_show_window` but not dirty, because `col + width` wraps
to 0 and the window fails the test against itself. -/
theorem show_wrapping_not_dirty :
    WF (mkServer [(1, rect 0 4294967295 1 1 false false)]) [1] ∧
    ∃ s' w', stui_show_window 1 (mkServer [(1, rect 0 4294967295 1 1 false false)]) 1 = .ok s'
      ∧ s'.mem 1 = some w' ∧ w'.visible = true ∧ w'.dirty = false :=
  ⟨wf_mkServer _ (by decide), _, _, rfl, rfl, rfl, rfl⟩

/-! ## Compositor pass -/

theorem paintCalls_congr {m m' : Heap} {l : List Nat} (h : ∀ a ∈ l, m' a = m a) :
    paintCalls m' l = paintCalls m l := by
  induction l with
  | nil => rfl
  | cons a t ih =>
    have ha := h a (List.mem_cons_self _ _)
    have ht := ih (fun b hb => h b (List.mem_cons_of_mem _ hb))
    simp only [paintCalls, List.filter_cons, needsPaint, ha] at ht ⊢
    split
    · simp only [List.filterMap_cons, ha]; rw [ht]
    · exact ht

theorem paintCalls_cons (m : Heap) (a : Nat) (t : List Nat) (w : window) (hw : m a = some w) :
    paintCalls m (a :: t)
      = if w.visible && w.dirty then paintCall a w :: paintCalls m t else paintCalls m t := by
  simp only [paintCalls, List.filter_cons, needsPaint, hw]
  split
  · simp [List.filterMap_cons, hw]
  · rfl

theorem hasCallbacks_tail {m : Heap} {a : Nat} {t : List Nat} (h : HasCallbacks m (a :: t)) :
    HasCallbacks m t :=
  fun b hb => h b (List.mem_cons_of_mem _ hb)

theorem hasCallbacks_congr {m m' : Heap} {l : List Nat} (h : HasCallbacks m l)
    (he : ∀ a ∈ l, m' a = m a) : HasCallbacks m' l := by
  intro a ha w hw
  rw [he a ha] at hw
  exact h a ha w hw

/-- On a walk without repetition that ends at `NULL` the scan of `server_task`
faults when one of the visible and dirty windows has a null callback. -/
theorem repaint_scan_null_callback (l : List Nat) (fuel : Nat) (m : Heap) (p : Option Nat)
    (nr : Bool) (hs : Seg window.up m p l none) (hn : l.Nodup) (hf : l.length ≤ fuel)
    (hnull : ∃ a ∈ l, ∃ w, m a = some w ∧ w.visible = true ∧ w.dirty = true ∧ w.callback = 0) :
    repaint_scan fuel m p nr = .error .segv := by
  induction l generalizing fuel m p nr with
  | nil =>
    obtain ⟨a, ha, _⟩ := hnull
    cases ha
  | cons a t ih =>
    obtain ⟨hp, w, hw, hseg⟩ := hs
    subst hp
    rw [List.nodup_cons] at hn
    cases fuel with
    | zero => simp at hf
    | succ f =>
      have hf' : t.length ≤ f := by simpa using hf
      simp only [repaint_scan, hw]
      by_cases hc : (w.visible && w.dirty) = true
      · by_cases h0 : w.callback = 0
        · simp only [hc, if_true, h0]
        · have hseg1 : Seg window.up (store m a { w with dirty := false }) w.up t none :=
            seg_congr hseg (fun b hb v hv =>
              ⟨v, by rw [store_other _ _ (fun (e : b = a) => hn.1 (e ▸ hb))]; exact hv, rfl⟩)
          have hnull1 : ∃ b ∈ t, ∃ v, store m a { w with dirty := false } b = some v ∧
              v.visible = true ∧ v.dirty = true ∧ v.callback = 0 := by
            obtain ⟨b, hb, v, hv, h1, h2, h3⟩ := hnull
            rcases List.mem_cons.1 hb with rfl | hbt
            · rw [hw] at hv
              cases hv
              exact absurd h3 h0
            · exact ⟨b, hbt, v,
                by rw [store_other _ _ (fun (e : b = a) => hn.1 (e ▸ hbt))]; exact hv, h1, h2, h3⟩
          simp only [hc, if_true, h0, if_false, ih f _ _ true hseg1 hn.2 hf' hnull1]
      · have hnull1 : ∃ b ∈ t, ∃ v, m b = some v ∧
            v.visible = true ∧ v.dirty = true ∧ v.callback = 0 := by
          obtain ⟨b, hb, v, hv, h1, h2, h3⟩ := hnull
          rcases List.mem_cons.1 hb with rfl | hbt
          · rw [hw] at hv
            cases hv
            rw [h1, h2] at hc
            exact absurd rfl hc
          · exact ⟨b, hbt, v, hv, h1, h2, h3⟩
        simp only [hc, if_false, Bool.false_eq_true, ih f _ _ nr hseg hn.2 hf' hnull1]

/-- One turn of `server_task` on a well-formed registry faults when a visible
and dirty window has a null callback. -/
theorem server_task_null_callback {s : Server} {l : List Nat} {fuel : Nat} (hwf : WF s l)
    (hf : l.length ≤ fuel)
    (hnull : ∃ a ∈ l, ∃ w, s.mem a = some w ∧ w.visible = true ∧ w.dirty = true ∧
      w.callback = 0) :
    server_task fuel s = .error .segv := by
  simp only [server_task,
    repaint_scan_null_callback l fuel s.mem s.root false hwf.up hwf.nodup hf hnull]

theorem sameData_refl (m : Heap) : SameData m m :=
  fun _ => ⟨id, fun v hv => ⟨v, hv, rfl⟩⟩

theorem sameData_trans {m1 m2 m3 : Heap} (h12 : SameData m1 m2) (h23 : SameData m2 m3) :
    SameData m1 m3 := by
  intro p
  refine ⟨fun h => (h23 p).1 ((h12 p).1 h), fun v hv => ?_⟩
  obtain ⟨v2, hv2, e2⟩ := (h12 p).2 v hv
  obtain ⟨v3, hv3, e3⟩ := (h23 p).2 v2 hv2
  refine ⟨v3, hv3, ?_⟩
  rw [e3, e2]

theorem sameData_store {m : Heap} {a : Nat} {w w' : window} (hw : m a = some w)
    (he : w' = { w with up := w'.up, down := w'.down }) : SameData m (store m a w') := by
  intro p
  by_cases hp : p = a
  · subst hp
    refine ⟨fun h => ?_, fun v hv => ?_⟩
    · rw [hw] at h; cases h
    · rw [hw] at hv; cases hv
      exact ⟨w', store_same _ _ _, he⟩
  · rw [store_other _ _ hp]
    exact ⟨id, fun v hv => ⟨v, hv, rfl⟩⟩

/-- Redirecting the link of the last element of a walk. -/
theorem seg_set_last {n : window → Option Nat} {m : Heap} {xs : List Nat} {d : Nat}
    {p q q' : Option Nat} (h : Seg n m p (xs ++ [d]) q) (hd : d ∉ xs) (wd' : window)
    (hq : n wd' = q') : Seg n (store m d wd') p (xs ++ [d]) q' := by
  obtain ⟨r, h1, h2⟩ := (seg_append xs [d] p q).1 h
  obtain ⟨hr, _, _, _⟩ := h2
  subst hr
  refine (seg_append xs [d] p q').2 ⟨some d, ?_, rfl, wd', store_same _ _ _, hq⟩
  exact seg_congr h1 (fun b hb v hv =>
    ⟨v, by rw [store_other _ _ (fun (e : b = d) => hd (e ▸ hb))]; exact hv, rfl⟩)

/-- A walk that passes through `h` skips `h` once the element before `h` is
given the link of `h`, or, when `h` comes first, once the walk starts at the
link of `h`. -/
theorem seg_skip {n : window → Option Nat} {m : Heap} {xs ys : List Nat} {h : Nat}
    {p : Option Nat} {w : window} (hs : Seg n m p (xs ++ h :: ys) none)
    (hnd : (xs ++ h :: ys).Nodup) (hw : m h = some w) :
    (xs = [] → Seg n m (n w) ys none) ∧
    (∀ xs' d, xs = xs' ++ [d] → ∃ wd, m d = some wd ∧ n wd = some h ∧
      ∀ wd', n wd' = n w → Seg n (store m d wd') p (xs ++ ys) none) := by
  obtain ⟨w0, hw0, h1, h2⟩ := seg_at hs
  rw [hw] at hw0; cases hw0
  refine ⟨fun _ => h2, ?_⟩
  rintro xs' d rfl
  obtain ⟨r, h3, h4⟩ := (seg_append xs' [d] p (some h)).1 h1
  obtain ⟨hr, wd, hwd, hnx⟩ := h4
  refine ⟨wd, hwd, hnx, fun wd' hn' => ?_⟩
  have hd1 : d ∉ xs' := by
    have := (List.nodup_append.1 hnd).1
    exact fun hm => (List.nodup_append.1 this).2.2 hm (List.mem_singleton_self d)
  have hd2 : d ∉ ys := by
    intro hm
    exact (List.nodup_append.1 hnd).2.2 (List.mem_append_right _ (List.mem_singleton_self d))
      (List.mem_cons_of_mem _ hm)
  refine (seg_append (xs' ++ [d]) ys p none).2 ⟨n w, seg_set_last h1 hd1 wd' hn', ?_⟩
  exact seg_congr h2 (fun b hb v hv =>
    ⟨v, by rw [store_other _ _ (fun (e : b = d) => hd2 (e ▸ hb))]; exact hv, rfl⟩)

theorem nil_or_snoc (l : List Nat) : l = [] ∨ ∃ xs a, l = xs ++ [a] := by
  rcases List.eq_nil_or_concat l with h | ⟨xs, a, h⟩
  · exact Or.inl h
  · exact Or.inr ⟨xs, a, by rw [h, List.concat_eq_append]⟩

theorem unlink_below_spec {s : Server} {pre post : List Nat} {h : Nat} {w : window}
    (hup : Seg window.up s.mem s.root (pre ++ h :: post) none)
    (hnd : (pre ++ h :: post).Nodup) (hw : s.mem h = some w)
    (hdn : Seg window.down s.mem w.down pre.reverse none) :
    ∃ s1, unlink_below s h = .ok s1 ∧ Seg window.up s1.mem s1.root (pre ++ post) none ∧
      s1.mem h = some w ∧ (∀ a, s.mem a = none → s1.mem a = none) ∧
      ∀ a v, s.mem a = some v → ∃ v', s1.mem a = some v' ∧ v' = { v with up := v'.up } := by
  obtain ⟨U1, U2⟩ := seg_skip hup hnd hw
  rcases nil_or_snoc pre with rfl | ⟨pre', d, rfl⟩
  · have hwd : w.down = none := hdn
    refine ⟨{ s with root := w.up }, ?_, U1 rfl, hw, fun _ ha => ha, fun a v hv => ⟨v, hv, rfl⟩⟩
    simp only [unlink_below, load_eq hw, bind, Except.bind, hwd]
    rfl
  · obtain ⟨wd, hwd, _, hseg⟩ := U2 pre' d rfl
    rw [List.reverse_append, List.reverse_singleton, List.singleton_append] at hdn
    have hwdn : w.down = some d := hdn.1
    have hdh : h ≠ d := by
      intro e
      subst e
      exact (List.nodup_append.1 hnd).2.2 (List.mem_append_right _ (List.mem_singleton_self _))
        (List.mem_cons_self _ _)
    refine ⟨{ s with mem := store s.mem d { wd with up := w.up } }, ?_,
      hseg _ rfl, by dsimp only; rw [store_other _ _ hdh]; exact hw, fun a ha => ?_,
      fun a v hv => ?_⟩
    · simp only [unlink_below, load_eq hw, bind, Except.bind, hwdn, modify_eq hwd]
      rfl
    · have had : a ≠ d := fun e => by rw [e, hwd] at ha; cases ha
      dsimp only
      rw [store_other _ _ had]; exact ha
    · by_cases had : a = d
      · subst had
        rw [hwd] at hv; cases hv
        exact ⟨_, store_same _ _ _, rfl⟩
      · exact ⟨v, by dsimp only; rw [store_other _ _ had]; exact hv, rfl⟩

theorem unlink_above_spec {s : Server} {xs ys : List Nat} {h : Nat} {w : window}
    {top : Option Nat} (hdn : Seg window.down s.mem top (xs ++ h :: ys) none)
    (hnd : (xs ++ h :: ys).Nodup) (hw : s.mem h = some w)
    (hup : Seg window.up s.mem w.up xs.reverse none) :
    ∃ s1, unlink_above s h = .ok s1 ∧ (∃ top', Seg window.down s1.mem top' (xs ++ ys) none) ∧
      s1.mem h = some w ∧ s1.root = s.root ∧ (∀ a, s.mem a = none → s1.mem a = none) ∧
      ∀ a v, s.mem a = some v → ∃ v', s1.mem a = some v' ∧ v' = { v with down := v'.down } := by
  obtain ⟨U1, U2⟩ := seg_skip hdn hnd hw
  rcases nil_or_snoc xs with rfl | ⟨xs', u, rfl⟩
  · have hwu : w.up = none := hup
    refine ⟨s, ?_, ⟨_, U1 rfl⟩, hw, rfl, fun _ ha => ha, fun a v hv => ⟨v, hv, rfl⟩⟩
    simp only [unlink_above, load_eq hw, bind, Except.bind, hwu]
    rfl
  · obtain ⟨wu, hwu, _, hseg⟩ := U2 xs' u rfl
    rw [List.reverse_append, List.reverse_singleton, List.singleton_append] at hup
    have hwup : w.up = some u := hup.1
    have huh : h ≠ u := by
      intro e
      subst e
      exact (List.nodup_append.1 hnd).2.2 (List.mem_append_right _ (List.mem_singleton_self _))
        (List.mem_cons_self _ _)
    refine ⟨{ s with mem := store s.mem u { wu with down := w.down } }, ?_,
      ⟨_, hseg _ rfl⟩, by dsimp only; rw [store_other _ _ huh]; exact hw, rfl, fun a ha => ?_,
      fun a v hv => ?_⟩
    · simp only [unlink_above, load_eq hw, bind, Except.bind, hwup, modify_eq hwu]
      rfl
    · have hau : a ≠ u := fun e => by rw [e, hwu] at ha; cases ha
      dsimp only
      rw [store_other _ _ hau]; exact ha
    · by_cases hau : a = u
      · subst hau
        rw [hwu] at hv; cases hv
        exact ⟨_, store_same _ _ _, rfl⟩
      · exact ⟨v, by dsimp only; rw [store_other _ _ hau]; exact hv, rfl⟩

/-- In a well-formed registry the record of a window links up to the windows
above it, and walking down from the top window reaches it after those. -/
theorem wf_down_at {s : Server} {pre post : List Nat} {h : Nat} (hwf : WF s (pre ++ h :: post)) :
    ∃ top, Seg window.down s.mem top (post.reverse ++ h :: pre.reverse) none := by
  obtain ⟨top, ht⟩ := hwf.down
  rw [List.reverse_append, List.reverse_cons, List.append_assoc, List.singleton_append] at ht
  exact ⟨top, ht⟩

theorem nodup_reverse_split {pre post : List Nat} {h : Nat} (hn : (pre ++ h :: post).Nodup) :
    (post.reverse ++ h :: pre.reverse).Nodup := by
  have := List.nodup_reverse.2 hn
  rwa [List.reverse_append, List.reverse_cons, List.append_assoc, List.singleton_append] at this

/-- On a well-formed registry the unlinking code returns; afterwards the other
windows form a doubly linked stack in their old order, and the unlinked record
is still allocated and unchanged. -/
theorem unlink_spec {s : Server} {pre post : List Nat} {h : Nat} {w : window}
    (hwf : WF s (pre ++ h :: post)) (hw : s.mem h = some w) :
    ∃ s', unlink s h = .ok s' ∧ Seg window.up s'.mem s'.root (pre ++ post) none ∧
      (∃ top, Seg window.down s'.mem top (pre ++ post).reverse none) ∧
      s'.mem h = some w ∧ SameData s.mem s'.mem := by
  obtain ⟨w0, hw0, _, hupw, hdnw⟩ := wf_at hwf
  rw [hw] at hw0; cases hw0
  obtain ⟨s1, e1, hup1, hw1, hnone1, hsome1⟩ := unlink_below_spec hwf.up hwf.nodup hw hdnw
  obtain ⟨top, hdn⟩ := wf_down_at hwf
  have hdn1 : Seg window.down s1.mem top (post.reverse ++ h :: pre.reverse) none :=
    seg_congr hdn (fun a _ v hv => by
      obtain ⟨v', hv', e⟩ := hsome1 a v hv
      exact ⟨v', hv', by rw [e]⟩)
  have hupw1 : Seg window.up s1.mem w.up post none := by
    obtain ⟨r, _, hr⟩ := (seg_append pre post _ _).1 hup1
    rw [seg_start hr, ← seg_start hupw] at hr
    exact hr
  obtain ⟨s2, e2, ⟨top', hdn2⟩, hw2, hroot, hnone2, hsome2⟩ :=
    unlink_above_spec hdn1 (nodup_reverse_split hwf.nodup) hw1
      (by rw [List.reverse_reverse]; exact hupw1)
  refine ⟨s2, ?_, ?_, ⟨top', by rw [List.reverse_append]; exact hdn2⟩, hw2, fun p => ⟨?_, ?_⟩⟩
  · simp only [unlink, e1, bind, Except.bind, e2]
  · rw [hroot]
    exact seg_congr hup1 (fun a _ v hv => by
      obtain ⟨v', hv', e⟩ := hsome2 a v hv
      exact ⟨v', hv', by rw [e]⟩)
  · exact fun hp => hnone2 p (hnone1 p hp)
  · intro v hv
    obtain ⟨v1, hv1, e1'⟩ := hsome1 p v hv
    obtain ⟨v2, hv2, e2'⟩ := hsome2 p v1 hv1
    refine ⟨v2, hv2, ?_⟩
    rw [e2', e1']

/-! ## Create -/

theorem store_store (m : Heap) (a : Nat) (w1 w2 : window) :
    store (store m a w1) a w2 = store m a w2 := by
  funext q
  by_cases hq : q = a <;> simp [store, hq]

theorem wf_not_mem {s : Server} {l : List Nat} (hwf : WF s l) {h : Nat} (hfresh : s.mem h = none) :
    h ∉ l := by
  intro hm
  obtain ⟨w, hw⟩ := (hwf.live h).2 hm
  rw [hfresh] at hw; cases hw

/-- On a well-formed registry `stui_create_window` returns the address that
`calloc` handed out; the new window is the new `root`, below all old windows,
whose order and data are unchanged. -/
theorem stui_create_window_spec {s : Server} {l : List Nat} {h : Nat} (cb : Nat)
    (hwf : WF s l) (hfresh : s.mem h = none) :
    ∃ s', stui_create_window s (some h) cb = .ok (s', some h) ∧ WF s' (h :: l) ∧
      s'.root = some h ∧ s'.mem h = some (created cb l.head?) ∧
      ∀ a v, s.mem a = some v → ∃ v', s'.mem a = some v' ∧ v' = { v with down := v'.down } := by
  have hnl := wf_not_mem hwf hfresh
  have hroot := seg_start hwf.up
  cases l with
  | nil =>
    have hr : s.root = none := hroot
    refine ⟨⟨store s.mem h (created cb none), some h⟩, ?_, ?_, rfl,
      store_same _ _ _, fun a v hv => ?_⟩
    · simp only [stui_create_window, modify_eq (store_same _ _ _), hr, bind, Except.bind, pure,
        Except.pure, store_store]
      rfl
    · refine ⟨⟨rfl, _, store_same _ _ _, rfl⟩, ⟨some h, rfl, _, store_same _ _ _, rfl⟩,
        List.nodup_singleton h, fun p => ?_⟩
      by_cases hp : p = h
      · subst hp; simp [store]
      · simp only [store_other _ _ hp, List.mem_singleton, hp, iff_false]
        rintro ⟨v, hv⟩
        exact List.not_mem_nil p ((hwf.live p).1 ⟨v, hv⟩)
    · have hah : a ≠ h := fun e => by rw [e, hfresh] at hv; cases hv
      exact ⟨v, by dsimp only; rw [store_other _ _ hah]; exact hv, rfl⟩
  | cons r t =>
    have hr : s.root = some r := hroot
    obtain ⟨_, wr, hwr, _⟩ := hwf.up
    have hrh : r ≠ h := fun e => hnl (e ▸ List.mem_cons_self _ _)
    have hmr : ∀ wh, store s.mem h wh r = some wr := by
      intro wh
      rw [store_other _ _ hrh]; exact hwr
    have hmh : ∀ wr', store (store s.mem h (created cb (some r))) r wr' h
        = some (created cb (some r)) := by
      intro wr'
      rw [store_other _ _ (Ne.symm hrh), store_same]
    have hold : ∀ a v, s.mem a = some v →
        ∃ v', store (store s.mem h (created cb (some r))) r
          { wr with down := some h } a = some v' ∧ v' = { v with down := v'.down } := by
      intro a v hv
      have hah : a ≠ h := fun e => by rw [e, hfresh] at hv; cases hv
      by_cases har : a = r
      · subst har
        rw [hwr] at hv; cases hv
        exact ⟨_, store_same _ _ _, rfl⟩
      · exact ⟨v, by rw [store_other _ _ har, store_other _ _ hah]; exact hv, rfl⟩
    refine ⟨⟨store (store s.mem h (created cb (some r))) r
      { wr with down := some h }, some h⟩, ?_, ?_, rfl, hmh _, hold⟩
    · simp only [stui_create_window, modify_eq (store_same _ _ _), hr, bind, Except.bind, pure,
        Except.pure, store_store, load_eq (store_same _ _ _), modify_eq (hmr _)]
      rfl
    · refine ⟨⟨rfl, _, hmh _, ?_⟩, ?_, List.nodup_cons.2 ⟨hnl, hwf.nodup⟩, fun p => ?_⟩
      · have hup0 : Seg window.up s.mem (some r) (r :: t) none := hr ▸ hwf.up
        exact seg_congr hup0 (fun a _ v hv => by
          obtain ⟨v', hv', e⟩ := hold a v hv
          exact ⟨v', hv', by rw [e]⟩)
      · obtain ⟨top, ht⟩ := hwf.down
        rw [List.reverse_cons] at ht
        have hrt : r ∉ t.reverse := fun hm =>
          (List.nodup_cons.1 hwf.nodup).1 (List.mem_reverse.1 hm)
        have h1 := seg_set_last ht hrt { wr with down := some h } rfl
        refine ⟨top, ?_⟩
        rw [List.reverse_cons, seg_append]
        refine ⟨some h, ?_, rfl, _, hmh _, rfl⟩
        rw [List.reverse_cons]
        refine seg_congr h1 (fun a ha v hv => ⟨v, ?_, rfl⟩)
        have hah : a ≠ h := fun e => hnl (e ▸ (List.mem_reverse.1 (List.reverse_cons r t ▸ ha)))
        dsimp only
        by_cases har : a = r
        · subst har
          rw [store_same] at hv ⊢
          exact hv
        · rw [store_other _ _ har] at hv ⊢
          rw [store_other _ _ hah]
          exact hv
      · by_cases hp : p = h
        · subst hp
          simp only [hmh, List.mem_cons, true_or, iff_true]
          exact ⟨_, rfl⟩
        · rw [List.mem_cons, ← hwf.live p]
          simp only [hp, false_or]
          constructor
          · rintro ⟨v', hv'⟩
            cases hsp : s.mem p with
            | none =>
              have hpr : p ≠ r := fun e => by rw [e, hwr] at hsp; cases hsp
              rw [store_other _ _ hpr, store_other _ _ hp, hsp] at hv'
              cases hv'
            | some v => exact ⟨v, rfl⟩
          · rintro ⟨v, hv⟩
            obtain ⟨v', hv', _⟩ := hold p v hv
            exact ⟨v', hv'⟩

/-! ## Raise -/

theorem store_self {m : Heap} {a : Nat} {w : window} (hw : m a = some w) : store m a w = m := by
  funext q
  by_cases hq : q = a
  · subst hq; rw [store_same, hw]
  · rw [store_other _ _ hq]

/-- The loop of `stui_raise_window` that looks for the top of the stack
returns on a walk that ends at `NULL`, and leaves the address of the last
window of the walk in `win->down`. -/
theorem raise_walk_spec (t : List Nat) (fuel a : Nat) (m : Heap) (h : Nat) (wh : window)
    (hs : Seg window.up m (some a) (a :: t) none) (hh : h ∉ a :: t) (hwh : m h = some wh)
    (hd : wh.down = some a) (hf : t.length ≤ fuel) :
    ∃ z, (a :: t).getLast? = some z ∧
      raise_walk fuel m h = .ok (store m h { wh with down := some z }) := by
  induction t generalizing fuel a m wh with
  | nil =>
    obtain ⟨_, wa, hwa, hup⟩ := hs
    have hup' : wa.up = none := hup
    refine ⟨a, rfl, ?_⟩
    have e : ({ wh with down := some a } : window) = wh := by
      cases wh; simp only at hd; subst hd; rfl
    unfold raise_walk
    simp only [load_eq hwh, hd, load_eq hwa, hup', e, store_self hwh]
  | cons b t ih =>
    obtain ⟨_, wa, hwa, hup⟩ := hs
    have hup' : wa.up = some b := hup.1
    cases fuel with
    | zero => simp at hf
    | succ f =>
      have hf' : t.length ≤ f := by simpa using hf
      have hhb : h ∉ b :: t := fun hm => hh (List.mem_cons_of_mem _ hm)
      have hseg : Seg window.up (store m h { wh with down := some b }) (some b) (b :: t) none := by
        rw [← hup']
        exact seg_congr hup (fun c hc v hv =>
          ⟨v, by rw [store_other _ _ (fun (e : c = h) => hhb (e ▸ hc))]; exact hv, rfl⟩)
      obtain ⟨z, hz, hr⟩ := ih f b _ { wh with down := some b } hseg hhb (store_same _ _ _) rfl hf'
      refine ⟨z, by rw [List.getLast?_cons_cons]; exact hz, ?_⟩
      unfold raise_walk
      simp only [load_eq hwh, hd, load_eq hwa, hup', modify_eq hwh, hr, store_store]

theorem rootScan_marked (l : List Nat) (m : Heap) : Marked m (rootScan l m) := by
  cases l with
  | nil => exact marked_refl m
  | cons r t => exact mdoL_marked t m r

theorem vacateL_marked (l below : List Nat) (h : Nat) (m : Heap) :
    Marked m (vacateL l below h m) :=
  marked_trans (mduL_marked below m h) (rootScan_marked l _)

/-- The two scans of `vacate` return when the window's `down` link starts a
walk to `NULL` and `root` starts a walk over a non-empty stack to `NULL`. -/
theorem vacate_eq {s : Server} {below t : List Nat} {r h fuel : Nat} {w : window}
    (hw : s.mem h = some w) (hdn : Seg window.down s.mem w.down below none)
    (hup : Seg window.up s.mem s.root (r :: t) none)
    (hf1 : below.length ≤ fuel) (hf2 : t.length ≤ fuel) :
    vacate fuel s h = .ok (vacateL (r :: t) below h s.mem) := by
  have hmk := mduL_marked below s.mem h
  have hup1 := marked_seg (n := window.up) (fun _ _ => rfl) hmk hup
  obtain ⟨hr, wr, hwr, hseg⟩ := hup1
  simp only [vacate, load_eq hw, bind, Except.bind,
    mark_dirty_underlapping_eq below fuel s.mem w.down h hdn hf1 ⟨w, hw⟩, mark_from_root, hr, hwr,
    mark_dirty_overlapping_eq t fuel _ wr.up r hseg hf2 ⟨wr, hwr⟩]
  rfl

theorem getLast_snoc {l : List Nat} {z : Nat} (h : l.getLast? = some z) :
    ∃ ini, l = ini ++ [z] := by
  rcases nil_or_snoc l with rfl | ⟨ini, z', rfl⟩
  · simp at h
  · rw [List.getLast?_append] at h
    simp at h
    exact ⟨ini, by rw [h]⟩

/-- Re-inserting an unlinked window on top of a non-empty doubly linked stack. -/
theorem put_on_top_spec {s : Server} {a : Nat} {t : List Nat} {h fuel : Nat} {w : window}
    (hup : Seg window.up s.mem s.root (a :: t) none)
    (hdn : ∃ top, Seg window.down s.mem top (a :: t).reverse none)
    (hnd : (a :: t).Nodup) (hh : h ∉ a :: t) (hw : s.mem h = some w) (hf : t.length ≤ fuel) :
    ∃ s', put_on_top fuel s h = .ok s' ∧ s'.root = s.root ∧
      Seg window.up s'.mem s'.root (a :: t ++ [h]) none ∧
      Seg window.down s'.mem (some h) (a :: t ++ [h]).reverse none ∧
      SameData s.mem s'.mem := by
  have hroot : s.root = some a := hup.1
  have hcong : ∀ wh, ∀ c ∈ a :: t, ∀ v, s.mem c = some v → store s.mem h wh c = some v := by
    intro wh c hc v hv
    rw [store_other _ _ (fun (e : c = h) => hh (e ▸ hc))]; exact hv
  have hseg2 : Seg window.up (store s.mem h { w with up := none, down := some a }) (some a)
      (a :: t) none :=
    hroot ▸ seg_congr hup (fun c hc v hv => ⟨v, hcong _ c hc v hv, rfl⟩)
  obtain ⟨z, hz, e3⟩ := raise_walk_spec t fuel a _ h { w with up := none, down := some a } hseg2
    hh (store_same _ _ _) rfl hf
  rw [store_store] at e3
  obtain ⟨ini, hini⟩ := getLast_snoc hz
  have hzm : z ∈ a :: t := by rw [hini]; simp
  have hzh : z ≠ h := fun e => hh (e ▸ hzm)
  obtain ⟨wz, hwz⟩ := seg_live hup z hzm
  have hm3z : store s.mem h { w with up := none, down := some z } z = some wz := by
    rw [store_other _ _ hzh]; exact hwz
  have hm4h : store (store s.mem h { w with up := none, down := some z }) z
      { wz with up := some h } h = some { w with up := none, down := some z } := by
    rw [store_other _ _ (Ne.symm hzh), store_same]
  refine ⟨⟨store (store s.mem h { w with up := none, down := some z }) z
    { wz with up := some h }, s.root⟩, ?_, rfl, ?_, ?_, fun p => ⟨fun hp => ?_, fun v hv => ?_⟩⟩
  · simp only [put_on_top, modify_eq hw, modify_eq (store_same _ _ _), store_store, hroot, bind,
      Except.bind, e3, load_eq (store_same _ _ _), modify_eq hm3z]
    rfl
  · have hzi : z ∉ ini := by
      rw [hini] at hnd
      exact fun hm => (List.nodup_append.1 hnd).2.2 hm (List.mem_singleton_self z)
    have h3 : Seg window.up (store s.mem h { w with up := none, down := some z }) s.root
        (ini ++ [z]) none :=
      hini ▸ seg_congr hup (fun c hc v hv => ⟨v, hcong _ c hc v hv, rfl⟩)
    have h4 := seg_set_last h3 hzi { wz with up := some h } rfl
    show Seg window.up _ s.root ((a :: t) ++ [h]) none
    rw [seg_append]
    exact ⟨some h, hini ▸ h4, rfl, _, hm4h, rfl⟩
  · show Seg window.down _ (some h) ((a :: t) ++ [h]).reverse none
    rw [List.reverse_append, List.reverse_singleton, List.singleton_append]
    refine ⟨rfl, _, hm4h, ?_⟩
    obtain ⟨top, ht⟩ := hdn
    have htop : top = some z := by
      rw [seg_start ht, hini]; simp
    rw [htop] at ht
    refine seg_congr ht (fun c hc v hv => ?_)
    have hch : c ≠ h := fun e => hh (e ▸ List.mem_reverse.1 hc)
    by_cases hcz : c = z
    · subst hcz
      rw [hwz] at hv; cases hv
      exact ⟨_, store_same _ _ _, rfl⟩
    · exact ⟨v, by dsimp only; rw [store_other _ _ hcz, store_other _ _ hch]; exact hv, rfl⟩
  · have hph : p ≠ h := fun e => by rw [e, hw] at hp; cases hp
    have hpz : p ≠ z := fun e => by rw [e, hwz] at hp; cases hp
    show store _ _ _ p = none
    rw [store_other _ _ hpz, store_other _ _ hph]; exact hp
  · show ∃ v', store _ _ _ p = some v' ∧ _
    by_cases hpz : p = z
    · subst hpz
      rw [hwz] at hv; cases hv
      exact ⟨_, store_same _ _ _, rfl⟩
    · rw [store_other _ _ hpz]
      by_cases hph : p = h
      · subst hph
        rw [hw] at hv; cases hv
        exact ⟨_, store_same _ _ _, rfl⟩
      · exact ⟨v, by rw [store_other _ _ hph]; exact hv, rfl⟩

theorem sameData_live {m m' : Heap} (h : SameData m m') (p : Nat) :
    (∃ w, m' p = some w) ↔ ∃ w, m p = some w := by
  constructor
  · rintro ⟨w', hw'⟩
    cases hp : m p with
    | none => rw [(h p).1 hp] at hw'; cases hw'
    | some w => exact ⟨w, rfl⟩
  · rintro ⟨w, hw⟩
    obtain ⟨w', hw', _⟩ := (h p).2 w hw
    exact ⟨w', hw'⟩

theorem perm_raise (pre post : List Nat) (h : Nat) :
    List.Perm (pre ++ post ++ [h]) (pre ++ h :: post) :=
  (List.perm_append_singleton h (pre ++ post)).trans List.perm_middle.symm

/-- The scans that `redim_window` and `stui_raise_window` run before they change
a visible window return on a well-formed registry. -/
theorem vacate_if_eq {s : Server} {pre post : List Nat} {h fuel : Nat} {w : window}
    (hwf : WF s (pre ++ h :: post)) (hw : s.mem h = some w)
    (hf : (pre ++ h :: post).length ≤ fuel) :
    (if w.visible = true then vacate fuel s h else pure s.mem)
      = .ok (if w.visible = true then vacateL (pre ++ h :: post) pre.reverse h s.mem
          else s.mem) := by
  obtain ⟨w0, hw0, _, _, hdnw⟩ := wf_at hwf
  rw [hw] at hw0; cases hw0
  by_cases hv : w.visible = true
  · simp only [hv, if_true]
    obtain ⟨r, t, hl⟩ := List.exists_cons_of_ne_nil
      (show pre ++ h :: post ≠ [] from by simp)
    have hup := hwf.up
    rw [hl] at hup hf ⊢
    have h1 : pre.reverse.length ≤ fuel := by
      have : (pre ++ h :: post).length = (r :: t).length := by rw [hl]
      simp only [List.length_append, List.length_cons, List.length_reverse] at this hf ⊢
      omega
    exact vacate_eq hw hdnw hup h1 (by simp only [List.length_cons] at hf; omega)
  · simp only [hv, if_false, Bool.false_eq_true]
    rfl

/-- On a well-formed registry with at least two windows `stui_raise_window`
returns; the window is then on top, the other windows keep their order, and
the data of all windows is what the scans for a vacated rectangle left. -/
theorem stui_raise_window_spec {s : Server} {pre post : List Nat} {h fuel : Nat} {w : window}
    (hwf : WF s (pre ++ h :: post)) (hw : s.mem h = some w)
    (hf : (pre ++ h :: post).length ≤ fuel) (hne : pre ++ post ≠ []) :
    ∃ s', stui_raise_window fuel s h = .ok s' ∧ WF s' (pre ++ post ++ [h]) ∧
      SameData (if w.visible = true then vacateL (pre ++ h :: post) pre.reverse h s.mem
        else s.mem) s'.mem := by
  have e1 := vacate_if_eq hwf hw hf
  have hmk : Marked s.mem (if w.visible = true
      then vacateL (pre ++ h :: post) pre.reverse h s.mem else s.mem) := by
    split
    · exact vacateL_marked _ _ _ _
    · exact marked_refl _
  generalize (if w.visible = true then vacateL (pre ++ h :: post) pre.reverse h s.mem
    else s.mem) = m1 at e1 hmk
  have hwf1 : WF { s with mem := m1 } (pre ++ h :: post) := hwf.sameLinks (sameLinks_of_marked hmk)
  obtain ⟨w1, hw1, _, _⟩ := marked_get hmk hw
  obtain ⟨s2, e2, hup2, hdn2, hw2, hsd2⟩ := unlink_spec hwf1 hw1
  obtain ⟨a, t, hl⟩ := List.exists_cons_of_ne_nil hne
  have hperm := perm_raise pre post h
  have hnd3 : (pre ++ post ++ [h]).Nodup := hperm.nodup_iff.2 hwf.nodup
  rw [hl] at hup2 hdn2 hnd3 ⊢
  have hnd2 : (a :: t).Nodup := (List.nodup_append.1 hnd3).1
  have hh : h ∉ a :: t := fun hm =>
    (List.nodup_append.1 hnd3).2.2 hm (List.mem_singleton_self h)
  have hf2 : t.length ≤ fuel := by
    have : (pre ++ post).length = (a :: t).length := by rw [hl]
    simp only [List.length_append, List.length_cons] at this hf ⊢
    omega
  obtain ⟨s3, e3, _, hup3, hdn3, hsd3⟩ := put_on_top_spec hup2 hdn2 hnd2 hh hw2 hf2
  refine ⟨s3, ?_, ⟨hup3, ⟨_, hdn3⟩, hnd3, fun p => ?_⟩, sameData_trans hsd2 hsd3⟩
  · simp only [stui_raise_window, load_eq hw, bind, Except.bind]
    by_cases hv : w.visible = true
    · rw [if_pos hv] at e1 ⊢
      simp only [e1, e2, e3]
    · rw [if_neg hv] at e1 ⊢
      simp only [e1, e2, e3]
  · rw [sameData_live hsd3, sameData_live hsd2]
    have := hwf1.live p
    rw [this, ← hl]
    exact (hperm.mem_iff).symm

theorem mark_dirty_underlapping_null (fuel : Nat) (m : Heap) (src : Nat) :
    mark_dirty_underlapping fuel m none src = .ok m := by
  cases fuel <;> rfl

theorem mark_dirty_overlapping_null (fuel : Nat) (m : Heap) (src : Nat) :
    mark_dirty_overlapping fuel m none src = .ok m := by
  cases fuel <;> rfl

/-- The loop of `stui_raise_window` reads through `NULL` when `win->down` is
`NULL`. -/
theorem raise_walk_null (fuel : Nat) {m : Heap} {h : Nat} {wh : window} (hwh : m h = some wh)
    (hd : wh.down = none) : raise_walk fuel m h = .error .segv := by
  unfold raise_walk
  simp only [load_eq hwh, hd]
  rfl

/-- Facts about a registry that holds a single window. -/
theorem wf_single {s : Server} {h : Nat} (hwf : WF s [h]) :
    ∃ w, s.mem h = some w ∧ w.up = none ∧ w.down = none ∧ s.root = some h := by
  obtain ⟨hr, w, hw, hup⟩ := hwf.up
  obtain ⟨top, _, w', hw', hdn⟩ := hwf.down
  rw [hw] at hw'; cases hw'
  exact ⟨w, hw, hup, hdn, hr⟩

/-- With a single window in the registry the scans of `vacate` find nothing
to mark. -/
theorem vacate_single {s : Server} {h : Nat} (fuel : Nat) (hwf : WF s [h]) :
    vacate fuel s h = .ok s.mem := by
  obtain ⟨w, hw, hup, hdn, hr⟩ := wf_single hwf
  simp only [vacate, load_eq hw, bind, Except.bind, hdn, mark_dirty_underlapping_null,
    mark_from_root, hr, hw, hup, mark_dirty_overlapping_null]

/-- Raising the only window of a registry reads through `NULL`: the unlinking
code leaves `root` at `NULL`, the window gets `down = root`, and the loop
condition `win->down->up` dereferences it. -/
theorem stui_raise_window_single {s : Server} {h : Nat} (fuel : Nat) (hwf : WF s [h]) :
    stui_raise_window fuel s h = .error .segv := by
  obtain ⟨w, hw, hup, hdn, hr⟩ := wf_single hwf
  have hwf' : WF s ([] ++ h :: []) := hwf
  obtain ⟨s2, e2, hup2, _, hw2, _⟩ := unlink_spec hwf' hw
  have hr2 : s2.root = none := hup2
  have e1 : (if w.visible = true then vacate fuel s h else pure s.mem) = .ok s.mem := by
    split
    · exact vacate_single fuel hwf
    · rfl
  have e3 : put_on_top fuel s2 h = .error .segv := by
    have e := raise_walk_null fuel (store_same (store s2.mem h { w with up := none }) h
      { w with up := none, down := none }) rfl
    simp only [put_on_top, modify_eq hw2, modify_eq (store_same _ _ _), bind, Except.bind, hr2, e]
  simp only [stui_raise_window, load_eq hw, bind, Except.bind]
  by_cases hv : w.visible = true
  · rw [if_pos hv] at e1 ⊢
    simp only [e1, e2, e3]
  · rw [if_neg hv] at e1 ⊢
    simp only [e1, e2, e3]

/-- Destroying the only window of a registry while it is visible reads through
`NULL`: the window is unlinked first, which leaves `root` at `NULL`, and the
scan `mark_dirty_overlapping( root->up, root )` then dereferences `root`. -/
theorem stui_destroy_window_single {s : Server} {h : Nat} {w : window} (fuel : Nat)
    (hwf : WF s [h]) (hw : s.mem h = some w) (hv : w.visible = true) :
    stui_destroy_window fuel s h = .error .segv := by
  obtain ⟨w0, hw0, hup, hdn, hr⟩ := wf_single hwf
  rw [hw] at hw0; cases hw0
  have hwf' : WF s ([] ++ h :: []) := hwf
  obtain ⟨s1, e1, hup1, _, hw1, _⟩ := unlink_spec hwf' hw
  have hr1 : s1.root = none := hup1
  have e2 : vacate fuel s1 h = .error .segv := by
    simp only [vacate, load_eq hw1, bind, Except.bind, hdn, mark_dirty_underlapping_null,
      mark_from_root, hr1]
  simp only [stui_destroy_window, e1, bind, Except.bind, load_eq hw1, hv, if_true, e2]

/-! ## Destroy -/

theorem release_same (m : Heap) (a : Nat) : release m a a = none := by
  simp [release]

theorem release_other (m : Heap) {a b : Nat} (h : b ≠ a) : release m a b = m b := by
  simp [release, h]

/-- Unless the window is visible and alone in the registry, `stui_destroy_window`
returns on a well-formed registry: the window is gone, the other windows keep
their order, and their data is what the scans for a vacated rectangle, run
after the unlinking, left. -/
theorem stui_destroy_window_spec {s : Server} {pre post : List Nat} {h fuel : Nat} {w : window}
    (hwf : WF s (pre ++ h :: post)) (hw : s.mem h = some w)
    (hf : (pre ++ h :: post).length ≤ fuel) (hok : w.visible = true → pre ++ post ≠ []) :
    ∃ s' m1, stui_destroy_window fuel s h = .ok s' ∧ WF s' (pre ++ post) ∧ SameData s.mem m1 ∧
      m1 h = some w ∧
      s'.mem = release (if w.visible = true then vacateL (pre ++ post) pre.reverse h m1
        else m1) h := by
  obtain ⟨w0, hw0, _, _, hdnw⟩ := wf_at hwf
  rw [hw] at hw0; cases hw0
  obtain ⟨s1, e1, hup1, ⟨top1, hdn1⟩, hw1, hsd1⟩ := unlink_spec hwf hw
  have hnd : (pre ++ post).Nodup := by
    have := hwf.nodup
    rw [List.nodup_append] at this ⊢
    exact ⟨this.1, (List.nodup_cons.1 this.2.1).2,
      fun a ha hb => this.2.2 ha (List.mem_cons_of_mem _ hb)⟩
  have hh : h ∉ pre ++ post := by
    have := (perm_raise pre post h).nodup_iff.2 hwf.nodup
    exact fun hm => (List.nodup_append.1 this).2.2 hm (List.mem_singleton_self h)
  have hdnw1 : Seg window.down s1.mem w.down pre.reverse none := by
    rw [List.reverse_append] at hdn1
    obtain ⟨r, _, hr⟩ := (seg_append post.reverse pre.reverse _ _).1 hdn1
    rw [seg_start hr, ← seg_start hdnw] at hr
    exact hr
  have e2 : (if w.visible = true then vacate fuel s1 h else pure s1.mem)
      = .ok (if w.visible = true then vacateL (pre ++ post) pre.reverse h s1.mem else s1.mem) := by
    by_cases hv : w.visible = true
    · rw [if_pos hv, if_pos hv]
      obtain ⟨r, t, hl⟩ := List.exists_cons_of_ne_nil (hok hv)
      have hlen : (pre ++ post).length = (r :: t).length := by rw [hl]
      rw [hl] at hup1 ⊢
      simp only [List.length_append, List.length_cons] at hlen hf
      exact vacate_eq hw1 hdnw1 hup1 (by simp only [List.length_reverse]; omega) (by omega)
    · rw [if_neg hv, if_neg hv]; rfl
  have hmk : Marked s1.mem (if w.visible = true then vacateL (pre ++ post) pre.reverse h s1.mem
      else s1.mem) := by
    split
    · exact vacateL_marked _ _ _ _
    · exact marked_refl _
  refine ⟨{ s1 with mem := release (if w.visible = true
    then vacateL (pre ++ post) pre.reverse h s1.mem else s1.mem) h }, s1.mem, ?_, ?_, hsd1, hw1, rfl⟩
  · generalize (if w.visible = true then vacateL (pre ++ post) pre.reverse h s1.mem
      else s1.mem) = m2 at e2 hmk
    obtain ⟨w2, hw2, _⟩ := marked_get hmk hw1
    simp only [stui_destroy_window, e1, bind, Except.bind, load_eq hw1]
    by_cases hv : w.visible = true
    · rw [if_pos hv] at e2 ⊢
      simp only [e2, load_eq hw2]; rfl
    · rw [if_neg hv] at e2 ⊢
      simp only [e2, load_eq hw2]; rfl
  · generalize (if w.visible = true then vacateL (pre ++ post) pre.reverse h s1.mem
      else s1.mem) = m2 at hmk
    have hcong : ∀ (n : window → Option Nat), (∀ v b, n { v with dirty := b } = n v) →
        ∀ c ∈ pre ++ post, ∀ v, s1.mem c = some v → ∃ v', release m2 h c = some v' ∧ n v' = n v := by
      intro n hn c hc v hv
      obtain ⟨v', hv', e, _⟩ := marked_get hmk hv
      refine ⟨v', ?_, by rw [e]; exact hn _ _⟩
      rw [release_other _ (fun (e : c = h) => hh (e ▸ hc))]; exact hv'
    refine ⟨seg_congr hup1 (hcong window.up (fun _ _ => rfl)),
      ⟨top1, seg_congr hdn1 (fun c hc =>
        hcong window.down (fun _ _ => rfl) c (List.mem_reverse.1 hc))⟩,
      hnd, fun p => ?_⟩
    show (∃ v, release m2 h p = some v) ↔ _
    by_cases hp : p = h
    · subst hp
      simp only [release_same, hh, iff_false]
      rintro ⟨v, hv⟩; cases hv
    · rw [release_other _ hp, sameLinks_live (sameLinks_of_marked hmk), sameData_live hsd1,
        hwf.live p]
      simp only [List.mem_append, List.mem_cons, hp, false_or]

/-! ## Hide, repaint, move and resize -/

/-- The two scans of `vacate` return on a well-formed registry. -/
theorem vacate_wf_eq {s : Server} {pre post : List Nat} {h fuel : Nat}
    (hwf : WF s (pre ++ h :: post)) (hf : (pre ++ h :: post).length ≤ fuel) :
    vacate fuel s h = .ok (vacateL (pre ++ h :: post) pre.reverse h s.mem) := by
  obtain ⟨w, hw, _, _, hdnw⟩ := wf_at hwf
  obtain ⟨r, t, hl⟩ := List.exists_cons_of_ne_nil (show pre ++ h :: post ≠ [] from by simp)
  have hup := hwf.up
  have hlen : (pre ++ h :: post).length = (r :: t).length := by rw [hl]
  rw [hl] at hup ⊢
  simp only [List.length_append, List.length_cons] at hlen hf
  exact vacate_eq hw hdnw hup (by simp only [List.length_reverse]; omega) (by omega)

/-- Result of `stui_hide_window` on a well-formed registry. -/
theorem stui_hide_window_eq {s : Server} {pre post : List Nat} {h fuel : Nat} {w : window}
    (hwf : WF s (pre ++ h :: post)) (hw : s.mem h = some w)
    (hf : (pre ++ h :: post).length ≤ fuel) :
    stui_hide_window fuel s h = .ok (if w.visible = true then
      { s with mem := (vacateL (pre ++ h :: post) pre.reverse h
          (store s.mem h { w with visible := false })) }
      else s) := by
  simp only [stui_hide_window, load_eq hw, bind, Except.bind]
  by_cases hv : w.visible = true
  · have hwf1 : WF { s with mem := store s.mem h { w with visible := false } }
        (pre ++ h :: post) := hwf.sameLinks (sameLinks_store hw rfl rfl)
    rw [if_pos hv, if_pos hv]
    simp only [modify_eq hw, vacate_wf_eq hwf1 hf]
    rfl
  · rw [if_neg hv, if_neg hv]
    rfl

/-- Result of `stui_repaint` on a well-formed registry. -/
theorem stui_repaint_eq {s : Server} {pre post : List Nat} {h fuel : Nat}
    (hwf : WF s (pre ++ h :: post)) (hf : post.length + 1 ≤ fuel) :
    stui_repaint fuel s h = .ok { s with mem := (mdoL (h :: post) s.mem h) } := by
  obtain ⟨w, hw, _, hup, _⟩ := wf_at hwf
  have hseg : Seg window.up s.mem (some h) (h :: post) none := ⟨rfl, w, hw, hup⟩
  simp only [stui_repaint, bind, Except.bind,
    mark_dirty_overlapping_eq (h :: post) fuel _ (some h) h hseg (by simpa using hf) ⟨_, hw⟩]
  rfl

/-- Result of `redim_window` on a well-formed registry. -/
theorem redim_window_eq {s : Server} {pre post : List Nat} {h fuel : Nat} {w : window}
    (row col width height : Nat)
    (hwf : WF s (pre ++ h :: post)) (hw : s.mem h = some w)
    (hf : (pre ++ h :: post).length ≤ fuel) :
    redim_window fuel s h row col width height
      = .ok { s with mem := (redimL (pre ++ h :: post) pre post h w row col width height s.mem) } := by
  simp only [redim_window, load_eq hw, bind, Except.bind, redimL]
  by_cases hv : w.visible = true
  · have hmk := vacateL_marked (pre ++ h :: post) pre.reverse h s.mem
    obtain ⟨w1, hw1, he1, _⟩ := marked_get hmk hw
    have hwf1 : WF ⟨vacateL (pre ++ h :: post) pre.reverse h s.mem, s.root⟩
        (pre ++ h :: post) := hwf.sameLinks (sameLinks_of_marked hmk)
    have hwf2 : WF ⟨store (vacateL (pre ++ h :: post) pre.reverse h s.mem) h
        (setGeom w1 row col width height), s.root⟩
        (pre ++ h :: post) := hwf1.sameLinks (sameLinks_store hw1 rfl rfl)
    obtain ⟨w2, hw2, _, hup2, _⟩ := wf_at hwf2
    have hw2' : store (vacateL (pre ++ h :: post) pre.reverse h s.mem) h
        (setGeom w1 row col width height) h = some (setGeom w1 row col width height) :=
      store_same _ _ _
    have hw2'' : w2 = setGeom w1 row col width height := Option.some.inj (hw2.symm.trans hw2')
    subst hw2''
    have hv1 : w1.visible = true := by rw [he1]; exact hv
    have hv2 : (setGeom w1 row col width height).visible = true := hv1
    have hf' : post.length ≤ fuel := by
      simp only [List.length_append, List.length_cons] at hf; omega
    have e3 := mark_dirty_overlapping_eq post fuel _ _ h hup2 hf' ⟨_, hw2'⟩
    have e2 : modify (vacateL (pre ++ h :: post) pre.reverse h s.mem) (some h)
        (fun x => { x with row := row, col := col, width := width, height := height })
        = .ok (store (vacateL (pre ++ h :: post) pre.reverse h s.mem) h
          (setGeom w1 row col width height)) := modify_eq hw1 _
    rw [if_pos hv, if_pos hv]
    simp only [vacate_wf_eq hwf hf, e2, load_eq hw2', hv2, if_true, e3, hw1]
    rfl
  · have hv' : w.visible = false := by simpa using hv
    have e2 : modify s.mem (some h)
        (fun x => { x with row := row, col := col, width := width, height := height })
        = .ok (store s.mem h (setGeom w row col width height)) := modify_eq hw _
    have hv2 : (setGeom w row col width height).visible = false := hv'
    rw [if_neg hv, if_neg hv]
    simp only [pure, Except.pure, e2, load_eq (store_same _ _ _), hv2, if_false,
      Bool.false_eq_true]

/-! ## Claims on the z-order: create, raise, destroy -/

theorem wf_init : WF init [] where
  up := rfl
  down := ⟨none, rfl⟩
  nodup := List.nodup_nil
  live := fun p => by
    constructor
    · rintro ⟨w, hw⟩; cases hw
    · intro hp; cases hp

/-- C1 (amended): on a well-formed registry with z-order `l` (bottom first),
`stui_create_window` with a fresh address `h` returns `h`, and the new window is
the bottom one: it is the new `root`, it has no `down` neighbour, its `up`
neighbour is the old bottom window, and the z-order is `h :: l`, so every old
window is above it and the old windows keep their relative order. -/
theorem create_inserts_at_bottom (s : Server) (l : List Nat) (h cb : Nat) (hwf : WF s l)
    (hfresh : s.mem h = none) :
    ∃ s' w, stui_create_window s (some h) cb = .ok (s', some h) ∧ WF s' (h :: l) ∧
      s'.root = some h ∧ s'.mem h = some w ∧ w.down = none ∧ w.up = l.head? := by
  obtain ⟨s', e, hwf', hr, hm, _⟩ := stui_create_window_spec cb hwf hfresh
  exact ⟨s', _, e, hwf', hr, hm, rfl, rfl⟩

/-- Instance of `create_inserts_at_bottom`: a registry that holds window 1, new
address 2. -/
theorem create_inserts_at_bottom_witness :
    WF (mkServer [(1, rect 0 0 10 5 true false)]) [1] ∧
    (mkServer [(1, rect 0 0 10 5 true false)]).mem 2 = none ∧
    ∃ s' w, stui_create_window (mkServer [(1, rect 0 0 10 5 true false)]) (some 2) 7
        = .ok (s', some 2) ∧ WF s' (2 :: [1]) ∧
      s'.root = some 2 ∧ s'.mem 2 = some w ∧ w.down = none ∧ w.up = [1].head? :=
  ⟨wf_mkServer _ (by decide), rfl,
    create_inserts_at_bottom (mkServer [(1, rect 0 0 10 5 true false)]) [1] 2 7
      (wf_mkServer _ (by decide)) rfl⟩

/-- C1 fails as stated: created in a registry that holds window 1, the new
window 2 has window 1 as its `up` neighbour, and the z-order is `[2, 1]`: the
old window is above the new one, which is not topmost. -/
theorem create_not_topmost :
    WF (mkServer [(1, rect 0 0 10 5 true false)]) [1] ∧
    ∃ s' w, stui_create_window (mkServer [(1, rect 0 0 10 5 true false)]) (some 2) 7
        = .ok (s', some 2) ∧ s'.mem 2 = some w ∧ w.up = some 1 ∧ WF s' [2, 1] := by
  have hwf : WF (mkServer [(1, rect 0 0 10 5 true false)]) [1] := wf_mkServer _ (by decide)
  obtain ⟨s', e, hwf', _, hm, _⟩ := stui_create_window_spec (h := 2) 7 hwf rfl
  exact ⟨hwf, s', _, e, hm, rfl, hwf'⟩

/-- C2 (code defect): on every well-formed registry that holds a single
window `h`, `stui_raise_window` does not complete: for every step bound it
ends in a read through `NULL` (the loop condition `win->down->up` with
`win->down == root == NULL`). -/
theorem raise_only_window_faults (s : Server) (h fuel : Nat) (hwf : WF s [h]) :
    stui_raise_window fuel s h = .error .segv :=
  stui_raise_window_single fuel hwf

/-- Instance of `raise_only_window_faults`: a registry with the single hidden
window 1. -/
theorem raise_only_window_faults_witness :
    WF (mkServer [(1, rect 0 0 10 5 false false)]) [1] ∧
    stui_raise_window 8 (mkServer [(1, rect 0 0 10 5 false false)]) 1 = .error .segv :=
  ⟨wf_mkServer _ (by decide),
    raise_only_window_faults (mkServer [(1, rect 0 0 10 5 false false)]) 1 8
      (wf_mkServer _ (by decide))⟩

/-- C3 (code defect): on every well-formed registry that holds a single
window `h`, and `h` is visible, `stui_destroy_window` does not complete: for
every step bound it ends in a read through `NULL` (`root->up` with
`root == NULL` after the unlinking). -/
theorem destroy_only_visible_window_faults (s : Server) (h fuel : Nat) (w : window)
    (hwf : WF s [h]) (hw : s.mem h = some w) (hv : w.visible = true) :
    stui_destroy_window fuel s h = .error .segv :=
  stui_destroy_window_single fuel hwf hw hv

/-- Instance of `destroy_only_visible_window_faults`: a registry with the
single visible window 1. -/
theorem destroy_only_visible_window_faults_witness :
    WF (mkServer [(1, rect 0 0 10 5 true false)]) [1] ∧
    stui_destroy_window 8 (mkServer [(1, rect 0 0 10 5 true false)]) 1 = .error .segv :=
  ⟨wf_mkServer _ (by decide),
    destroy_only_visible_window_faults (mkServer [(1, rect 0 0 10 5 true false)]) 1 8 _
      (wf_mkServer _ (by decide)) rfl rfl⟩

/-- C4 (code defect): from the empty registry, creating a window and raising
it does not leave a registry at all: for every address `h` that `calloc`
returns, every callback and every step bound, the run ends in a read through
`NULL` inside `stui_raise_window`. -/
theorem create_then_raise_faults (h cb fuel : Nat) :
    (do let r ← stui_create_window init (some h) cb
        stui_raise_window fuel r.1 h) = Except.error Fault.segv := by
  obtain ⟨s', e, hwf', _⟩ := stui_create_window_spec (h := h) cb wf_init rfl
  simp only [e, bind, Except.bind]
  exact stui_raise_window_single fuel hwf'

/-! ## Claims on damage: raise, show then hide, destroy against hide -/

theorem overlap_test_geom {w w' s s' : window} (hw : GeomEq w w') (hs : GeomEq s s') :
    overlap_test w' s' = overlap_test w s := by
  obtain ⟨a1, a2, a3, a4⟩ := hw
  obtain ⟨b1, b2, b3, b4⟩ := hs
  simp only [overlap_test, a1, a2, a3, a4, b1, b2, b3, b4]

/-- C5 (amended): in a well-formed registry of two visible, clean windows `a`
(bottom) and `b` (top) whose rectangles pass the overlap test,
`stui_raise_window` on `a` returns, `a` is then on top, `b` is dirty, and `a`
is still clean: as the bottom window `a` is the source of the scan from `root`,
which marks only windows above it. -/
theorem raise_marks_only_the_other (s : Server) (a b fuel : Nat) (wa wb : window)
    (hwf : WF s [a, b]) (hf : 2 ≤ fuel) (hA : s.mem a = some wa) (hB : s.mem b = some wb)
    (hva : wa.visible = true) (hvb : wb.visible = true) (hda : wa.dirty = false)
    (hdb : wb.dirty = false) (hov : overlap_test wa wb = true) :
    ∃ s' wa' wb', stui_raise_window fuel s a = .ok s' ∧ WF s' [b, a] ∧
      s'.mem a = some wa' ∧ wa'.dirty = false ∧ s'.mem b = some wb' ∧ wb'.dirty = true := by
  have hwf' : WF s ([] ++ a :: [b]) := hwf
  have hab : a ≠ b := by
    have := hwf.nodup
    simp only [List.nodup_cons, List.mem_singleton] at this
    exact this.1
  have hlen : ([] ++ a :: [b]).length ≤ fuel := by simpa using hf
  obtain ⟨s', e, hwf3, hsd⟩ := stui_raise_window_spec hwf' hA hlen (by simp)
  rw [if_pos hva] at hsd
  have hov' : overlap_test wb wa = true := by rw [overlap_test_symm]; exact hov
  have hm : vacateL ([] ++ a :: [b]) ([] : List Nat).reverse a s.mem
      = store s.mem b (setDirty wb) := by
    show mdoL [b] s.mem a = _
    simp only [mdoL, hB, hA, hvb, hdb, hov', Bool.not_false, Bool.and_self, if_true]
  rw [hm] at hsd
  obtain ⟨wa', hwa', ea⟩ := (hsd a).2 wa (by rw [store_other _ _ hab]; exact hA)
  obtain ⟨wb', hwb', eb⟩ := (hsd b).2 (setDirty wb) (store_same _ _ _)
  exact ⟨s', wa', wb', e, hwf3, hwa', by rw [ea]; exact hda, hwb', by rw [eb]; rfl⟩

/-- Instance of `raise_marks_only_the_other`: window 1 at `(0,0)` below window 2
at `(2,2)`, both `10 x 5`, visible and clean. -/
theorem raise_marks_only_the_other_witness :
    WF (mkServer [(1, rect 0 0 10 5 true false), (2, rect 2 2 10 5 true false)]) [1, 2] ∧
    ∃ s' wa' wb', stui_raise_window 2
        (mkServer [(1, rect 0 0 10 5 true false), (2, rect 2 2 10 5 true false)]) 1 = .ok s' ∧
      WF s' [2, 1] ∧
      s'.mem 1 = some wa' ∧ wa'.dirty = false ∧ s'.mem 2 = some wb' ∧ wb'.dirty = true :=
  ⟨wf_mkServer _ (by decide),
    raise_marks_only_the_other
      (mkServer [(1, rect 0 0 10 5 true false), (2, rect 2 2 10 5 true false)]) 1 2 2 _ _
      (wf_mkServer _ (by decide)) (by decide) rfl rfl rfl rfl rfl rfl (by decide)⟩

/-- C5 fails as stated: with `A = 1` at `(0,0)` of size `10 x 5` below `B = 2`
at `(2,2)` of size `10 x 5`, both visible and clean and overlapping, after
`stui_raise_window` on `A` window `B` is dirty but `A` is not. -/
theorem raise_leaves_raised_window_clean :
    WF (mkServer [(1, rect 0 0 10 5 true false), (2, rect 2 2 10 5 true false)]) [1, 2] ∧
    overlap_test (rect 0 0 10 5 true false) (rect 2 2 10 5 true false) = true ∧
    ∃ s' wa wb, stui_raise_window 2
        (mkServer [(1, rect 0 0 10 5 true false), (2, rect 2 2 10 5 true false)]) 1 = .ok s' ∧
      s'.mem 1 = some wa ∧ s'.mem 2 = some wb ∧ ¬ (wa.dirty = true ∧ wb.dirty = true) :=
  ⟨wf_mkServer _ (by decide), by decide, _, _, _, rfl, rfl, rfl, by decide⟩

/-- C8 (code defect): with visible `h = 1` at `(0,0)` of size `10 x 5` at the
bottom and visible, clean window 2 at `(2,2)` of size `10 x 5` above it,
`stui_destroy_window` on `h` leaves window 2 clean, while `stui_hide_window` on
`h` from the same state marks window 2 dirty. -/
theorem destroy_differs_from_hide :
    WF (mkServer [(1, rect 0 0 10 5 true false), (2, rect 2 2 10 5 true false)]) [1, 2] ∧
    (∃ s' w, stui_destroy_window 2
        (mkServer [(1, rect 0 0 10 5 true false), (2, rect 2 2 10 5 true false)]) 1 = .ok s' ∧
      s'.mem 2 = some w ∧ w.dirty = false) ∧
    (∃ s' w, stui_hide_window 2
        (mkServer [(1, rect 0 0 10 5 true false), (2, rect 2 2 10 5 true false)]) 1 = .ok s' ∧
      s'.mem 2 = some w ∧ w.dirty = true) :=
  ⟨wf_mkServer _ (by decide), ⟨_, _, rfl, rfl, rfl⟩, ⟨_, _, rfl, rfl, rfl⟩⟩

/-- C7: in a well-formed registry with distinct windows `A` and `B`, `B`
visible, whose rectangles pass the overlap test, wherever `B` is in the
z-order and whatever the dirty flags are, `stui_show_window` on `A` followed by
`stui_hide_window` on `A` both return, and afterwards `B` is dirty and `A` is
not visible. -/
theorem show_hide_marks_overlapping (s : Server) (l : List Nat) (A B fuel : Nat)
    (wa wb : window) (hwf : WF s l) (hf : l.length ≤ fuel) (hA : s.mem A = some wa)
    (hB : s.mem B = some wb) (hAB : A ≠ B) (hvB : wb.visible = true)
    (hov : overlap_test wa wb = true) :
    ∃ s1 s2 wa' wb', stui_show_window fuel s A = .ok s1 ∧ stui_hide_window fuel s1 A = .ok s2 ∧
      s2.mem B = some wb' ∧ wb'.dirty = true ∧ s2.mem A = some wa' ∧ wa'.visible = false := by
  obtain ⟨pre, post, rfl⟩ := wf_mem hwf hA
  have hf' : post.length + 1 ≤ fuel := by
    simp only [List.length_append, List.length_cons] at hf; omega
  have hBl : B ∈ pre ++ A :: post := (hwf.live B).1 ⟨wb, hB⟩
  have hovB : overlap_test wb wa = true := by rw [overlap_test_symm]; exact hov
  -- the heap after `win->flag.visible = 1`
  obtain ⟨m0, hm0⟩ : ∃ m0, m0 = store s.mem A { wa with visible := true } := ⟨_, rfl⟩
  have hA0 : m0 A = some { wa with visible := true } := by rw [hm0]; exact store_same _ _ _
  have hB0 : m0 B = some wb := by rw [hm0, store_other _ _ (Ne.symm hAB)]; exact hB
  have hwf0 : WF ⟨m0, s.root⟩ (pre ++ A :: post) :=
    hwf.sameLinks (hm0 ▸ sameLinks_store hA rfl rfl)
  -- the heap after the scan of `stui_show_window`
  obtain ⟨m1, hm1⟩ : ∃ m1, m1 = mdoL (A :: post) m0 A := ⟨_, rfl⟩
  have e1 : stui_show_window fuel s A = .ok ⟨m1, s.root⟩ := by
    rw [hm1, hm0]; exact stui_show_window_eq hwf hA hf'
  have hmk1 : Marked m0 m1 := hm1 ▸ mdoL_marked (A :: post) m0 A
  have hwf1 : WF ⟨m1, s.root⟩ (pre ++ A :: post) := hwf0.sameLinks (sameLinks_of_marked hmk1)
  obtain ⟨wa1, hA1, ea1, _⟩ := marked_get hmk1 hA0
  have hv1 : wa1.visible = true := by rw [ea1]
  -- the heap after `win->flag.visible = 0`
  obtain ⟨m2, hm2⟩ : ∃ m2, m2 = store m1 A { wa1 with visible := false } := ⟨_, rfl⟩
  have hA2 : m2 A = some { wa1 with visible := false } := by rw [hm2]; exact store_same _ _ _
  have hwf2 : WF ⟨m2, s.root⟩ (pre ++ A :: post) :=
    hwf1.sameLinks (hm2 ▸ sameLinks_store hA1 rfl rfl)
  have e2 : stui_hide_window fuel ⟨m1, s.root⟩ A
      = .ok ⟨vacateL (pre ++ A :: post) pre.reverse A m2, s.root⟩ := by
    have := stui_hide_window_eq hwf1 hA1 hf
    rw [if_pos hv1] at this
    rw [hm2]; exact this
  have hmk3 := vacateL_marked (pre ++ A :: post) pre.reverse A m2
  obtain ⟨wa3, hwa3, ea3, _⟩ := marked_get hmk3 hA2
  have hBd : ∃ wb3, vacateL (pre ++ A :: post) pre.reverse A m2 B = some wb3
      ∧ wb3.dirty = true := by
    rcases List.mem_append.1 hBl with hBpre | hBpost
    · obtain ⟨wb1, hwb1, eb1, _⟩ := marked_get hmk1 hB0
      have hwb2 : m2 B = some wb1 := by rw [hm2, store_other _ _ (Ne.symm hAB)]; exact hwb1
      have hl : ∀ a ∈ pre.reverse, ∃ w, m2 a = some w :=
        fun a ha => (hwf2.live a).2 (List.mem_append_left _ (List.mem_reverse.1 ha))
      have hu : underlap_test { wa1 with visible := false } wb1 = true := by
        rw [underlap_test_eq, ← hovB]
        exact overlap_test_geom (by rw [eb1]; exact ⟨rfl, rfl, rfl, rfl⟩)
          (by rw [ea1]; exact ⟨rfl, rfl, rfl, rfl⟩)
      obtain ⟨wb2, hwb2', hd2⟩ := mduL_marks pre.reverse m2 A B hl (List.mem_reverse.2 hBpre)
        hwb2 hA2 (by rw [eb1]; exact hvB) hu
      obtain ⟨wb3, hwb3, _, hd3⟩ := marked_get (rootScan_marked (pre ++ A :: post) _) hwb2'
      exact ⟨wb3, hwb3, hd3 hd2⟩
    · rcases List.mem_cons.1 hBpost with hBA | hBpost
      · exact absurd hBA.symm hAB
      · have hl : ∀ a ∈ A :: post, ∃ w, m0 a = some w :=
          fun a ha => (hwf0.live a).2 (List.mem_append_right _ ha)
        have ho : overlap_test wb { wa with visible := true } = true := by
          rw [← hovB]; exact overlap_test_geom ⟨rfl, rfl, rfl, rfl⟩ ⟨rfl, rfl, rfl, rfl⟩
        obtain ⟨wb1, hwb1, hd1⟩ := mdoL_marks (A :: post) m0 A B hl
          (List.mem_cons_of_mem _ hBpost) hB0 hA0 hvB ho
        have hwb2 : m2 B = some wb1 := by
          rw [hm2, store_other _ _ (Ne.symm hAB), hm1]; exact hwb1
        obtain ⟨wb3, hwb3, _, hd3⟩ := marked_get hmk3 hwb2
        exact ⟨wb3, hwb3, hd3 hd1⟩
  obtain ⟨wb3, hwb3, hd3⟩ := hBd
  exact ⟨_, _, wa3, wb3, e1, e2, hwb3, hd3, hwa3, by rw [ea3]⟩

/-- Instance of `show_hide_marks_overlapping`: `A = 2` hidden on top of visible
`B = 1`, rectangles overlapping. -/
theorem show_hide_marks_overlapping_witness :
    WF (mkServer [(1, rect 0 0 10 5 true false), (2, rect 2 2 10 5 false false)]) [1, 2] ∧
    ∃ s1 s2 wa' wb', stui_show_window 2
        (mkServer [(1, rect 0 0 10 5 true false), (2, rect 2 2 10 5 false false)]) 2 = .ok s1 ∧
      stui_hide_window 2 s1 2 = .ok s2 ∧
      s2.mem 1 = some wb' ∧ wb'.dirty = true ∧ s2.mem 2 = some wa' ∧ wa'.visible = false :=
  ⟨wf_mkServer _ (by decide),
    show_hide_marks_overlapping
      (mkServer [(1, rect 0 0 10 5 true false), (2, rect 2 2 10 5 false false)]) [1, 2] 2 1 2 _ _
      (wf_mkServer _ (by decide)) (by decide) rfl rfl (by decide) rfl (by decide)⟩

/-! ## Windows that no scan reaches are never marked -/

theorem misses_of_marked {m m' : Heap} {wb : window} {c : Nat} (hmk : Marked m m')
    (h : Misses m wb c) : Misses m' wb c := by
  intro wc' hwc'
  obtain ⟨wc, hwc, e, _⟩ := marked_get_back hmk hwc'
  have hg : GeomEq wc wc' := by rw [e]; exact ⟨rfl, rfl, rfl, rfl⟩
  rw [overlap_test_geom (⟨rfl, rfl, rfl, rfl⟩ : GeomEq wb wb) hg]
  exact h wc hwc

theorem clearOf_of_marked {m m' : Heap} {wb : window} {t : List Nat} (hmk : Marked m m')
    (h : ClearOf m wb t) : ClearOf m' wb t := by
  intro c hc wc' hwc' hv hd
  obtain ⟨wc, hwc, e, hdd⟩ := marked_get_back hmk hwc'
  have hg : GeomEq wc wc' := by rw [e]; exact ⟨rfl, rfl, rfl, rfl⟩
  have hv0 : wc.visible = true := by rw [e] at hv; exact hv
  have hd0 : wc.dirty = false := by
    cases hx : wc.dirty with
    | false => rfl
    | true => rw [hdd hx] at hd; cases hd
  rw [overlap_test_geom (⟨rfl, rfl, rfl, rfl⟩ : GeomEq wb wb) hg]
  exact h c hc wc hwc hv0 hd0

theorem clearOf_subset {m : Heap} {wb : window} {t t' : List Nat} (hsub : ∀ c ∈ t', c ∈ t)
    (h : ClearOf m wb t) : ClearOf m wb t' :=
  fun c hc => h c (hsub c hc)

theorem tracks_refl (m : Heap) (A : Nat) : Tracks m m A :=
  fun _ wc _ hwc => ⟨wc, hwc, ⟨rfl, rfl, rfl, rfl⟩, rfl, id⟩

theorem tracks_of_marked {m m1 m2 : Heap} {A : Nat} (h : Tracks m m1 A) (hmk : Marked m1 m2) :
    Tracks m m2 A := by
  intro c wc2 hcA hwc2
  obtain ⟨wc1, hwc1, e, hdd⟩ := marked_get_back hmk hwc2
  obtain ⟨wc, hwc, hg, hv, hd⟩ := h c wc1 hcA hwc1
  refine ⟨wc, hwc, ?_, ?_, fun hx => hdd (hd hx)⟩
  · rw [e]; exact hg
  · rw [e]; exact hv

theorem tracks_store {m m1 : Heap} {A : Nat} (w : window) (h : Tracks m m1 A) :
    Tracks m (store m1 A w) A := by
  intro c wc hcA hwc
  rw [store_other _ _ hcA] at hwc
  exact h c wc hcA hwc

theorem tracks_of_sameData {m m1 : Heap} (A : Nat) (hsd : SameData m m1) : Tracks m m1 A := by
  intro c wc1 _ hwc1
  cases hc : m c with
  | none => rw [(hsd c).1 hc] at hwc1; cases hwc1
  | some wc =>
    obtain ⟨v', hv', e⟩ := (hsd c).2 wc hc
    rw [hwc1] at hv'; cases hv'
    refine ⟨wc, rfl, ?_, ?_, ?_⟩
    · rw [e]; exact ⟨rfl, rfl, rfl, rfl⟩
    · rw [e]
    · intro hx; rw [e]; exact hx

/-- From the hypothesis on the registry before the operation to the heaps that
the scans of the operation run on. -/
theorem sources_clear {m m' : Heap} {below : List Nat} {A : Nat} {wb wb' : window}
    (hn : below.Nodup) (hg : GeomEq wb wb') (htr : Tracks m m' A) (hmA : Misses m' wb' A)
    (hsrc : ClearBelow m below A wb) :
    ClearOf m' wb' below ∧ (∀ r, below.head? = some r → Misses m' wb' r) ∧
      (∀ r, (below.erase A).head? = some r → Misses m' wb' r) := by
  have key : ∀ c ∈ below, c ≠ A → ∀ wc', m' c = some wc' →
      ((below.erase A).head? = some c ∨ (wc'.visible = true ∧ wc'.dirty = false)) →
      overlap_test wb' wc' = false := by
    intro c hc hcA wc' hwc' hor
    obtain ⟨wc, hwc, hgc, hv, hd⟩ := htr c wc' hcA hwc'
    rw [overlap_test_geom hg hgc]
    refine hsrc c hc hcA wc hwc ?_
    rcases hor with h | ⟨h1, h2⟩
    · exact Or.inl h
    · refine Or.inr ⟨by rw [← hv]; exact h1, ?_⟩
      cases hx : wc.dirty with
      | false => rfl
      | true => rw [hd hx] at h2; cases h2
  refine ⟨?_, ?_, ?_⟩
  · intro c hc wc' hwc' hv hd
    by_cases hcA : c = A
    · subst hcA; exact hmA wc' hwc'
    · exact key c hc hcA wc' hwc' (Or.inr ⟨hv, hd⟩)
  · intro r hr wr' hwr'
    by_cases hrA : r = A
    · subst hrA; exact hmA wr' hwr'
    · cases below with
      | nil => cases hr
      | cons b t =>
        simp only [List.head?_cons, Option.some.injEq] at hr
        subst hr
        refine key b (List.mem_cons_self _ _) hrA wr' hwr' (Or.inl ?_)
        rw [List.erase_cons_tail (by simpa using hrA)]
        rfl
  · intro r hr wr' hwr'
    have hmem : r ∈ below.erase A := List.mem_of_mem_head? hr
    have hrA : r ≠ A := (hn.mem_erase_iff.1 hmem).1
    exact key r (List.mem_of_mem_erase hmem) hrA wr' hwr' (Or.inl hr)

theorem mduL_clear (l : List Nat) (m : Heap) (src B : Nat) (wb : window) (hB : m B = some wb)
    (hs : Misses m wb src) : mduL l m src B = m B := by
  induction l generalizing m with
  | nil => rfl
  | cons a t ih =>
    cases h1 : m a with
    | none => simp only [mduL, h1]
    | some w =>
      cases h2 : m src with
      | none => simp only [mduL, h1, h2]
      | some ws =>
        simp only [mduL, h1, h2]
        split
        · rename_i hc
          simp only [Bool.and_eq_true, Bool.not_eq_true', Bool.not_eq_eq_eq_not, Bool.not_true] at hc
          have haB : a ≠ B := by
            intro e
            subst e
            rw [hB] at h1; cases h1
            rw [underlap_test_eq, hs ws h2] at hc
            exact Bool.false_ne_true hc.2
          have hB1 : store m a (setDirty w) B = some wb := by
            rw [store_other _ _ (Ne.symm haB)]; exact hB
          rw [ih _ hB1 (misses_of_marked (marked_store h1 hc.1.2) hs),
            store_other _ _ (Ne.symm haB)]
        · exact ih _ hB hs

theorem mdoL_clear (t1 t2 : List Nat) (m : Heap) (src B : Nat) (wb : window)
    (hB : m B = some wb) (hB1 : B ∉ t1) (hB2 : B ∉ t2) (hs : Misses m wb src)
    (hc : ClearOf m wb t1) : mdoL (t1 ++ B :: t2) m src B = m B := by
  induction t1 generalizing m src with
  | nil =>
    cases h2 : m src with
    | none => simp only [List.nil_append, mdoL, hB, h2]
    | some ws =>
      simp only [List.nil_append, mdoL, hB, h2, hs ws h2, Bool.and_false]
      exact (mdoL_support t2 m src B hB2).trans hB
  | cons a t ih =>
    have haB : a ≠ B := fun e => hB1 (e ▸ List.mem_cons_self _ _)
    have hBt : B ∉ t := fun h => hB1 (List.mem_cons_of_mem _ h)
    have hct : ClearOf m wb t := clearOf_subset (fun c h => List.mem_cons_of_mem _ h) hc
    show mdoL (a :: (t ++ B :: t2)) m src B = m B
    cases h1 : m a with
    | none => simp only [mdoL, h1]
    | some w =>
      cases h2 : m src with
      | none => simp only [mdoL, h1, h2]
      | some ws =>
        simp only [mdoL, h1, h2]
        split
        · rename_i hcond
          simp only [Bool.and_eq_true, Bool.not_eq_true', Bool.not_eq_eq_eq_not, Bool.not_true]
            at hcond
          have hmk1 := marked_store h1 hcond.1.2
          have hmk2 := mdoL_marked (t ++ B :: t2) (store m a (setDirty w)) a
          have hB1' : store m a (setDirty w) B = some wb := by
            rw [store_other _ _ (Ne.symm haB)]; exact hB
          have hs1 : Misses (store m a (setDirty w)) wb a := by
            intro wc hwc
            rw [store_same] at hwc; cases hwc
            exact hc a (List.mem_cons_self _ _) w h1 hcond.1.1 hcond.1.2
          have e1 := ih (store m a (setDirty w)) a hB1' hBt hs1 (clearOf_of_marked hmk1 hct)
          have hB2' : mdoL (t ++ B :: t2) (store m a (setDirty w)) a B = some wb :=
            e1.trans hB1'
          rw [ih _ src hB2' hBt (misses_of_marked (marked_trans hmk1 hmk2) hs)
            (clearOf_of_marked (marked_trans hmk1 hmk2) hct), hB2', hB]
        · exact ih m src hB hBt hs hct

theorem rootScan_clear (bl ab : List Nat) (m : Heap) (B : Nat) (wb : window)
    (hB : m B = some wb) (hn : (bl ++ B :: ab).Nodup)
    (hr : ∀ r, bl.head? = some r → Misses m wb r) (hc : ClearOf m wb bl) :
    rootScan (bl ++ B :: ab) m B = m B := by
  cases bl with
  | nil => exact mdoL_support ab m B B (List.nodup_cons.1 hn).1
  | cons r t1 =>
    have hn1 : (t1 ++ B :: ab).Nodup := (List.nodup_cons.1 hn).2
    have hB1 : B ∉ t1 := fun h =>
      (List.nodup_append.1 hn1).2.2 h (List.mem_cons_self _ _)
    have hB2 : B ∉ ab := (List.nodup_cons.1 (List.nodup_append.1 hn1).2.1).1
    exact mdoL_clear t1 ab m r B wb hB hB1 hB2 (hr r rfl)
      (clearOf_subset (fun c h => List.mem_cons_of_mem _ h) hc)

theorem vacateL_clear (bl ab pre : List Nat) (m : Heap) (A B : Nat) (wb : window)
    (hB : m B = some wb) (hn : (bl ++ B :: ab).Nodup) (hA : Misses m wb A)
    (hr : ∀ r, bl.head? = some r → Misses m wb r) (hc : ClearOf m wb bl) :
    vacateL (bl ++ B :: ab) pre A m B = m B := by
  unfold vacateL
  have hmk := mduL_marked pre m A
  have e1 := mduL_clear pre m A B wb hB hA
  rw [rootScan_clear bl ab _ B wb (e1.trans hB) hn
    (fun r h => misses_of_marked hmk (hr r h)) (clearOf_of_marked hmk hc), e1]

theorem split_unique {B : Nat} (x1 x2 y1 y2 : List Nat) (h1 : B ∉ x1) (h2 : B ∉ x2)
    (h : x1 ++ B :: y1 = x2 ++ B :: y2) : x1 = x2 := by
  induction x1 generalizing x2 with
  | nil =>
    cases x2 with
    | nil => rfl
    | cons b x2 =>
      simp only [List.nil_append, List.cons_append, List.cons.injEq] at h
      exact absurd (h.1 ▸ List.mem_cons_self _ _) h2
  | cons a x1 ih =>
    cases x2 with
    | nil =>
      simp only [List.nil_append, List.cons_append, List.cons.injEq] at h
      exact absurd (h.1 ▸ List.mem_cons_self _ _) h1
    | cons b x2 =>
      simp only [List.cons_append, List.cons.injEq] at h
      rw [h.1, ih x2 (fun hm => h1 (List.mem_cons_of_mem _ hm))
        (fun hm => h2 (List.mem_cons_of_mem _ hm)) h.2]

/-- The scans that start at window `A` or just above it: they leave a window
alone that passes the test against neither `A` nor a visible clean window
between `A` and itself. -/
theorem upper_clear {below above pre post : List Nat} {A B : Nat} {wb : window} (m : Heap)
    (hl : below ++ B :: above = pre ++ A :: post) (hn : (below ++ B :: above).Nodup)
    (hAB : A ≠ B) (hB : m B = some wb) (hs : Misses m wb A) (hc : ClearOf m wb below) :
    mdoL post m A B = m B ∧ mdoL (A :: post) m A B = m B := by
  by_cases hBp : B ∈ post
  · obtain ⟨t1, t2, rfl⟩ := List.append_of_mem hBp
    have hn2 : (pre ++ A :: (t1 ++ B :: t2)).Nodup := hl ▸ hn
    have hn3 : (A :: (t1 ++ B :: t2)).Nodup := (List.nodup_append.1 hn2).2.1
    have hn4 : (t1 ++ B :: t2).Nodup := (List.nodup_cons.1 hn3).2
    have hB1 : B ∉ t1 := fun h => (List.nodup_append.1 hn4).2.2 h (List.mem_cons_self _ _)
    have hB2 : B ∉ t2 := (List.nodup_cons.1 (List.nodup_append.1 hn4).2.1).1
    have hBb : B ∉ below := fun h => (List.nodup_append.1 hn).2.2 h (List.mem_cons_self _ _)
    have hBp1 : B ∉ pre ++ A :: t1 := by
      intro h
      rcases List.mem_append.1 h with h | h
      · exact (List.nodup_append.1 hn2).2.2 h
          (List.mem_cons_of_mem _ (List.mem_append_right _ (List.mem_cons_self _ _)))
      · rcases List.mem_cons.1 h with h | h
        · exact hAB h.symm
        · exact hB1 h
    have hbel : below = pre ++ A :: t1 := by
      refine split_unique below (pre ++ A :: t1) above t2 hBb hBp1 ?_
      rw [hl]; simp
    have hc1 : ClearOf m wb (A :: t1) :=
      clearOf_subset (fun c h => by rw [hbel]; exact List.mem_append_right _ h) hc
    refine ⟨mdoL_clear t1 t2 m A B wb hB hB1 hB2 hs
      (clearOf_subset (fun c h => List.mem_cons_of_mem _ h) hc1), ?_⟩
    have hBA1 : B ∉ A :: t1 := fun h => hBp1 (List.mem_append_right _ h)
    exact mdoL_clear (A :: t1) t2 m A B wb hB hBA1 hB2 hs hc1
  · exact ⟨mdoL_support post m A B hBp, mdoL_support (A :: post) m A B (by
      intro h
      rcases List.mem_cons.1 h with h | h
      · exact hAB h.symm
      · exact hBp h)⟩

/-- C6 (amended): in a well-formed registry let window `B` pass the overlap
test against neither the rectangle of window `A` before the operation, nor the
rectangle of `A` after it, nor any window below `B`, other than `A`, that is
the lowest window other than `A` or is visible and clean. Then each of show,
hide, move, resize, raise, repaint and destroy on `A` returns and leaves the
dirty flag of `B` as it was. Windows above `B`, and hidden or dirty windows
below it, may overlap `B`. -/
theorem unreached_window_keeps_dirty_flag (s : Server) (below above : List Nat)
    (A B fuel rows cols : Nat) (op : WinOp) (wa wb : window)
    (hwf : WF s (below ++ B :: above)) (hf : (below ++ B :: above).length ≤ fuel)
    (hA : s.mem A = some wa) (hB : s.mem B = some wb) (hAB : A ≠ B)
    (hold : overlap_test wb wa = false)
    (hnew : overlap_test wb (rect_after rows cols wa op) = false)
    (hsrc : ClearBelow s.mem below A wb) :
    ∃ s' wb', run_op fuel rows cols s A op = .ok s' ∧ s'.mem B = some wb' ∧
      wb'.dirty = wb.dirty := by
  obtain ⟨pre, post, hl⟩ := wf_mem hwf hA
  have hn := hwf.nodup
  have hnb : below.Nodup := (List.nodup_append.1 hn).1
  have hwf2 : WF s (pre ++ A :: post) := hl ▸ hwf
  have hf2 : (pre ++ A :: post).length ≤ fuel := hl ▸ hf
  have hf' : post.length + 1 ≤ fuel := by
    simp only [List.length_append, List.length_cons] at hf2; omega
  have hBl : B ∈ pre ++ A :: post := (hwf2.live B).1 ⟨wb, hB⟩
  have hne : pre ++ post ≠ [] := by
    intro e
    obtain ⟨rfl, rfl⟩ := List.append_eq_nil.1 e
    simp only [List.nil_append, List.mem_singleton] at hBl
    exact hAB hBl.symm
  have hgb : GeomEq wb wb := ⟨rfl, rfl, rfl, rfl⟩
  have hvac : ∀ m', Tracks s.mem m' A → m' B = some wb → Misses m' wb A →
      vacateL (pre ++ A :: post) pre.reverse A m' B = some wb := by
    intro m' htr hB' hmA
    obtain ⟨hc, hr, _⟩ := sources_clear hnb hgb htr hmA hsrc
    rw [← hl, vacateL_clear below above pre.reverse m' A B wb hB' hn hmA hr hc]
    exact hB'
  have hup : ∀ m', Tracks s.mem m' A → m' B = some wb → Misses m' wb A →
      mdoL post m' A B = some wb ∧ mdoL (A :: post) m' A B = some wb := by
    intro m' htr hB' hmA
    obtain ⟨hc, _, _⟩ := sources_clear hnb hgb htr hmA hsrc
    obtain ⟨h1, h2⟩ := upper_clear m' hl hn hAB hB' hmA hc
    exact ⟨h1.trans hB', h2.trans hB'⟩
  have hmA0 : Misses s.mem wb A := by
    intro wc hwc
    rw [hA] at hwc; cases hwc
    exact hold
  have hredim : ∀ row col width height,
      overlap_test wb (setGeom wa row col width height) = false →
      ∃ s' wb', redim_window fuel s A row col width height = .ok s' ∧ s'.mem B = some wb' ∧
        wb'.dirty = wb.dirty := by
    intro row col width height hnew'
    refine ⟨_, wb, redim_window_eq row col width height hwf2 hA hf2, ?_, rfl⟩
    show redimL (pre ++ A :: post) pre post A wa row col width height s.mem B = some wb
    unfold redimL
    by_cases hv : wa.visible = true
    · rw [if_pos hv]
      have hmk := vacateL_marked (pre ++ A :: post) pre.reverse A s.mem
      obtain ⟨w1, hw1, e1, _⟩ := marked_get hmk hA
      have hB1 := hvac s.mem (tracks_refl _ _) hB hmA0
      have hmA3 : Misses (store (vacateL (pre ++ A :: post) pre.reverse A s.mem) A
          (setGeom w1 row col width height)) wb A := by
        intro wc hwc
        rw [store_same] at hwc; cases hwc
        rw [← hnew']
        exact overlap_test_geom ⟨rfl, rfl, rfl, rfl⟩ ⟨rfl, rfl, rfl, rfl⟩
      simp only [hw1]
      exact (hup _ (tracks_store _ (tracks_of_marked (tracks_refl _ _) hmk))
        (by rw [store_other _ _ (Ne.symm hAB)]; exact hB1) hmA3).1
    · rw [if_neg hv, store_other _ _ (Ne.symm hAB)]
      exact hB
  cases op with
  | opShow =>
    refine ⟨_, wb, stui_show_window_eq hwf2 hA hf', ?_, rfl⟩
    show mdoL (A :: post) (store s.mem A { wa with visible := true }) A B = some wb
    refine (hup _ (tracks_store _ (tracks_refl _ _))
      (by rw [store_other _ _ (Ne.symm hAB)]; exact hB) ?_).2
    intro wc hwc
    rw [store_same] at hwc; cases hwc
    exact hold
  | opHide =>
    refine ⟨_, wb, stui_hide_window_eq hwf2 hA hf2, ?_, rfl⟩
    by_cases hv : wa.visible = true
    · rw [if_pos hv]
      show vacateL (pre ++ A :: post) pre.reverse A (store s.mem A { wa with visible := false }) B
        = some wb
      refine hvac _ (tracks_store _ (tracks_refl _ _))
        (by rw [store_other _ _ (Ne.symm hAB)]; exact hB) ?_
      intro wc hwc
      rw [store_same] at hwc; cases hwc
      exact hold
    · rw [if_neg hv]
      exact hB
  | opMove row col =>
    obtain ⟨s', wb', e, h1, h2⟩ := hredim row col wa.width wa.height hnew
    refine ⟨s', wb', ?_, h1, h2⟩
    simp only [run_op, stui_move_window, load_eq hA, bind, Except.bind]
    exact e
  | opResize width height =>
    obtain ⟨s', wb', e, h1, h2⟩ := hredim wa.row wa.col _ _ hnew
    refine ⟨s', wb', ?_, h1, h2⟩
    simp only [run_op, stui_resize_window, load_eq hA, bind, Except.bind]
    exact e
  | opRaise =>
    obtain ⟨s', e, _, hsd⟩ := stui_raise_window_spec hwf2 hA hf2 hne
    have hB1 : (if wa.visible = true then vacateL (pre ++ A :: post) pre.reverse A s.mem
        else s.mem) B = some wb := by
      split
      · exact hvac s.mem (tracks_refl _ _) hB hmA0
      · exact hB
    obtain ⟨wb', hwb', eb⟩ := (hsd B).2 wb hB1
    exact ⟨s', wb', e, hwb', by rw [eb]⟩
  | opRepaint =>
    refine ⟨_, wb, stui_repaint_eq hwf2 hf', ?_, rfl⟩
    show mdoL (A :: post) s.mem A B = some wb
    exact (hup s.mem (tracks_refl _ _) hB hmA0).2
  | opDestroy =>
    obtain ⟨s', m1, e, hwf', hsd, hm1A, hm⟩ := stui_destroy_window_spec hwf2 hA hf2 (fun _ => hne)
    obtain ⟨wb1, hwb1, eb⟩ := (hsd B).2 wb hB
    refine ⟨s', wb1, e, ?_, by rw [eb]⟩
    rw [hm, release_other _ (Ne.symm hAB)]
    split
    · have hgb1 : GeomEq wb wb1 := by rw [eb]; exact ⟨rfl, rfl, rfl, rfl⟩
      have hmA1 : Misses m1 wb1 A := by
        intro wc hwc
        rw [hm1A] at hwc; cases hwc
        rw [overlap_test_geom hgb1 (⟨rfl, rfl, rfl, rfl⟩ : GeomEq wa wa)]
        exact hold
      obtain ⟨hc, _, hr⟩ := sources_clear hnb hgb1 (tracks_of_sameData A hsd) hmA1 hsrc
      have hAp : A ∉ pre := fun h =>
        (List.nodup_append.1 hwf2.nodup).2.2 h (List.mem_cons_self _ _)
      have herase : pre ++ post = (below ++ B :: above).erase A := by
        rw [hl, List.erase_append_right _ hAp, List.erase_cons_head]
      have hsplit : ∃ ab, pre ++ post = below.erase A ++ B :: ab := by
        by_cases hAb : A ∈ below
        · exact ⟨above, by rw [herase, List.erase_append_left _ hAb]⟩
        · refine ⟨above.erase A, ?_⟩
          rw [herase, List.erase_append_right _ hAb, List.erase_of_not_mem hAb,
            List.erase_cons_tail (by simpa using Ne.symm hAB)]
      obtain ⟨ab, hab⟩ := hsplit
      rw [hab, vacateL_clear (below.erase A) ab pre.reverse m1 A B wb1 hwb1
        (hab ▸ hwf'.nodup) hmA1 hr (clearOf_subset (fun c h => List.mem_of_mem_erase h) hc)]
      exact hwb1
    · exact hwb1

/-- Instance of `unreached_window_keeps_dirty_flag`: five windows, bottom
first. Window 1 is far away, window 2 is hidden and covers window 3, window 4
is visible, clean and overlaps window 3 from above, and window 5 overlaps
window 4 but not window 3. Hiding window 5 leaves window 3 clean, although
windows 2 and 4 overlap it. -/
theorem unreached_window_keeps_dirty_flag_witness :
    WF (mkServer [(1, rect 0 60 5 5 true false), (2, rect 10 10 10 5 false false),
      (3, rect 10 10 10 5 true false), (4, rect 12 12 20 5 true false),
      (5, rect 14 30 10 5 true false)]) ([1, 2] ++ 3 :: [4, 5]) ∧
    ClearBelow (mkServer [(1, rect 0 60 5 5 true false), (2, rect 10 10 10 5 false false),
      (3, rect 10 10 10 5 true false), (4, rect 12 12 20 5 true false),
      (5, rect 14 30 10 5 true false)]).mem [1, 2] 5 (rect 10 10 10 5 true false) ∧
    overlap_test (rect 10 10 10 5 true false) (rect 10 10 10 5 false false) = true ∧
    overlap_test (rect 10 10 10 5 true false) (rect 12 12 20 5 true false) = true ∧
    overlap_test (rect 10 10 10 5 true false) (rect 14 30 10 5 true false) = false ∧
    ∃ s' wb', run_op 5 24 80
        (mkServer [(1, rect 0 60 5 5 true false), (2, rect 10 10 10 5 false false),
          (3, rect 10 10 10 5 true false), (4, rect 12 12 20 5 true false),
          (5, rect 14 30 10 5 true false)]) 5 WinOp.opHide = .ok s' ∧
      s'.mem 3 = some wb' ∧ wb'.dirty = false := by
  have hsrc : ∀ wb : window, GeomEq (rect 10 10 10 5 true false) wb →
      ClearBelow (mkServer [(1, rect 0 60 5 5 true false),
        (2, rect 10 10 10 5 false false), (3, rect 10 10 10 5 true false),
        (4, rect 12 12 20 5 true false), (5, rect 14 30 10 5 true false)]).mem [1, 2] 5 wb := by
    intro wb hg c hc hcA wc hwc hor
    have hc' : c = 1 ∨ c = 2 := by simpa using hc
    rcases hc' with h | h
    · subst h
      have e1 : wc = { rect 0 60 5 5 true false with down := none, up := some 2 } :=
        (Option.some.inj hwc).symm
      subst e1
      exact (overlap_test_geom hg
        (⟨rfl, rfl, rfl, rfl⟩ : GeomEq (rect 0 60 5 5 true false) _)).trans (by decide)
    · subst h
      have e2 : wc = { rect 10 10 10 5 false false with down := some 1, up := some 3 } :=
        (Option.some.inj hwc).symm
      subst e2
      rcases hor with h | h
      · exact absurd h (by decide)
      · exact absurd h.1 (by decide)
  exact ⟨wf_mkServer _ (by decide), hsrc _ ⟨rfl, rfl, rfl, rfl⟩, by decide, by decide, by decide,
    unreached_window_keeps_dirty_flag
      (mkServer [(1, rect 0 60 5 5 true false), (2, rect 10 10 10 5 false false),
        (3, rect 10 10 10 5 true false), (4, rect 12 12 20 5 true false),
        (5, rect 14 30 10 5 true false)]) [1, 2] [4, 5] 5 3 5 24 80 WinOp.opHide _
      { rect 10 10 10 5 true false with down := some 2, up := some 4 }
      (wf_mkServer _ (by decide)) (by decide) rfl rfl (by decide) (by decide) (by decide)
      (hsrc _ ⟨rfl, rfl, rfl, rfl⟩)⟩

/-- C6 fails as stated: windows 1 at `(0,0)` and 2 at `(2,2)`, both `10 x 5`,
overlap; window 3 at `(20,40)` of size `5 x 5` overlaps neither. All three are
visible and clean. `stui_hide_window` on window 3 marks window 2 dirty, through
the scan from `root`, although windows 3 and 2 do not intersect. -/
theorem hide_dirties_disjoint_window :
    WF (mkServer [(1, rect 0 0 10 5 true false), (2, rect 2 2 10 5 true false),
      (3, rect 20 40 5 5 true false)]) [1, 2, 3] ∧
    overlap_test (rect 20 40 5 5 true false) (rect 2 2 10 5 true false) = false ∧
    overlap_test (rect 2 2 10 5 true false) (rect 20 40 5 5 true false) = false ∧
    (rect 2 2 10 5 true false).dirty = false ∧
    ∃ s' w, stui_hide_window 3 (mkServer [(1, rect 0 0 10 5 true false),
        (2, rect 2 2 10 5 true false), (3, rect 20 40 5 5 true false)]) 3 = .ok s' ∧
      s'.mem 2 = some w ∧ w.row = 2 ∧ w.col = 2 ∧ w.width = 10 ∧ w.height = 5 ∧
      w.dirty = true :=
  ⟨wf_mkServer _ (by decide), by decide, by decide, rfl, _, _, rfl, rfl, rfl, rfl, rfl, rfl, rfl⟩

/-- A z-order operation that returns on a well-formed registry leaves a
well-formed registry, with at most one window more. -/
theorem run_reg_op_wf {s s' : Server} {l : List Nat} {fuel : Nat} {op : RegOp} (hwf : WF s l)
    (hf : l.length ≤ fuel) (hadm : Admissible s op) (hok : run_reg_op fuel s op = .ok s') :
    ∃ l', WF s' l' ∧ l'.length ≤ l.length + 1 := by
  cases op with
  | create fresh cb =>
    obtain ⟨s1, e, hwf1, _⟩ := stui_create_window_spec cb hwf hadm
    simp only [run_reg_op, e] at hok
    cases hok
    exact ⟨_, hwf1, by simp⟩
  | destroy h =>
    obtain ⟨w, hw⟩ := hadm
    obtain ⟨pre, post, rfl⟩ := wf_mem hwf hw
    by_cases hc : w.visible = true ∧ pre ++ post = []
    · obtain ⟨rfl, rfl⟩ := List.append_eq_nil.1 hc.2
      have := stui_destroy_window_single fuel hwf hw hc.1
      simp only [run_reg_op, this] at hok
      cases hok
    · obtain ⟨s1, _, e, hwf1, _⟩ := stui_destroy_window_spec hwf hw hf
        (fun hv hn => hc ⟨hv, hn⟩)
      simp only [run_reg_op, e] at hok
      cases hok
      exact ⟨_, hwf1, by simp only [List.length_append, List.length_cons]; omega⟩
  | raise h =>
    obtain ⟨w, hw⟩ := hadm
    obtain ⟨pre, post, rfl⟩ := wf_mem hwf hw
    by_cases hc : pre ++ post = []
    · obtain ⟨rfl, rfl⟩ := List.append_eq_nil.1 hc
      have := stui_raise_window_single fuel hwf
      simp only [run_reg_op, this] at hok
      cases hok
    · obtain ⟨s1, e, hwf1, _⟩ := stui_raise_window_spec hwf hw hf hc
      simp only [run_reg_op, e] at hok
      cases hok
      exact ⟨_, hwf1, by simp only [List.length_append, List.length_cons, List.length_nil]; omega⟩

/-- Z-order integrity of the runs that complete: when a sequence of
admissible create, destroy and raise operations returns, the registry it
leaves is well formed. -/
theorem run_reg_ops_wf (ops : List RegOp) {s s' : Server} {l : List Nat} {fuel : Nat}
    (hwf : WF s l) (hf : l.length + ops.length ≤ fuel) (hadm : AdmissibleRun fuel s ops)
    (hok : run_reg_ops fuel s ops = .ok s') : ∃ l', WF s' l' := by
  induction ops generalizing s l with
  | nil =>
    simp only [run_reg_ops] at hok
    cases hok
    exact ⟨l, hwf⟩
  | cons op ops ih =>
    simp only [List.length_cons] at hf
    cases h1 : run_reg_op fuel s op with
    | error e => simp only [run_reg_ops, h1] at hok; cases hok
    | ok s1 =>
      simp only [run_reg_ops, h1] at hok
      obtain ⟨l1, hwf1, hlen⟩ := run_reg_op_wf hwf (by omega) hadm.1 h1
      exact ih hwf1 (by omega) (hadm.2 s1 h1) hok

/-! ## Claims on the compositor pass: dirty flags and the flush -/

theorem wf_not_mem_post {s : Server} {pre post : List Nat} {h : Nat}
    (hwf : WF s (pre ++ h :: post)) : h ∉ post := by
  have := hwf.nodup
  rw [List.nodup_append] at this
  exact (List.nodup_cons.1 this.2.1).1

/-- C20 (amended): on a well-formed registry `stui_repaint` returns, leaves the
visibility of the window alone, and the window is dirty afterwards exactly
when it was dirty before, or it is visible and its rectangle does not wrap
around (`col + width` and `row + height` fit in 32 bits). -/
theorem repaint_dirty_iff (s : Server) (l : List Nat) (h fuel : Nat) (w : window)
    (hwf : WF s l) (hw : s.mem h = some w) (hf : l.length ≤ fuel)
    (hc : w.col < 4294967296) (hwd : w.width < 4294967296)
    (hr : w.row < 4294967296) (hh : w.height < 4294967296) :
    ∃ s' w', stui_repaint fuel s h = .ok s' ∧ s'.mem h = some w' ∧ w'.visible = w.visible ∧
      (w'.dirty = true ↔ (w.dirty = true ∨ (w.visible = true ∧
        w.col + w.width < 4294967296 ∧ w.row + w.height < 4294967296))) := by
  obtain ⟨pre, post, rfl⟩ := wf_mem hwf hw
  have hf' : post.length + 1 ≤ fuel := by
    simp only [List.length_append, List.length_cons] at hf; omega
  refine ⟨_, _, stui_repaint_eq hwf hf', mdoL_self (wf_not_mem_post hwf) hw, rfl, ?_⟩
  rw [← overlap_test_self w hc hwd hr hh]
  simp only [Bool.or_eq_true, Bool.and_eq_true]

/-- Instance of `repaint_dirty_iff`: one visible, clean window. -/
theorem repaint_dirty_iff_witness :
    WF (mkServer [(1, rect 0 0 10 5 true false)]) [1] ∧
    ∃ s' w', stui_repaint 1 (mkServer [(1, rect 0 0 10 5 true false)]) 1 = .ok s' ∧
      s'.mem 1 = some w' ∧ w'.visible = (rect 0 0 10 5 true false).visible ∧
      (w'.dirty = true ↔ ((rect 0 0 10 5 true false).dirty = true ∨
        ((rect 0 0 10 5 true false).visible = true ∧
        (rect 0 0 10 5 true false).col + (rect 0 0 10 5 true false).width < 4294967296 ∧
        (rect 0 0 10 5 true false).row + (rect 0 0 10 5 true false).height < 4294967296))) :=
  ⟨wf_mkServer _ (by decide),
    repaint_dirty_iff (mkServer [(1, rect 0 0 10 5 true false)]) [1] 1 1
      (rect 0 0 10 5 true false) (wf_mkServer _ (by decide)) rfl (by decide)
      (by decide) (by decide) (by decide) (by decide)⟩

/-- C20 fails as stated: a hidden, clean window at `(0,0)` of size `10 x 5` is
still clean after `stui_repaint`, because the scan skips windows that are not
visible. -/
theorem repaint_hidden_stays_clean :
    WF (mkServer [(1, rect 0 0 10 5 false false)]) [1] ∧
    ∃ s' w', stui_repaint 1 (mkServer [(1, rect 0 0 10 5 false false)]) 1 = .ok s' ∧
      s'.mem 1 = some w' ∧ w'.dirty = false :=
  ⟨wf_mkServer _ (by decide), _, _, rfl, rfl, rfl⟩

theorem stui_get_userdata_eq {s : Server} {h : Nat} {w : window} (hw : s.mem h = some w) :
    stui_get_userdata s h = .ok w.userdata := by
  simp only [stui_get_userdata, load_eq hw, bind, Except.bind]
  rfl

theorem stui_get_window_dims_eq {s : Server} {h : Nat} {w : window} (hw : s.mem h = some w) :
    stui_get_window_dims s h true true = .ok (some w.width, some w.height) := by
  simp only [stui_get_window_dims, load_eq hw, bind, Except.bind, if_true]
  rfl

/-- C18: on a well-formed registry a successful `stui_create_window` returns a
window with `row = col = 0`, `width = height = 0`, not visible, not dirty, user
data `NULL` (also as `stui_get_userdata` reports it) and the given callback;
every old window keeps all its fields except, for the old bottom window, the
`down` link. -/
theorem create_initial_state (s : Server) (l : List Nat) (h cb : Nat) (hwf : WF s l)
    (hfresh : s.mem h = none) :
    ∃ s' w, stui_create_window s (some h) cb = .ok (s', some h) ∧ s'.mem h = some w ∧
      w.row = 0 ∧ w.col = 0 ∧ w.width = 0 ∧ w.height = 0 ∧ w.visible = false ∧
      w.dirty = false ∧ w.userdata = 0 ∧ w.callback = cb ∧ stui_get_userdata s' h = .ok 0 ∧
      ∀ a v, s.mem a = some v → ∃ v', s'.mem a = some v' ∧ v' = { v with down := v'.down } := by
  obtain ⟨s', e, _, _, hm, hold⟩ := stui_create_window_spec cb hwf hfresh
  exact ⟨s', _, e, hm, rfl, rfl, rfl, rfl, rfl, rfl, rfl, rfl, stui_get_userdata_eq hm, hold⟩

/-- Instance of `create_initial_state`: a registry that holds window 1, new
address 2, callback address 7. -/
theorem create_initial_state_witness :
    WF (mkServer [(1, rect 0 0 10 5 true false)]) [1] ∧
    (mkServer [(1, rect 0 0 10 5 true false)]).mem 2 = none ∧
    ∃ s' w, stui_create_window (mkServer [(1, rect 0 0 10 5 true false)]) (some 2) 7
        = .ok (s', some 2) ∧ s'.mem 2 = some w ∧
      w.row = 0 ∧ w.col = 0 ∧ w.width = 0 ∧ w.height = 0 ∧ w.visible = false ∧
      w.dirty = false ∧ w.userdata = 0 ∧ w.callback = 7 ∧ stui_get_userdata s' 2 = .ok 0 ∧
      ∀ a v, (mkServer [(1, rect 0 0 10 5 true false)]).mem a = some v →
        ∃ v', s'.mem a = some v' ∧ v' = { v with down := v'.down } :=
  ⟨wf_mkServer _ (by decide), rfl,
    create_initial_state (mkServer [(1, rect 0 0 10 5 true false)]) [1] 2 7
      (wf_mkServer _ (by decide)) rfl⟩

/-- After `redim_window` the record of the window holds the new geometry; its
other fields are unchanged up to the dirty flag, which is not cleared. -/
theorem redimL_self (l pre post : List Nat) {h : Nat} {w : window} {m : Heap}
    (row col width height : Nat) (hnp : h ∉ post) (hw : m h = some w) :
    ∃ w1, redimL l pre post h w row col width height m h
        = some (setGeom w1 row col width height) ∧
      w1 = { w with dirty := w1.dirty } ∧ (w.dirty = true → w1.dirty = true) := by
  unfold redimL
  by_cases hv : w.visible = true
  · rw [if_pos hv]
    obtain ⟨w1, hw1, e1, hd1⟩ := marked_get (vacateL_marked l pre.reverse h m) hw
    simp only [hw1]
    rw [mdoL_support _ _ _ _ hnp, store_same]
    exact ⟨w1, rfl, e1, hd1⟩
  · rw [if_neg hv, store_same]
    exact ⟨w, rfl, rfl, id⟩

/-- After `redim_window` the record of every other window is unchanged up to
the dirty flag, which is not cleared. -/
theorem redimL_other (l pre post : List Nat) {h a : Nat} {w v : window} {m : Heap}
    (row col width height : Nat) (hah : a ≠ h) (hw : m h = some w) (hv : m a = some v) :
    ∃ v', redimL l pre post h w row col width height m a = some v' ∧
      v' = { v with dirty := v'.dirty } ∧ (v.dirty = true → v'.dirty = true) := by
  unfold redimL
  by_cases hvis : w.visible = true
  · rw [if_pos hvis]
    have hmk1 := vacateL_marked l pre.reverse h m
    obtain ⟨w1, hw1, _, _⟩ := marked_get hmk1 hw
    obtain ⟨v1, hv1, e1, hd1⟩ := marked_get hmk1 hv
    simp only [hw1]
    have hv2 : store (vacateL l pre.reverse h m) h (setGeom w1 row col width height) a
        = some v1 := by rw [store_other _ _ hah]; exact hv1
    obtain ⟨v3, hv3, e3, hd3⟩ := marked_get (mdoL_marked post _ h) hv2
    refine ⟨v3, hv3, ?_, fun hd => hd3 (hd1 hd)⟩
    rw [e3, e1]
  · rw [if_neg hvis, store_other _ _ hah]
    exact ⟨v, hv, rfl, id⟩

theorem redimL_sameLinks {l pre post : List Nat} {h : Nat} {w : window} {m : Heap}
    (row col width height : Nat) (hnp : h ∉ post) (hw : m h = some w) :
    SameLinks m (redimL l pre post h w row col width height m) := by
  intro a
  constructor
  · intro ha
    have hah : a ≠ h := fun e => by rw [e, hw] at ha; cases ha
    unfold redimL
    split
    · have hmk1 := vacateL_marked l pre.reverse h m
      obtain ⟨w1, hw1, _, _⟩ := marked_get hmk1 hw
      simp only [hw1]
      have h2 : store (vacateL l pre.reverse h m) h (setGeom w1 row col width height) a = none := by
        rw [store_other _ _ hah]
        exact ((sameLinks_of_marked hmk1) a).1 ha
      exact ((sameLinks_of_marked (mdoL_marked post _ h)) a).1 h2
    · rw [store_other _ _ hah]; exact ha
  · intro v hv
    by_cases hah : a = h
    · subst hah
      rw [hw] at hv; cases hv
      obtain ⟨w1, e, e1, _⟩ := redimL_self l pre post row col width height hnp hw
      exact ⟨_, e, by rw [e1]; rfl, by rw [e1]; rfl⟩
    · obtain ⟨v', e, e1, _⟩ := redimL_other l pre post row col width
        height hah hw hv
      exact ⟨v', e, by rw [e1], by rw [e1]⟩

/-- C16 (amended): on a well-formed registry `stui_resize_window` returns and
leaves `row` and `col` of the window unchanged; a `width` argument of 0 is
replaced by `cols - col` in unsigned 32-bit arithmetic, which is the number of
columns up to the screen edge when `col <= cols` and wraps otherwise; a
non-zero argument is stored as given; likewise for `height` with `rows - row`. -/
theorem resize_fills_to_edge (s : Server) (l : List Nat) (h fuel rows cols width height : Nat)
    (w : window) (hwf : WF s l) (hw : s.mem h = some w) (hf : l.length ≤ fuel) :
    ∃ s' w', stui_resize_window fuel rows cols s h width height = .ok s' ∧
      s'.mem h = some w' ∧ w'.row = w.row ∧ w'.col = w.col ∧
      w'.width = (if width = 0 then (cols + 4294967296 - w.col) % 4294967296 else width) ∧
      w'.height = (if height = 0 then (rows + 4294967296 - w.row) % 4294967296 else height) ∧
      (width = 0 → w.col ≤ cols → cols < 4294967296 → w'.width = cols - w.col) ∧
      (height = 0 → w.row ≤ rows → rows < 4294967296 → w'.height = rows - w.row) := by
  obtain ⟨pre, post, rfl⟩ := wf_mem hwf hw
  have hwd : (if (width = 0 ∨ height = 0) ∧ width = 0 then u32 (cols + 4294967296 - w.col)
      else width) = (if width = 0 then (cols + 4294967296 - w.col) % 4294967296 else width) := by
    by_cases h0 : width = 0 <;> simp [h0, u32]
  have hht : (if (width = 0 ∨ height = 0) ∧ height = 0 then u32 (rows + 4294967296 - w.row)
      else height) = (if height = 0 then (rows + 4294967296 - w.row) % 4294967296 else height) := by
    by_cases h0 : height = 0 <;> simp [h0, u32]
  obtain ⟨w1, hw1, _, _⟩ := redimL_self (pre ++ h :: post) pre post w.row w.col
    (if (width = 0 ∨ height = 0) ∧ width = 0 then u32 (cols + 4294967296 - w.col) else width)
    (if (width = 0 ∨ height = 0) ∧ height = 0 then u32 (rows + 4294967296 - w.row) else height)
    (wf_not_mem_post hwf) hw
  refine ⟨⟨redimL (pre ++ h :: post) pre post h w w.row w.col
    (if (width = 0 ∨ height = 0) ∧ width = 0 then u32 (cols + 4294967296 - w.col) else width)
    (if (width = 0 ∨ height = 0) ∧ height = 0 then u32 (rows + 4294967296 - w.row) else height)
    s.mem, s.root⟩, setGeom w1 w.row w.col
    (if (width = 0 ∨ height = 0) ∧ width = 0 then u32 (cols + 4294967296 - w.col) else width)
    (if (width = 0 ∨ height = 0) ∧ height = 0 then u32 (rows + 4294967296 - w.row) else height),
    ?_, hw1, rfl, rfl, hwd, hht, ?_, ?_⟩
  · simp only [stui_resize_window, load_eq hw, bind, Except.bind]
    exact redim_window_eq _ _ _ _ hwf hw hf
  · intro h0 hle hlt
    show (if (width = 0 ∨ height = 0) ∧ width = 0 then u32 (cols + 4294967296 - w.col)
      else width) = cols - w.col
    rw [hwd, if_pos h0]
    omega
  · intro h0 hle hlt
    show (if (width = 0 ∨ height = 0) ∧ height = 0 then u32 (rows + 4294967296 - w.row)
      else height) = rows - w.row
    rw [hht, if_pos h0]
    omega

/-- Instance of `resize_fills_to_edge`: the window at row 3, column 3 on an
`80 x 24` terminal, resized with `(0, 0)`. -/
theorem resize_fills_to_edge_witness :
    WF (mkServer [(1, rect 3 3 10 5 true false)]) [1] ∧
    ∃ s' w', stui_resize_window 1 24 80 (mkServer [(1, rect 3 3 10 5 true false)]) 1 0 0
        = .ok s' ∧
      s'.mem 1 = some w' ∧ w'.row = (rect 3 3 10 5 true false).row ∧
      w'.col = (rect 3 3 10 5 true false).col ∧
      w'.width = (if 0 = 0 then (80 + 4294967296 - (rect 3 3 10 5 true false).col) % 4294967296
        else 0) ∧
      w'.height = (if 0 = 0 then (24 + 4294967296 - (rect 3 3 10 5 true false).row) % 4294967296
        else 0) ∧
      (0 = 0 → (rect 3 3 10 5 true false).col ≤ 80 → 80 < 4294967296 →
        w'.width = 80 - (rect 3 3 10 5 true false).col) ∧
      (0 = 0 → (rect 3 3 10 5 true false).row ≤ 24 → 24 < 4294967296 →
        w'.height = 24 - (rect 3 3 10 5 true false).row) :=
  ⟨wf_mkServer _ (by decide),
    resize_fills_to_edge (mkServer [(1, rect 3 3 10 5 true false)]) [1] 1 1 24 80 0 0
      (rect 3 3 10 5 true false) (wf_mkServer _ (by decide)) rfl (by decide)⟩

/-- C16 fails as stated: for a window at column 100 and row 30 on an `80 x 24`
terminal, `stui_resize_window` with `(0, 0)` stores `width = 2^32 - 20` and
`height = 2^32 - 6`; no non-negative `width` satisfies `width = cols - col`
here. -/
theorem resize_beyond_edge_wraps :
    WF (mkServer [(1, rect 30 100 10 5 false false)]) [1] ∧
    ∃ s' w', stui_resize_window 1 24 80 (mkServer [(1, rect 30 100 10 5 false false)]) 1 0 0
        = .ok s' ∧
      s'.mem 1 = some w' ∧ w'.col = 100 ∧ w'.row = 30 ∧
      w'.width = 4294967276 ∧ w'.height = 4294967290 ∧
      ¬ ((w'.width : Int) = 80 - 100) ∧ ¬ ((w'.height : Int) = 24 - 30) :=
  ⟨wf_mkServer _ (by decide), _, _, rfl, rfl, rfl, rfl, rfl, rfl, by decide, by decide⟩

/-- C17: on a well-formed registry `stui_move_window` returns; the window then
has the given `row` and `col`, `stui_get_window_dims` reports the same width
and height as before, `root` and the z-order are unchanged, and every other
window keeps all its fields except possibly the dirty flag (so its geometry,
visibility and links are unchanged). -/
theorem move_keeps_size (s : Server) (l : List Nat) (h fuel row col : Nat) (w : window)
    (hwf : WF s l) (hw : s.mem h = some w) (hf : l.length ≤ fuel) :
    ∃ s' w', stui_move_window fuel s h row col = .ok s' ∧ s'.mem h = some w' ∧
      w'.row = row ∧ w'.col = col ∧
      stui_get_window_dims s' h true true = stui_get_window_dims s h true true ∧
      stui_get_window_dims s' h true true = .ok (some w.width, some w.height) ∧
      s'.root = s.root ∧ WF s' l ∧
      ∀ a v, a ≠ h → s.mem a = some v → ∃ v', s'.mem a = some v' ∧
        v' = { v with dirty := v'.dirty } := by
  obtain ⟨pre, post, rfl⟩ := wf_mem hwf hw
  have hnp := wf_not_mem_post hwf
  obtain ⟨w1, hw1, _, _⟩ := redimL_self (pre ++ h :: post) pre post row col w.width
    w.height hnp hw
  have e : stui_move_window fuel s h row col = .ok ⟨redimL (pre ++ h :: post) pre post h w
      row col w.width w.height s.mem, s.root⟩ := by
    simp only [stui_move_window, load_eq hw, bind, Except.bind]
    exact redim_window_eq _ _ _ _ hwf hw hf
  have hd0 := stui_get_window_dims_eq (s := ⟨redimL (pre ++ h :: post) pre post h w
      row col w.width w.height s.mem, s.root⟩) hw1
  have hd' : stui_get_window_dims ⟨redimL (pre ++ h :: post) pre post h w
      row col w.width w.height s.mem, s.root⟩ h true true = .ok (some w.width, some w.height) :=
    hd0
  refine ⟨_, setGeom w1 row col w.width w.height, e, hw1, rfl, rfl, ?_, hd', rfl,
    hwf.sameLinks (redimL_sameLinks row col w.width w.height hnp hw), ?_⟩
  · rw [hd', stui_get_window_dims_eq hw]
  · intro a v hah hv
    obtain ⟨v', hv', e', _⟩ := redimL_other (pre ++ h :: post) pre post
      row col w.width w.height hah hw hv
    exact ⟨v', hv', e'⟩

/-- Instance of `move_keeps_size`: the lower of two overlapping visible
windows is moved to `(7, 9)`. -/
theorem move_keeps_size_witness :
    WF (mkServer [(1, rect 0 0 10 5 true false), (2, rect 2 2 10 5 true false)]) [1, 2] ∧
    ∃ s' w', stui_move_window 2
        (mkServer [(1, rect 0 0 10 5 true false), (2, rect 2 2 10 5 true false)]) 1 7 9
        = .ok s' ∧ s'.mem 1 = some w' ∧ w'.row = 7 ∧ w'.col = 9 ∧
      stui_get_window_dims s' 1 true true = stui_get_window_dims
        (mkServer [(1, rect 0 0 10 5 true false), (2, rect 2 2 10 5 true false)]) 1 true true ∧
      stui_get_window_dims s' 1 true true = .ok (some 10, some 5) ∧
      s'.root = (mkServer [(1, rect 0 0 10 5 true false), (2, rect 2 2 10 5 true false)]).root ∧
      WF s' [1, 2] ∧
      ∀ a v, a ≠ 1 →
        (mkServer [(1, rect 0 0 10 5 true false), (2, rect 2 2 10 5 true false)]).mem a = some v →
        ∃ v', s'.mem a = some v' ∧ v' = { v with dirty := v'.dirty } :=
  ⟨wf_mkServer _ (by decide),
    move_keeps_size (mkServer [(1, rect 0 0 10 5 true false), (2, rect 2 2 10 5 true false)])
      [1, 2] 1 2 7 9 { rect 0 0 10 5 true false with up := some 2 } (wf_mkServer _ (by decide))
      rfl (by decide)⟩

/-! ## Claim on degenerate rectangles -/

/-- C19 (amended): rectangles of zero width or zero height are not exempt from
the overlap test, they are treated as closed segments or points. For records
`a`, `b` whose sums `col + width` and `row + height` fit in 32 bits: the tests
of Rule A and Rule B agree and are symmetric; if `a.width = 0` the test is true
exactly when the column of `a` lies in the closed column range of `b` and the
closed row ranges meet; if `a.height = 0` likewise with rows and columns
exchanged. -/
theorem degenerate_overlap (a b : window)
    (ha1 : a.col + a.width < 4294967296) (ha2 : a.row + a.height < 4294967296)
    (hb1 : b.col + b.width < 4294967296) (hb2 : b.row + b.height < 4294967296) :
    underlap_test b a = overlap_test a b ∧ overlap_test b a = overlap_test a b ∧
    (a.width = 0 → (overlap_test a b = true ↔
      (b.col ≤ a.col ∧ a.col ≤ b.col + b.width ∧
        a.row ≤ b.row + b.height ∧ b.row ≤ a.row + a.height))) ∧
    (a.height = 0 → (overlap_test a b = true ↔
      (a.col ≤ b.col + b.width ∧ b.col ≤ a.col + a.width ∧
        b.row ≤ a.row ∧ a.row ≤ b.row + b.height))) := by
  refine ⟨underlap_test_eq b a, overlap_test_symm b a, ?_, ?_⟩
  · intro h0
    simp only [overlap_test, u32, Bool.and_eq_true, decide_eq_true_eq, ge_iff_le]
    rw [Nat.mod_eq_of_lt ha1, Nat.mod_eq_of_lt ha2, Nat.mod_eq_of_lt hb1, Nat.mod_eq_of_lt hb2]
    constructor <;> intro h <;> omega
  · intro h0
    simp only [overlap_test, u32, Bool.and_eq_true, decide_eq_true_eq, ge_iff_le]
    rw [Nat.mod_eq_of_lt ha1, Nat.mod_eq_of_lt ha2, Nat.mod_eq_of_lt hb1, Nat.mod_eq_of_lt hb2]
    constructor <;> intro h <;> omega

/-- Instance of `degenerate_overlap`: a window of size `0 x 0` at `(0,0)` against
a window of size `10 x 5` at `(0,0)`. -/
theorem degenerate_overlap_witness :
    underlap_test (rect 0 0 10 5 true false) (rect 0 0 0 0 true false)
      = overlap_test (rect 0 0 0 0 true false) (rect 0 0 10 5 true false) ∧
    overlap_test (rect 0 0 10 5 true false) (rect 0 0 0 0 true false)
      = overlap_test (rect 0 0 0 0 true false) (rect 0 0 10 5 true false) ∧
    ((rect 0 0 0 0 true false).width = 0 →
      (overlap_test (rect 0 0 0 0 true false) (rect 0 0 10 5 true false) = true ↔
      ((rect 0 0 10 5 true false).col ≤ (rect 0 0 0 0 true false).col ∧
        (rect 0 0 0 0 true false).col
          ≤ (rect 0 0 10 5 true false).col + (rect 0 0 10 5 true false).width ∧
        (rect 0 0 0 0 true false).row
          ≤ (rect 0 0 10 5 true false).row + (rect 0 0 10 5 true false).height ∧
        (rect 0 0 10 5 true false).row
          ≤ (rect 0 0 0 0 true false).row + (rect 0 0 0 0 true false).height))) ∧
    ((rect 0 0 0 0 true false).height = 0 →
      (overlap_test (rect 0 0 0 0 true false) (rect 0 0 10 5 true false) = true ↔
      ((rect 0 0 0 0 true false).col
          ≤ (rect 0 0 10 5 true false).col + (rect 0 0 10 5 true false).width ∧
        (rect 0 0 10 5 true false).col
          ≤ (rect 0 0 0 0 true false).col + (rect 0 0 0 0 true false).width ∧
        (rect 0 0 10 5 true false).row ≤ (rect 0 0 0 0 true false).row ∧
        (rect 0 0 0 0 true false).row
          ≤ (rect 0 0 10 5 true false).row + (rect 0 0 10 5 true false).height))) :=
  degenerate_overlap (rect 0 0 0 0 true false) (rect 0 0 10 5 true false)
    (by decide) (by decide) (by decide) (by decide)

/-- C19 fails as stated: a window of size `0 x 0` at `(0,0)`, which is what
`stui_create_window` makes, passes both overlap tests against a window of size
`10 x 5` at `(0,0)`; and `stui_show_window` on such a window below a visible,
clean window of that size marks the latter dirty. -/
theorem degenerate_window_overlaps :
    (rect 0 0 0 0 false false).width = 0 ∧ (rect 0 0 0 0 false false).height = 0 ∧
    overlap_test (rect 0 0 10 5 true false) (rect 0 0 0 0 false false) = true ∧
    underlap_test (rect 0 0 0 0 false false) (rect 0 0 10 5 true false) = true ∧
    WF (mkServer [(1, rect 0 0 0 0 false false), (2, rect 0 0 10 5 true false)]) [1, 2] ∧
    ∃ s' w, stui_show_window 2
        (mkServer [(1, rect 0 0 0 0 false false), (2, rect 0 0 10 5 true false)]) 1 = .ok s' ∧
      s'.mem 2 = some w ∧ w.dirty = true :=
  ⟨rfl, rfl, by decide, by decide, wf_mkServer _ (by decide), _, _, rfl, rfl, rfl⟩

/-! ## Claims on `stui_cb_putchar` -/

/-- C14 (amended): for every display state and live window, if `row` is not
below the height of the window, or `col` not below its width, or `row` of the
window plus `row`, taken in unsigned 32-bit arithmetic, is not below the
height of the surface, or likewise for the columns, then `stui_cb_putchar`
returns and changes nothing. -/
theorem putchar_clipped (d : Display) (h row col c : Nat) (win : window)
    (hw : d.srv.mem h = some win)
    (hclip : win.height ≤ row ∨ win.width ≤ col
      ∨ d.vis.height ≤ (win.row + row) % 4294967296
      ∨ d.vis.width ≤ (win.col + col) % 4294967296) :
    stui_cb_putchar d h row col c = .ok d := by
  have hn : ¬ (row < win.height ∧ col < win.width
      ∧ u32 (win.row + row) < d.vis.height ∧ u32 (win.col + col) < d.vis.width) := by
    simp only [u32]
    omega
  simp only [stui_cb_putchar, hw]
  rw [if_neg hn]

/-- Instance of `putchar_clipped`: column 10 of a window of width 10. -/
theorem putchar_clipped_witness :
    ((rect 0 0 10 5 true true).height ≤ 0 ∨ (rect 0 0 10 5 true true).width ≤ 10
      ∨ 2 ≤ ((rect 0 0 10 5 true true).row + 0) % 4294967296
      ∨ 4 ≤ ((rect 0 0 10 5 true true).col + 10) % 4294967296) ∧
    stui_cb_putchar ⟨mkServer [(1, rect 0 0 10 5 true true)],
        ⟨[32, 32, 32, 32, 32, 32, 32, 32], 4, 2⟩⟩ 1 0 10 88
      = .ok ⟨mkServer [(1, rect 0 0 10 5 true true)], ⟨[32, 32, 32, 32, 32, 32, 32, 32], 4, 2⟩⟩ :=
  ⟨Or.inr (Or.inl (by decide)),
    putchar_clipped ⟨mkServer [(1, rect 0 0 10 5 true true)],
      ⟨[32, 32, 32, 32, 32, 32, 32, 32], 4, 2⟩⟩ 1 0 10 88 (rect 0 0 10 5 true true) rfl
      (Or.inr (Or.inl (by decide)))⟩

/-- C14 fails as stated: for a window at row `2^32 - 1` of height 2 on a
surface of `4 x 2` cells, `row = 1` gives `window.row + row = 2^32`, which is
not below the surface height, yet `stui_cb_putchar` writes cell 0, because the
sum wraps to 0. -/
theorem putchar_wraps_into_surface :
    2 ≤ (rect 4294967295 0 4 2 true true).row + 1 ∧
    ∃ d', stui_cb_putchar ⟨mkServer [(1, rect 4294967295 0 4 2 true true)],
        ⟨[32, 32, 32, 32, 32, 32, 32, 32], 4, 2⟩⟩ 1 1 0 88 = .ok d' ∧
      d'.vis.vbuf = [88, 32, 32, 32, 32, 32, 32, 32] :=
  ⟨by decide, _, rfl, rfl⟩

/-- On a surface whose buffer has `width * height` cells, fitting in 32 bits,
the subscript of a position inside the surface is its row-major index, and it
is inside the buffer. -/
theorem cell_index_eq {v : visual} (win : window) (row col : Nat) (hs : SurfaceOk v)
    (h3 : win.row + row < v.height) (h4 : win.col + col < v.width) :
    cell_index v win row col = (win.row + row) * v.width + (win.col + col) ∧
      (win.row + row) * v.width + (win.col + col) < v.vbuf.length := by
  obtain ⟨hlen, hfit⟩ := hs
  have h : (win.row + row + 1) * v.width ≤ v.height * v.width := Nat.mul_le_mul_right _ h3
  rw [Nat.succ_mul] at h
  rw [Nat.mul_comm v.width v.height] at hlen hfit
  have hb : (win.row + row) * v.width + (win.col + col) < v.height * v.width := by omega
  have hH : v.height ≤ v.height * v.width := Nat.le_mul_of_pos_right _ (by omega)
  have hW : v.width ≤ v.height * v.width := Nat.le_mul_of_pos_left _ (by omega)
  refine ⟨?_, by omega⟩
  simp only [cell_index, u32]
  rw [Nat.mod_eq_of_lt (show win.row + row < 4294967296 by omega),
    Nat.mod_eq_of_lt (show win.col + col < 4294967296 by omega),
    Nat.mod_eq_of_lt (show (win.row + row) * v.width < 4294967296 by omega),
    Nat.mod_eq_of_lt (show (win.row + row) * v.width + (win.col + col) < 4294967296 by omega)]

/-- The wrapped subscript of a write that passes the clipping is inside the
buffer of a well-formed surface. -/
theorem cell_index_lt {v : visual} {win : window} {row col : Nat} (hs : SurfaceOk v)
    (h3 : u32 (win.row + row) < v.height) (h4 : u32 (win.col + col) < v.width) :
    cell_index v win row col < v.vbuf.length := by
  obtain ⟨hlen, hfit⟩ := hs
  have h : (u32 (win.row + row) + 1) * v.width ≤ v.height * v.width := Nat.mul_le_mul_right _ h3
  rw [Nat.succ_mul] at h
  rw [Nat.mul_comm v.width v.height] at hlen hfit
  have hb : u32 (win.row + row) * v.width + u32 (win.col + col) < v.height * v.width := by omega
  simp only [cell_index]
  rw [show u32 (u32 (u32 (win.row + row) * v.width) + u32 (win.col + col))
      = u32 (win.row + row) * v.width + u32 (win.col + col) from by
    have e1 : u32 (u32 (win.row + row) * v.width) = u32 (win.row + row) * v.width :=
      Nat.mod_eq_of_lt (by omega)
    rw [e1]
    exact Nat.mod_eq_of_lt (by omega)]
  omega

/-- C15: on a surface whose buffer has `width * height` cells (a number that
fits in 32 bits), for a live window and a position inside both the window and
the surface, `stui_cb_putchar` returns; afterwards the cell at row-major
position `(window.row + row) * width + (window.col + col)` holds `c`, every
other cell is unchanged, and so are the size of the surface and the registry
with all window records. -/
theorem putchar_writes_one_cell (d : Display) (h row col c : Nat) (win : window)
    (hs : SurfaceOk d.vis) (hw : d.srv.mem h = some win) (h1 : row < win.height)
    (h2 : col < win.width) (h3 : win.row + row < d.vis.height)
    (h4 : win.col + col < d.vis.width) :
    ∃ d', stui_cb_putchar d h row col c = .ok d' ∧ d'.srv = d.srv ∧
      d'.vis.width = d.vis.width ∧ d'.vis.height = d.vis.height ∧
      d'.vis.vbuf.length = d.vis.vbuf.length ∧
      d'.vis.vbuf[(win.row + row) * d.vis.width + (win.col + col)]? = some c ∧
      ∀ j, j ≠ (win.row + row) * d.vis.width + (win.col + col) →
        d'.vis.vbuf[j]? = d.vis.vbuf[j]? := by
  obtain ⟨hi, hlt⟩ := cell_index_eq win row col hs h3 h4
  have hH : d.vis.height < 4294967296 := by
    obtain ⟨_, hfit⟩ := hs
    have : d.vis.height ≤ d.vis.width * d.vis.height := Nat.le_mul_of_pos_left _ (by omega)
    omega
  have hW : d.vis.width < 4294967296 := by
    obtain ⟨_, hfit⟩ := hs
    have : d.vis.width ≤ d.vis.width * d.vis.height := Nat.le_mul_of_pos_right _ (by omega)
    omega
  have hc : row < win.height ∧ col < win.width
      ∧ u32 (win.row + row) < d.vis.height ∧ u32 (win.col + col) < d.vis.width := by
    simp only [u32]
    rw [Nat.mod_eq_of_lt (by omega), Nat.mod_eq_of_lt (by omega)]
    exact ⟨h1, h2, h3, h4⟩
  refine ⟨⟨d.srv, ⟨d.vis.vbuf.set ((win.row + row) * d.vis.width + (win.col + col)) c,
    d.vis.width, d.vis.height⟩⟩, ?_, rfl, rfl, rfl, List.length_set _ _ _,
    List.getElem?_set_self hlt, fun j hj => List.getElem?_set_ne (Ne.symm hj)⟩
  simp only [stui_cb_putchar, hw]
  rw [if_pos hc, hi, if_pos hlt]

/-- Instance of `putchar_writes_one_cell`: position `(1, 2)` of a window at
`(0, 1)` on a surface of `4 x 2` cells. -/
theorem putchar_writes_one_cell_witness :
    SurfaceOk ⟨[32, 32, 32, 32, 32, 32, 32, 32], 4, 2⟩ ∧
    ∃ d', stui_cb_putchar ⟨mkServer [(1, rect 0 1 3 2 true true)],
        ⟨[32, 32, 32, 32, 32, 32, 32, 32], 4, 2⟩⟩ 1 1 2 88 = .ok d' ∧
      d'.srv = mkServer [(1, rect 0 1 3 2 true true)] ∧
      d'.vis.width = 4 ∧ d'.vis.height = 2 ∧ d'.vis.vbuf.length = 8 ∧
      d'.vis.vbuf[((rect 0 1 3 2 true true).row + 1) * 4
        + ((rect 0 1 3 2 true true).col + 2)]? = some 88 ∧
      ∀ j, j ≠ ((rect 0 1 3 2 true true).row + 1) * 4 + ((rect 0 1 3 2 true true).col + 2) →
        d'.vis.vbuf[j]? = [32, 32, 32, 32, 32, 32, 32, 32][j]? :=
  ⟨⟨rfl, by decide⟩,
    putchar_writes_one_cell ⟨mkServer [(1, rect 0 1 3 2 true true)],
      ⟨[32, 32, 32, 32, 32, 32, 32, 32], 4, 2⟩⟩ 1 1 2 88 (rect 0 1 3 2 true true)
      ⟨rfl, by decide⟩ rfl (by decide) (by decide) (by decide) (by decide)⟩

/-! ## The compositor pass with the display surface -/

theorem putL_dims (m : Heap) (v : visual) (p : PutChar) :
    (putL m v p).width = v.width ∧ (putL m v p).height = v.height := by
  unfold putL
  split <;> exact ⟨rfl, rfl⟩

theorem writeIndex_lt {m : Heap} {v : visual} {p : PutChar} {i : Nat} (hs : SurfaceOk v)
    (h : writeIndex m v p = some i) : i < v.vbuf.length := by
  unfold writeIndex at h
  split at h
  · cases h
  · split at h
    · rename_i hc
      cases h
      exact cell_index_lt hs hc.2.2.1 hc.2.2.2
    · cases h

theorem putL_surfaceOk {m : Heap} {v : visual} (p : PutChar) (hs : SurfaceOk v) :
    SurfaceOk (putL m v p) := by
  unfold putL
  split
  · exact ⟨by rw [List.length_set]; exact hs.1, hs.2⟩
  · exact hs

theorem foldl_putL_surfaceOk {m : Heap} (ps : List PutChar) {v : visual} (hs : SurfaceOk v) :
    SurfaceOk (ps.foldl (putL m) v) := by
  induction ps generalizing v with
  | nil => exact hs
  | cons p ps ih => exact ih (putL_surfaceOk p hs)

theorem foldl_putL_dims (m : Heap) (ps : List PutChar) (v : visual) :
    (ps.foldl (putL m) v).width = v.width ∧ (ps.foldl (putL m) v).height = v.height := by
  induction ps generalizing v with
  | nil => exact ⟨rfl, rfl⟩
  | cons p ps ih =>
    obtain ⟨a, b⟩ := ih (putL m v p)
    obtain ⟨c, d⟩ := putL_dims m v p
    exact ⟨a.trans c, b.trans d⟩

/-- On a well-formed surface `stui_cb_putchar` on a live handle returns and
changes the surface as `putL` says. -/
theorem stui_cb_putchar_eq {d : Display} {p : PutChar} (hs : SurfaceOk d.vis)
    (hl : ∃ w, d.srv.mem p.hWnd = some w) :
    stui_cb_putchar d p.hWnd p.row p.col p.c = .ok ⟨d.srv, putL d.srv.mem d.vis p⟩ := by
  obtain ⟨w, hw⟩ := hl
  simp only [stui_cb_putchar, putL, writeIndex, hw]
  by_cases hc : p.row < w.height ∧ p.col < w.width
      ∧ u32 (w.row + p.row) < d.vis.height ∧ u32 (w.col + p.col) < d.vis.width
  · rw [if_pos hc, if_pos hc, if_pos (cell_index_lt hs hc.2.2.1 hc.2.2.2)]
  · rw [if_neg hc, if_neg hc]

theorem put_all_eq (ps : List PutChar) {d : Display} (hs : SurfaceOk d.vis)
    (hl : ∀ p ∈ ps, ∃ w, d.srv.mem p.hWnd = some w) :
    put_all d ps = .ok ⟨d.srv, ps.foldl (putL d.srv.mem) d.vis⟩ := by
  induction ps generalizing d with
  | nil => rfl
  | cons p ps ih =>
    simp only [put_all, stui_cb_putchar_eq hs (hl p (List.mem_cons_self _ _)), List.foldl_cons]
    exact ih (d := ⟨d.srv, putL d.srv.mem d.vis p⟩) (putL_surfaceOk p hs)
      (fun q hq => hl q (List.mem_cons_of_mem _ hq))

theorem writeIndex_store_dirty {m : Heap} {a : Nat} {w : window} (hw : m a = some w) (b : Bool)
    (v : visual) (p : PutChar) :
    writeIndex (store m a { w with dirty := b }) v p = writeIndex m v p := by
  unfold writeIndex
  by_cases hp : p.hWnd = a
  · rw [hp, store_same, hw]
    rfl
  · rw [store_other _ _ hp]

theorem putL_store_dirty {m : Heap} {a : Nat} {w : window} (hw : m a = some w) (b : Bool) :
    putL (store m a { w with dirty := b }) = putL m := by
  funext v p
  unfold putL
  rw [writeIndex_store_dirty hw]

theorem paintL_surfaceOk (client : Client) (m : Heap) (evs : List Event) {v : visual}
    (hs : SurfaceOk v) : SurfaceOk (paintL client m v evs) := by
  unfold paintL
  induction evs generalizing v with
  | nil => exact hs
  | cons e evs ih => exact ih (foldl_putL_surfaceOk _ hs)

theorem paintL_dims (client : Client) (m : Heap) (evs : List Event) (v : visual) :
    (paintL client m v evs).width = v.width ∧ (paintL client m v evs).height = v.height := by
  unfold paintL
  induction evs generalizing v with
  | nil => exact ⟨rfl, rfl⟩
  | cons e evs ih =>
    obtain ⟨a, b⟩ := ih ((client e).foldl (putL m) v)
    obtain ⟨c, d⟩ := foldl_putL_dims m (client e) v
    exact ⟨a.trans c, b.trans d⟩

theorem repainted_cons_skip {m : Heap} {a : Nat} {t : List Nat} {w : window}
    (hw : m a = some w) (hna : a ∉ t) (hc : ¬ (w.visible && w.dirty) = true) :
    repainted m t = repainted m (a :: t) := by
  funext q
  simp only [repainted, List.mem_cons]
  by_cases hqa : q = a
  · subst hqa
    simp only [hna, if_false, true_or, if_true, hw, Option.map_some']
    cases w with
    | mk wd ht r c cb u d v dy ud =>
      cases v <;> cases dy <;> simp_all
  · simp only [hqa, false_or]

/-- On a well-formed registry and surface, with callbacks on the visible and
dirty windows and client code that draws through live handles, the scan with
the surface returns: registry and events are those of `repaint_scan`, and the
surface is the old one painted by the callbacks in the order of their calls. -/
theorem repaint_scan_vis_eq (client : Client) (l : List Nat) (fuel : Nat) (d : Display)
    (p : Option Nat) (nr : Bool) (hseg : Seg window.up d.srv.mem p l none) (hn : l.Nodup)
    (hf : l.length ≤ fuel) (hs : SurfaceOk d.vis) (hcb : HasCallbacks d.srv.mem l)
    (hl : ∀ e ∈ paintCalls d.srv.mem l, ∀ q ∈ client e, ∃ w, d.srv.mem q.hWnd = some w) :
    repaint_scan_vis client fuel d p nr
      = .ok (⟨⟨repainted d.srv.mem l, d.srv.root⟩,
              paintL client d.srv.mem d.vis (paintCalls d.srv.mem l)⟩,
             paintCalls d.srv.mem l, nr || !(paintCalls d.srv.mem l).isEmpty) := by
  induction l generalizing fuel d p nr with
  | nil =>
    have : p = none := hseg
    subst this
    have e : repainted d.srv.mem [] = d.srv.mem := by funext q; simp [repainted]
    cases fuel <;> simp [repaint_scan_vis, e, paintCalls, paintL]
  | cons a t ih =>
    obtain ⟨hp, w, hw, hseg'⟩ := hseg
    subst hp
    rw [List.nodup_cons] at hn
    cases fuel with
    | zero => simp at hf
    | succ f =>
      have hf' : t.length ≤ f := by simpa using hf
      have hpc := paintCalls_cons d.srv.mem a t w hw
      by_cases hc : (w.visible && w.dirty) = true
      · rw [if_pos hc] at hpc
        have hlive : ∀ q ∈ client (paintCall a w), ∃ w', d.srv.mem q.hWnd = some w' :=
          fun q hq => hl _ (by rw [hpc]; exact List.mem_cons_self _ _) q hq
        have e1 := put_all_eq (client (paintCall a w)) hs hlive
        have hseg1 : Seg window.up (store d.srv.mem a { w with dirty := false }) w.up t none :=
          seg_congr hseg' (fun b hb v hv =>
            ⟨v, by rw [store_other _ _ (fun (e : b = a) => hn.1 (e ▸ hb))]; exact hv, rfl⟩)
        have hpc1 : paintCalls (store d.srv.mem a { w with dirty := false }) t
            = paintCalls d.srv.mem t :=
          paintCalls_congr (fun b hb => store_other _ _ (fun (e : b = a) => hn.1 (e ▸ hb)))
        have hrp : repainted (store d.srv.mem a { w with dirty := false }) t
            = repainted d.srv.mem (a :: t) := by
          funext q
          simp only [repainted, List.mem_cons]
          by_cases hqa : q = a
          · subst hqa
            simp only [hn.1, if_false, true_or, if_true, store_same, hw, Option.map_some']
            simp only [Bool.and_eq_true] at hc
            simp [hc.1]
          · simp only [hqa, false_or, store_other _ _ hqa]
        have hl1 : ∀ e ∈ paintCalls (store d.srv.mem a { w with dirty := false }) t,
            ∀ q ∈ client e, ∃ w', store d.srv.mem a { w with dirty := false } q.hWnd = some w' := by
          intro e he q hq
          rw [hpc1] at he
          obtain ⟨w', hw'⟩ := hl e (by rw [hpc]; exact List.mem_cons_of_mem _ he) q hq
          by_cases hqa : q.hWnd = a
          · rw [hqa, store_same]; exact ⟨_, rfl⟩
          · rw [store_other _ _ hqa]; exact ⟨w', hw'⟩
        have hne : ¬ w.callback = 0 := by
          have hc' := hc
          simp only [Bool.and_eq_true] at hc'
          exact hcb a (List.mem_cons_self _ _) w hw hc'.1 hc'.2
        have hcb1 : HasCallbacks (store d.srv.mem a { w with dirty := false }) t :=
          hasCallbacks_congr (hasCallbacks_tail hcb)
            (fun b hb => store_other _ _ (fun (e : b = a) => hn.1 (e ▸ hb)))
        have e2 := ih f ⟨⟨store d.srv.mem a { w with dirty := false }, d.srv.root⟩,
          (client (paintCall a w)).foldl (putL d.srv.mem) d.vis⟩ w.up true hseg1 hn.2 hf'
          (foldl_putL_surfaceOk _ hs) hcb1 hl1
        have e1' : put_all d (client (Event.callback w.callback a 0 0 w.height w.width))
            = .ok ⟨d.srv, (client (paintCall a w)).foldl (putL d.srv.mem) d.vis⟩ := e1
        simp only [repaint_scan_vis, hw, hc, if_true, hne, if_false, e1', e2, hpc, hpc1, hrp]
        simp only [paintL, putL_store_dirty hw, List.foldl_cons, Bool.true_or, Bool.or_true,
          List.isEmpty_cons, Bool.not_false]
        rfl
      · rw [if_neg hc] at hpc
        have hrp : repainted d.srv.mem t = repainted d.srv.mem (a :: t) :=
          repainted_cons_skip hw hn.1 hc
        have e2 := ih f d w.up nr hseg' hn.2 hf' hs (hasCallbacks_tail hcb)
          (fun e he => hl e (by rw [hpc]; exact he))
        simp only [repaint_scan_vis, hw, hc, if_false, Bool.false_eq_true, e2, hpc, hrp]

theorem writeIndex_dims (m : Heap) {v v' : visual} (hw : v'.width = v.width)
    (hh : v'.height = v.height) (p : PutChar) : writeIndex m v' p = writeIndex m v p := by
  simp only [writeIndex, cell_index, hw, hh]

theorem lastWrite_dims (m : Heap) {v v' : visual} (hw : v'.width = v.width)
    (hh : v'.height = v.height) (ps : List PutChar) (i : Nat) :
    lastWrite m v' ps i = lastWrite m v ps i := by
  have e : writeIndex m v' = writeIndex m v := funext (writeIndex_dims m hw hh)
  simp only [lastWrite, e]

theorem putL_cell {m : Heap} {v : visual} (hs : SurfaceOk v) (p : PutChar) (i : Nat) :
    (putL m v p).vbuf[i]? = if writeIndex m v p = some i then some p.c else v.vbuf[i]? := by
  unfold putL
  cases hwi : writeIndex m v p with
  | none => simp
  | some j =>
    have hj := writeIndex_lt hs hwi
    by_cases hji : j = i
    · subst hji
      simp only [if_true]
      exact List.getElem?_set_self hj
    · have hne : ¬ (some j = some i) := fun e => hji (Option.some.inj e)
      simp only [hne, if_false]
      exact List.getElem?_set_ne hji

/-- The cell of the surface after a sequence of writes: the value of the last
write to it, or the old value when no write hits it. -/
theorem foldl_putL_cell {m : Heap} (ps : List PutChar) {v : visual} (hs : SurfaceOk v) (i : Nat) :
    (ps.foldl (putL m) v).vbuf[i]?
      = ps.foldl (fun acc p => if writeIndex m v p = some i then some p.c else acc)
          (v.vbuf[i]?) := by
  induction ps generalizing v with
  | nil => rfl
  | cons p ps ih =>
    have hd := putL_dims m v p
    have e : writeIndex m (putL m v p) = writeIndex m v := funext (writeIndex_dims m hd.1 hd.2)
    rw [List.foldl_cons, ih (putL_surfaceOk p hs), e, putL_cell hs, List.foldl_cons]

theorem foldl_last_some {α : Type} (c : α → Bool) (g : α → Nat) (ps : List α) (a : Option Nat)
    {x : Nat} (h : ps.foldl (fun acc p => if c p = true then some (g p) else acc) none = some x) :
    ps.foldl (fun acc p => if c p = true then some (g p) else acc) a = some x := by
  induction ps generalizing a with
  | nil => cases h
  | cons p ps ih =>
    rw [List.foldl_cons] at h ⊢
    by_cases hc : c p = true
    · rw [if_pos hc] at h ⊢
      exact h
    · rw [if_neg hc] at h ⊢
      exact ih a h

/-- A cell that the calls write holds, after they have run, what the last of
these writes stored. -/
theorem foldl_putL_lastWrite {m : Heap} (ps : List PutChar) {v : visual} (hs : SurfaceOk v)
    {i x : Nat} (h : lastWrite m v ps i = some x) : (ps.foldl (putL m) v).vbuf[i]? = some x := by
  rw [foldl_putL_cell ps hs]
  have h' : ps.foldl (fun acc p =>
      if decide (writeIndex m v p = some i) = true then some p.c else acc) none = some x := by
    simpa only [lastWrite, decide_eq_true_eq] using h
  have := foldl_last_some (fun p => decide (writeIndex m v p = some i)) PutChar.c ps
    (v.vbuf[i]?) h'
  simpa only [decide_eq_true_eq] using this

theorem paintCalls_append (m : Heap) (l1 l2 : List Nat) :
    paintCalls m (l1 ++ l2) = paintCalls m l1 ++ paintCalls m l2 := by
  simp only [paintCalls, List.filter_append, List.filterMap_append]

theorem paintL_snoc (client : Client) (m : Heap) (v : visual) (evs : List Event) (e : Event) :
    paintL client m v (evs ++ [e]) = (client e).foldl (putL m) (paintL client m v evs) := by
  simp only [paintL, List.foldl_append, List.foldl_cons, List.foldl_nil]

/-- One pass over a well-formed registry whose topmost window `t` is visible
and dirty, with callbacks on the visible and dirty windows: the pass returns,
the call for `t` is the last callback call, and every cell that the callback
of `t` writes ends up holding what the last of these writes stored. -/
theorem server_task_vis_top (client : Client) (s : Server) (l0 : List Nat) (t : Nat) {fuel : Nat}
    {wt : window} {v : visual} (hwf : WF s (l0 ++ [t])) (hw : s.mem t = some wt)
    (hv : wt.visible = true) (hd : wt.dirty = true) (hs : SurfaceOk v)
    (hcb : HasCallbacks s.mem (l0 ++ [t]))
    (hl : ∀ e ∈ paintCalls s.mem (l0 ++ [t]), ∀ q ∈ client e, ∃ w, s.mem q.hWnd = some w)
    (hf : l0.length + 1 ≤ fuel) :
    ∃ d', server_task_vis client fuel ⟨s, v⟩
        = .ok (d', paintCalls s.mem l0 ++ [paintCall t wt, Event.put_screen]) ∧
      d'.srv = { s with mem := repainted s.mem (l0 ++ [t]) } ∧
      ∀ i x, lastWrite s.mem v (client (paintCall t wt)) i = some x →
        d'.vis.vbuf[i]? = some x := by
  have hpc : paintCalls s.mem (l0 ++ [t]) = paintCalls s.mem l0 ++ [paintCall t wt] := by
    rw [paintCalls_append, paintCalls_cons s.mem t [] wt hw]
    simp [hv, hd, paintCalls]
  have e := repaint_scan_vis_eq client (l0 ++ [t]) fuel ⟨s, v⟩ s.root false hwf.up hwf.nodup
    (by simpa using hf) hs hcb hl
  refine ⟨⟨⟨repainted s.mem (l0 ++ [t]), s.root⟩,
    paintL client s.mem v (paintCalls s.mem (l0 ++ [t]))⟩, ?_, rfl, fun i x hx => ?_⟩
  · simp only [server_task_vis, e, hpc]
    simp
  · show (paintL client s.mem v (paintCalls s.mem (l0 ++ [t]))).vbuf[i]? = some x
    rw [hpc, paintL_snoc]
    have hd1 := paintL_dims client s.mem (paintCalls s.mem l0) v
    exact foldl_putL_lastWrite _ (paintL_surfaceOk client s.mem _ hs)
      ((lastWrite_dims s.mem hd1.1 hd1.2 _ i).trans hx)

/-! ## Claim on the drawing order of two overlapping windows -/

/-- C13 (amended): the window created earlier wins the overlap. Let `a1` be the
topmost window of a well-formed registry and let `stui_create_window` then
create `a2`. In every later state with the same windows and links (no raise,
destroy or create since) in which both windows are visible and dirty and the
visible and dirty windows have callbacks, one pass of the compositor over a
well-formed surface returns; the first event is the callback call of `a2`, the
last callback call is that of `a1`, followed by `drv_put_screen`; and every
cell that the callback of `a1` writes holds the value of the last of these
writes afterwards, also when the callback of `a2` wrote that cell. The client
code is taken to draw through live handles. -/
theorem earlier_created_window_wins (client : Client) (s s1 : Server) (pre : List Nat)
    (a1 a2 cb2 fuel : Nat) (m : Heap) (v : visual) (w1 w2 : window)
    (hwf : WF s (pre ++ [a1])) (hfresh : s.mem a2 = none)
    (hc : stui_create_window s (some a2) cb2 = .ok (s1, some a2))
    (hsl : SameLinks s1.mem m) (h1 : m a1 = some w1) (h2 : m a2 = some w2)
    (hv1 : w1.visible = true) (hd1 : w1.dirty = true)
    (hv2 : w2.visible = true) (hd2 : w2.dirty = true) (hs : SurfaceOk v)
    (hcb : HasCallbacks m (a2 :: pre ++ [a1]))
    (hl : ∀ e ∈ paintCalls m (a2 :: pre ++ [a1]), ∀ q ∈ client e, ∃ w, m q.hWnd = some w)
    (hf : pre.length + 2 ≤ fuel) :
    ∃ d' mid, server_task_vis client fuel ⟨⟨m, s1.root⟩, v⟩
        = .ok (d', paintCall a2 w2 :: mid ++ [paintCall a1 w1, Event.put_screen]) ∧
      ∀ i x, lastWrite m v (client (paintCall a1 w1)) i = some x →
        d'.vis.vbuf[i]? = some x := by
  obtain ⟨s1', e, hwf1, _, _, _⟩ := stui_create_window_spec cb2 hwf hfresh
  rw [e] at hc
  cases hc
  have hwf2 : WF ⟨m, s1.root⟩ ((a2 :: pre) ++ [a1]) := hwf1.sameLinks hsl
  obtain ⟨d', hd, _, hcell⟩ := server_task_vis_top client ⟨m, s1.root⟩ (a2 :: pre) a1 hwf2 h1
    hv1 hd1 hs hcb hl (by simpa using hf)
  have hpc : paintCalls m (a2 :: pre) = paintCall a2 w2 :: paintCalls m pre := by
    rw [paintCalls_cons m a2 pre w2 h2]
    simp [hv2, hd2]
  refine ⟨d', paintCalls m pre, ?_, hcell⟩
  rw [hd]
  show Except.ok (d', paintCalls m (a2 :: pre) ++ [paintCall a1 w1, Event.put_screen]) = _
  rw [hpc]

/-- Instance of `earlier_created_window_wins`: window 1 with callback 11 at
`(0,0)`, `10 x 5`, visible and dirty, is alone; window 2 is created with
callback 22 and then made `10 x 5` at `(2,2)`, visible and dirty. The callback
of window 1 writes 65 to its position `(2,2)`, the callback of window 2 writes
66 to its position `(0,0)`: the same cell of a surface of `16 x 8` cells. -/
theorem earlier_created_window_wins_witness :
    WF (mkServer [(1, rect_cb 11 0 0 10 5 true true)]) ([] ++ [1]) ∧
    (mkServer [(1, rect_cb 11 0 0 10 5 true true)]).mem 2 = none ∧
    SurfaceOk ⟨List.replicate 128 32, 16, 8⟩ ∧
    ∃ s1 m w1 w2, stui_create_window (mkServer [(1, rect_cb 11 0 0 10 5 true true)]) (some 2) 22
        = .ok (s1, some 2) ∧ SameLinks s1.mem m ∧ m 1 = some w1 ∧ m 2 = some w2 ∧
      w1.visible = true ∧ w1.dirty = true ∧ w2.visible = true ∧ w2.dirty = true ∧
      HasCallbacks m (2 :: [] ++ [1]) ∧
      ∃ d' mid, server_task_vis
          (fun e => if e = Event.callback 11 1 0 0 5 10 then [⟨1, 2, 2, 65⟩]
            else if e = Event.callback 22 2 0 0 5 10 then [⟨2, 0, 0, 66⟩] else [])
          2 ⟨⟨m, s1.root⟩, ⟨List.replicate 128 32, 16, 8⟩⟩
          = .ok (d', paintCall 2 w2 :: mid ++ [paintCall 1 w1, Event.put_screen]) ∧
        ∀ i x, lastWrite m ⟨List.replicate 128 32, 16, 8⟩
            ((fun e => if e = Event.callback 11 1 0 0 5 10 then [⟨1, 2, 2, 65⟩]
              else if e = Event.callback 22 2 0 0 5 10 then [⟨2, 0, 0, 66⟩] else [])
              (paintCall 1 w1)) i = some x →
          d'.vis.vbuf[i]? = some x := by
  have hwf : WF (mkServer [(1, rect_cb 11 0 0 10 5 true true)]) ([] ++ [1]) :=
    wf_mkServer _ (by decide)
  have hso : SurfaceOk ⟨List.replicate 128 32, 16, 8⟩ :=
    ⟨List.length_replicate _ _, by decide⟩
  obtain ⟨s1, hc, _, _, h2, hold⟩ := stui_create_window_spec (h := 2) 22 hwf rfl
  obtain ⟨w1, h1, hw1⟩ := hold 1 _ rfl
  have hne : (1 : Nat) ≠ 2 := by decide
  have hm1 : store s1.mem 2 ⟨10, 5, 2, 2, 22, some 1, none, true, true, 0⟩ 1 = some w1 := by
    rw [store_other _ _ hne]; exact h1
  have hlive : ∀ q : PutChar, q.hWnd = 1 ∨ q.hWnd = 2 →
      ∃ w, store s1.mem 2 ⟨10, 5, 2, 2, 22, some 1, none, true, true, 0⟩ q.hWnd = some w := by
    rintro q (hq | hq)
    · rw [hq]; exact ⟨_, hm1⟩
    · rw [hq]; exact ⟨_, store_same _ _ _⟩
  have hsl : SameLinks s1.mem
      (store s1.mem 2 ⟨10, 5, 2, 2, 22, some 1, none, true, true, 0⟩) :=
    sameLinks_store h2 rfl rfl
  have hm2 : store s1.mem 2 ⟨10, 5, 2, 2, 22, some 1, none, true, true, 0⟩ 2
      = some ⟨10, 5, 2, 2, 22, some 1, none, true, true, 0⟩ := store_same _ _ _
  have hv1 : w1.visible = true := by rw [hw1]; rfl
  have hd1 : w1.dirty = true := by rw [hw1]; rfl
  have hc1 : w1.callback = 11 := by rw [hw1]; rfl
  have hcb : HasCallbacks (store s1.mem 2 ⟨10, 5, 2, 2, 22, some 1, none, true, true, 0⟩)
      (2 :: [] ++ [1]) := by
    intro a ha w hw _ _
    have ha' : a = 2 ∨ a = 1 := by simpa using ha
    rcases ha' with rfl | rfl
    · rw [hm2] at hw
      cases hw
      decide
    · rw [hm1] at hw
      cases hw
      rw [hc1]
      decide
  refine ⟨hwf, rfl, hso, s1, store s1.mem 2 ⟨10, 5, 2, 2, 22, some 1, none, true, true, 0⟩,
    w1, ⟨10, 5, 2, 2, 22, some 1, none, true, true, 0⟩, hc, hsl, hm1, hm2, hv1, hd1, rfl, rfl,
    hcb,
    earlier_created_window_wins _ _ s1 [] 1 2 22 2 _ _ w1 _ hwf rfl hc hsl hm1 hm2 hv1 hd1
      rfl rfl hso hcb ?_ (by decide)⟩
  intro e _ q hq
  apply hlive
  by_cases he1 : e = Event.callback 11 1 0 0 5 10
  · rw [if_pos he1] at hq
    rw [List.mem_singleton] at hq
    left; rw [hq]
  · rw [if_neg he1] at hq
    by_cases he2 : e = Event.callback 22 2 0 0 5 10
    · rw [if_pos he2] at hq
      rw [List.mem_singleton] at hq
      right; rw [hq]
    · rw [if_neg he2] at hq
      cases hq

set_option maxRecDepth 8192 in
/-- C13 fails as stated: from the empty registry, window 1 is created, placed
at `(0,0)`, sized `10 x 5` and shown, then window 2 is created, placed at
`(2,2)`, sized `10 x 5` and shown, with no raise. The callback of window 1
writes 65 to its positions `(0,0)` and `(2,2)`, the callback of window 2 writes
66 to its positions `(0,0)` and `(4,9)`; position `(2,2)` of window 1 and
`(0,0)` of window 2 are the same cell 34 of the surface of `16 x 8` cells. One pass
calls the callback of window 2, created later, first and that of window 1
last, and cell 34 ends up holding 65, the value of window 1. -/
theorem later_created_window_loses :
    ∃ s1 s2 s3 s4 s5 s6 s7 s8 d',
      stui_create_window init (some 1) 11 = .ok (s1, some 1) ∧
      stui_move_window 4 s1 1 0 0 = .ok s2 ∧
      stui_resize_window 4 8 16 s2 1 10 5 = .ok s3 ∧
      stui_show_window 4 s3 1 = .ok s4 ∧
      stui_create_window s4 (some 2) 22 = .ok (s5, some 2) ∧
      stui_move_window 4 s5 2 2 2 = .ok s6 ∧
      stui_resize_window 4 8 16 s6 2 10 5 = .ok s7 ∧
      stui_show_window 4 s7 2 = .ok s8 ∧
      server_task_vis
          (fun e => if e = Event.callback 11 1 0 0 5 10 then [⟨1, 0, 0, 65⟩, ⟨1, 2, 2, 65⟩]
            else if e = Event.callback 22 2 0 0 5 10 then [⟨2, 0, 0, 66⟩, ⟨2, 4, 9, 66⟩]
            else [])
          4 ⟨s8, ⟨List.replicate 128 32, 16, 8⟩⟩
        = .ok (d', [Event.callback 22 2 0 0 5 10, Event.callback 11 1 0 0 5 10,
            Event.put_screen]) ∧
      d'.vis.vbuf[0]? = some 65 ∧ d'.vis.vbuf[34]? = some 65 ∧ d'.vis.vbuf[107]? = some 66 :=
  ⟨_, _, _, _, _, _, _, _, _, rfl, rfl, rfl, rfl, rfl, rfl, rfl, rfl,
    rfl,
    rfl,
    rfl,
    rfl⟩

/-! ## Claim on server start -/

/-- C21: `stui_server` returns 0 exactly when `drv_open` does not return -1,
`osal_mutex_init` returns 0, `calloc` returns a buffer, and `osal_task_init`
and `osal_task_start` return 0; otherwise it returns -1. On success it has
made the six start-up calls and released nothing. When a step fails, the
calls made are the steps up to and including the failing one, followed by the
releases of what the earlier steps acquired, latest first (task destroy, free,
mutex destroy, driver close), and by nothing else. -/
theorem startup_unwinds (env : StartEnv) :
    ((stui_server env).ret = 0 ↔
      (env.open_status ≠ -1 ∧ env.mutex_status = 0 ∧ env.vbuf_ok = true ∧
        env.init_status = 0 ∧ env.start_status = 0)) ∧
    ((stui_server env).ret ≠ 0 → (stui_server env).ret = -1) ∧
    ((stui_server env).ret = 0 →
      (stui_server env).calls = [.drv_open, .osal_mutex_init, .drv_get_screen_size,
        .calloc (u32 (env.rows * env.cols)), .osal_task_init, .osal_task_start]) ∧
    (env.open_status = -1 → (stui_server env).calls = [.drv_open]) ∧
    (env.open_status ≠ -1 → env.mutex_status ≠ 0 →
      (stui_server env).calls = [.drv_open, .osal_mutex_init, .drv_close]) ∧
    (env.open_status ≠ -1 → env.mutex_status = 0 → env.vbuf_ok = false →
      (stui_server env).calls = [.drv_open, .osal_mutex_init, .drv_get_screen_size,
        .calloc (u32 (env.rows * env.cols)), .osal_mutex_destroy, .drv_close]) ∧
    (env.open_status ≠ -1 → env.mutex_status = 0 → env.vbuf_ok = true →
      env.init_status ≠ 0 →
      (stui_server env).calls = [.drv_open, .osal_mutex_init, .drv_get_screen_size,
        .calloc (u32 (env.rows * env.cols)), .osal_task_init,
        .free, .osal_mutex_destroy, .drv_close]) ∧
    (env.open_status ≠ -1 → env.mutex_status = 0 → env.vbuf_ok = true →
      env.init_status = 0 → env.start_status ≠ 0 →
      (stui_server env).calls = [.drv_open, .osal_mutex_init, .drv_get_screen_size,
        .calloc (u32 (env.rows * env.cols)), .osal_task_init, .osal_task_start,
        .osal_task_destroy, .free, .osal_mutex_destroy, .drv_close]) ∧
    ((stui_server env).ret ≠ 0 →
      ∃ n, n ≤ 6 ∧ (stui_server env).calls
        = (stui_server env).calls.take n
          ++ (((stui_server env).calls.take (n - 1)).filterMap release_of).reverse) := by
  unfold stui_server
  by_cases h1 : env.open_status = -1
  · simp only [h1, if_true]
    refine ⟨by simp, by simp, by simp, by simp, by simp, by simp, by simp, by simp, ?_⟩
    intro _
    exact ⟨1, by decide, rfl⟩
  · by_cases h2 : env.mutex_status = 0
    · by_cases h3 : env.vbuf_ok = true
      · by_cases h4 : env.init_status = 0
        · by_cases h5 : env.start_status = 0
          · simp [h1, h2, h3, h4, h5]
          · simp only [h1, h2, h3, h4, h5, if_false, if_true, ne_eq, not_true_eq_false,
              not_false_eq_true, Bool.true_eq_false]
            refine ⟨by simp, by simp, by simp, by simp, by simp, by simp, by simp, by simp, ?_⟩
            intro _
            exact ⟨6, by decide, rfl⟩
        · simp only [h1, h2, h3, h4, if_false, if_true, ne_eq, not_true_eq_false,
            not_false_eq_true, Bool.true_eq_false]
          refine ⟨by simp, by simp, by simp, by simp, by simp, by simp, by simp, by simp [h4], ?_⟩
          intro _
          exact ⟨5, by decide, rfl⟩
      · have h3' : env.vbuf_ok = false := by simpa using h3
        simp only [h1, h2, h3', if_false, if_true, ne_eq, not_true_eq_false]
        refine ⟨by simp, by simp, by simp, by simp, by simp, by simp, by simp, by simp, ?_⟩
        intro _
        exact ⟨4, by decide, rfl⟩
    · simp only [h1, h2, if_false, if_true, ne_eq, not_false_eq_true]
      refine ⟨by simp [h2], by simp, by simp, by simp, by simp, by simp [h2], by simp [h2],
        by simp [h2], ?_⟩
      intro _
      exact ⟨2, by decide, rfl⟩

/-! ## Claims on the overlap test and on the two scans -/

/-- C25 (amended): the test of Rule A for `(src, win)` is the test of Rule B
for `(win, src)`; the test is symmetric and true exactly when the four
comparisons hold, with the sums taken modulo `2^32`. Rectangles that touch at
an edge (`a.col + a.width = b.col`, or `a.row + a.height = b.row`) pass the
test when the comparisons on the other axis hold and the sum of `b` on the
touching axis does not wrap around. -/
theorem overlap_test_inclusive (a b : window) :
    underlap_test a b = overlap_test b a ∧ overlap_test a b = overlap_test b a ∧
    (overlap_test a b = true ↔
      (a.col ≤ (b.col + b.width) % 4294967296 ∧ (a.col + a.width) % 4294967296 ≥ b.col ∧
        a.row ≤ (b.row + b.height) % 4294967296 ∧ (a.row + a.height) % 4294967296 ≥ b.row)) ∧
    (a.col + a.width = b.col → b.col + b.width < 4294967296 →
      a.row ≤ (b.row + b.height) % 4294967296 → (a.row + a.height) % 4294967296 ≥ b.row →
      overlap_test a b = true) ∧
    (a.row + a.height = b.row → b.row + b.height < 4294967296 →
      a.col ≤ (b.col + b.width) % 4294967296 → (a.col + a.width) % 4294967296 ≥ b.col →
      overlap_test a b = true) := by
  have key : overlap_test a b = true ↔
      (a.col ≤ (b.col + b.width) % 4294967296 ∧ (a.col + a.width) % 4294967296 ≥ b.col ∧
        a.row ≤ (b.row + b.height) % 4294967296 ∧ (a.row + a.height) % 4294967296 ≥ b.row) := by
    simp only [overlap_test, u32, Bool.and_eq_true, decide_eq_true_eq, ge_iff_le, and_assoc]
  refine ⟨underlap_test_eq a b, overlap_test_symm a b, key, ?_, ?_⟩
  · intro he hb h3 h4
    rw [key]
    refine ⟨?_, ?_, h3, h4⟩
    · rw [Nat.mod_eq_of_lt hb]; omega
    · rw [he, Nat.mod_eq_of_lt (by omega)]
  · intro he hb h1 h2
    rw [key]
    refine ⟨h1, h2, ?_, ?_⟩
    · rw [Nat.mod_eq_of_lt hb]; omega
    · rw [he, Nat.mod_eq_of_lt (by omega)]

/-- C25 fails as stated: window `a` at column 5 of width 5 ends where window
`b` at column 10 starts, and both cover rows 0 to 5, but `b` has width
`2^32 - 8`, so `b.col + b.width` wraps to 2 and the comparison
`a.col <= b.col + b.width` is false: neither scan treats the two as
overlapping. -/
theorem edge_touch_not_overlapping :
    (rect 0 5 5 5 true false).col + (rect 0 5 5 5 true false).width
      = (rect 0 10 4294967288 5 true false).col ∧
    (rect 0 5 5 5 true false).row
      ≤ (rect 0 10 4294967288 5 true false).row + (rect 0 10 4294967288 5 true false).height ∧
    (rect 0 10 4294967288 5 true false).row
      ≤ (rect 0 5 5 5 true false).row + (rect 0 5 5 5 true false).height ∧
    overlap_test (rect 0 5 5 5 true false) (rect 0 10 4294967288 5 true false) = false ∧
    overlap_test (rect 0 10 4294967288 5 true false) (rect 0 5 5 5 true false) = false ∧
    underlap_test (rect 0 5 5 5 true false) (rect 0 10 4294967288 5 true false) = false ∧
    underlap_test (rect 0 10 4294967288 5 true false) (rect 0 5 5 5 true false) = false := by
  decide

/-- The flag of a window after the downward scan: set exactly when it was set
before or the window is on the walk, visible and passes the test. -/
theorem mduL_dirty_iff (l : List Nat) (m : Heap) (src b : Nat) {wb ws : window}
    (hl : ∀ a ∈ l, ∃ w, m a = some w) (hwb : m b = some wb) (hws : m src = some ws) :
    ∃ wb', mduL l m src b = some wb' ∧ wb' = { wb with dirty := wb'.dirty } ∧
      (wb'.dirty = true ↔
        (wb.dirty = true ∨ (b ∈ l ∧ wb.visible = true ∧ underlap_test ws wb = true))) := by
  induction l generalizing m wb ws with
  | nil => exact ⟨wb, hwb, rfl, by simp⟩
  | cons a t ih =>
    obtain ⟨w, hw⟩ := hl a (List.mem_cons_self _ _)
    simp only [mduL, hw, hws]
    by_cases hc : ((w.visible && !w.dirty) && underlap_test ws w) = true
    · rw [if_pos hc]
      simp only [Bool.and_eq_true, Bool.not_eq_true', Bool.not_eq_eq_eq_not, Bool.not_true] at hc
      have hmk := marked_store hw hc.1.2
      obtain ⟨wb1, hwb1, hbe, hbd⟩ := marked_get hmk hwb
      obtain ⟨ws1, hws1, hse, _⟩ := marked_get hmk hws
      obtain ⟨wb', e, e1, e2⟩ := ih (store m a (setDirty w))
        (fun c hc' => marked_live hmk (hl c (List.mem_cons_of_mem _ hc'))) hwb1 hws1
      have ht : underlap_test ws1 wb1 = underlap_test ws wb := by
        rw [underlap_test_eq, overlap_test_congr hbe hse, ← underlap_test_eq]
      have hv1 : wb1.visible = wb.visible := by rw [hbe]
      refine ⟨wb', e, by rw [e1, hbe], ?_⟩
      rw [e2, ht, hv1, List.mem_cons]
      by_cases hba : b = a
      · subst hba
        rw [hw] at hwb
        cases hwb
        have h1 : wb1.dirty = true := by
          rw [store_same] at hwb1
          cases hwb1
          rfl
        simp [h1, hc.1.1, hc.2]
      · have h1 : wb1 = wb := by
          rw [store_other _ _ hba, hwb] at hwb1
          exact (Option.some.inj hwb1).symm
        simp [h1, hba]
    · rw [if_neg hc]
      obtain ⟨wb', e, e1, e2⟩ := ih m (fun c hc' => hl c (List.mem_cons_of_mem _ hc')) hwb hws
      refine ⟨wb', e, e1, ?_⟩
      rw [e2, List.mem_cons]
      by_cases hba : b = a
      · subst hba
        rw [hw] at hwb
        cases hwb
        simp only [Bool.and_eq_true, Bool.not_eq_true', not_and, Bool.not_eq_true] at hc
        constructor
        · rintro (h | ⟨_, hv, ho⟩)
          · exact Or.inl h
          · exact Or.inr ⟨Or.inl rfl, hv, ho⟩
        · rintro (h | ⟨_, hv, ho⟩)
          · exact Or.inl h
          · left
            by_contra hd
            have hd' : wb.dirty = false := by simpa using hd
            have := hc ⟨hv, hd'⟩
            rw [ho] at this
            cases this
      · simp [hba]

/-- C24: on a well-formed registry the scan
`mark_dirty_underlapping( src->down, src )` returns; afterwards every window
is as before except possibly for its dirty flag, and it is dirty exactly when
it was dirty before, or it is below `src`, visible and passes the overlap test
against `src`; windows at or above `src` are unchanged, and so are `root` and
the z-order. -/
theorem rule_A_marks_covered_below (s : Server) (pre post : List Nat) (src fuel : Nat)
    (ws : window) (hwf : WF s (pre ++ src :: post)) (hws : s.mem src = some ws)
    (hf : pre.length ≤ fuel) :
    ∃ m', mark_dirty_underlapping fuel s.mem ws.down src = .ok m' ∧
      WF ⟨m', s.root⟩ (pre ++ src :: post) ∧
      ∀ b wb, s.mem b = some wb →
        ∃ wb', m' b = some wb' ∧ wb' = { wb with dirty := wb'.dirty } ∧
          (wb'.dirty = true ↔
            (wb.dirty = true ∨ (b ∈ pre ∧ wb.visible = true ∧ underlap_test ws wb = true))) ∧
          (b ∉ pre → wb' = wb) := by
  obtain ⟨w, hw, _, _, hdn⟩ := wf_at hwf
  rw [hws] at hw
  cases hw
  have e := mark_dirty_underlapping_eq pre.reverse fuel s.mem ws.down src hdn
    (by simpa using hf) ⟨ws, hws⟩
  refine ⟨_, e, hwf.sameLinks (sameLinks_of_marked (mduL_marked _ _ _)), fun b wb hwb => ?_⟩
  have hl : ∀ a ∈ pre.reverse, ∃ w, s.mem a = some w := by
    intro a ha
    exact (hwf.live a).2 (List.mem_append_left _ (List.mem_reverse.1 ha))
  obtain ⟨wb', e1, e2, e3⟩ := mduL_dirty_iff pre.reverse s.mem src b hl hwb hws
  refine ⟨wb', e1, e2, ?_, fun hb => ?_⟩
  · rw [e3, List.mem_reverse]
  · have := mduL_support pre.reverse s.mem src b (fun h => hb (List.mem_reverse.1 h))
    rw [this, hwb] at e1
    exact (Option.some.inj e1).symm

/-- Instance of `rule_A_marks_covered_below`: three visible clean windows,
the scan is run for the topmost one. -/
theorem rule_A_marks_covered_below_witness :
    WF (mkServer [(1, rect 0 0 10 5 true false), (2, rect 20 40 5 5 true false),
      (3, rect 2 2 10 5 true false)]) ([1, 2] ++ 3 :: []) ∧
    ∃ m', mark_dirty_underlapping 2 (mkServer [(1, rect 0 0 10 5 true false),
        (2, rect 20 40 5 5 true false), (3, rect 2 2 10 5 true false)]).mem
        (window.down ⟨10, 5, 2, 2, 0, none, some 2, true, false, 0⟩) 3 = .ok m' ∧
      WF ⟨m', (mkServer [(1, rect 0 0 10 5 true false), (2, rect 20 40 5 5 true false),
        (3, rect 2 2 10 5 true false)]).root⟩ ([1, 2] ++ 3 :: []) ∧
      ∀ b wb, (mkServer [(1, rect 0 0 10 5 true false), (2, rect 20 40 5 5 true false),
          (3, rect 2 2 10 5 true false)]).mem b = some wb →
        ∃ wb', m' b = some wb' ∧ wb' = { wb with dirty := wb'.dirty } ∧
          (wb'.dirty = true ↔
            (wb.dirty = true ∨ (b ∈ [1, 2] ∧ wb.visible = true ∧
              underlap_test ⟨10, 5, 2, 2, 0, none, some 2, true, false, 0⟩ wb = true))) ∧
          (b ∉ [1, 2] → wb' = wb) :=
  ⟨wf_mkServer _ (by decide),
    rule_A_marks_covered_below (mkServer [(1, rect 0 0 10 5 true false),
      (2, rect 20 40 5 5 true false), (3, rect 2 2 10 5 true false)]) [1, 2] [] 3 2
      ⟨10, 5, 2, 2, 0, none, some 2, true, false, 0⟩ (wf_mkServer _ (by decide)) rfl
      (by decide)⟩

/-! ## Claims on move and resize of hidden and of bottom windows -/

theorem redim_window_hidden {s : Server} {h : Nat} {w : window} (fuel row col width height : Nat)
    (hw : s.mem h = some w) (hv : w.visible = false) :
    redim_window fuel s h row col width height
      = .ok ⟨store s.mem h (setGeom w row col width height), s.root⟩ := by
  have e2 : modify s.mem (some h)
      (fun x => { x with row := row, col := col, width := width, height := height })
      = .ok (store s.mem h (setGeom w row col width height)) := modify_eq hw _
  have hv2 : (setGeom w row col width height).visible = false := hv
  have hn : ¬ (w.visible = true) := by rw [hv]; decide
  simp only [redim_window, load_eq hw, bind, Except.bind]
  rw [if_neg hn]
  simp only [pure, Except.pure, e2, load_eq (store_same _ _ _), hv2, if_false,
    Bool.false_eq_true]

/-- C27: for a live window that is not visible, `stui_move_window` and
`stui_resize_window` return for every step bound and every registry; they
store the new geometry in the record of the window and change nothing else:
the other fields of the window (flags and links included), `root`, and the
record of every other window are as before. -/
theorem hidden_window_geometry_only (s : Server) (h fuel rows cols row col width height : Nat)
    (w : window) (hw : s.mem h = some w) (hv : w.visible = false) :
    ∃ s1 s2 w1 w2, stui_move_window fuel s h row col = .ok s1 ∧
      stui_resize_window fuel rows cols s h width height = .ok s2 ∧
      s1.root = s.root ∧ s2.root = s.root ∧
      s1.mem h = some w1 ∧ w1 = { w with row := row, col := col } ∧
      s2.mem h = some w2 ∧ w2 = { w with width := w2.width, height := w2.height } ∧
      (width ≠ 0 → height ≠ 0 → w2.width = width ∧ w2.height = height) ∧
      ∀ a, a ≠ h → s1.mem a = s.mem a ∧ s2.mem a = s.mem a := by
  have e1 : stui_move_window fuel s h row col
      = .ok ⟨store s.mem h (setGeom w row col w.width w.height), s.root⟩ := by
    simp only [stui_move_window, load_eq hw, bind, Except.bind]
    exact redim_window_hidden fuel row col w.width w.height hw hv
  have e2 : stui_resize_window fuel rows cols s h width height
      = .ok ⟨store s.mem h (rect_after rows cols w (WinOp.opResize width height)), s.root⟩ := by
    simp only [stui_resize_window, load_eq hw, bind, Except.bind]
    exact redim_window_hidden fuel _ _ _ _ hw hv
  refine ⟨_, _, _, _, e1, e2, rfl, rfl, store_same _ _ _, rfl, store_same _ _ _, rfl, ?_,
    fun a ha => ⟨store_other _ _ ha, store_other _ _ ha⟩⟩
  intro h1 h2
  simp [rect_after, setGeom, h1, h2]

/-- Instance of `hidden_window_geometry_only`: a hidden dirty window between
two visible clean windows that it overlaps. -/
theorem hidden_window_geometry_only_witness :
    (mkServer [(1, rect 0 0 10 5 true false), (2, rect 2 2 10 5 false true),
      (3, rect 1 1 3 3 true false)]).mem 2
      = some ⟨10, 5, 2, 2, 0, some 3, some 1, false, true, 0⟩ ∧
    ∃ s1 s2 w1 w2, stui_move_window 0 (mkServer [(1, rect 0 0 10 5 true false),
        (2, rect 2 2 10 5 false true), (3, rect 1 1 3 3 true false)]) 2 7 9 = .ok s1 ∧
      stui_resize_window 0 24 80 (mkServer [(1, rect 0 0 10 5 true false),
        (2, rect 2 2 10 5 false true), (3, rect 1 1 3 3 true false)]) 2 4 6 = .ok s2 ∧
      s1.root = (mkServer [(1, rect 0 0 10 5 true false), (2, rect 2 2 10 5 false true),
        (3, rect 1 1 3 3 true false)]).root ∧
      s2.root = (mkServer [(1, rect 0 0 10 5 true false), (2, rect 2 2 10 5 false true),
        (3, rect 1 1 3 3 true false)]).root ∧
      s1.mem 2 = some w1 ∧
      w1 = { (⟨10, 5, 2, 2, 0, some 3, some 1, false, true, 0⟩ : window) with row := 7, col := 9 } ∧
      s2.mem 2 = some w2 ∧
      w2 = { (⟨10, 5, 2, 2, 0, some 3, some 1, false, true, 0⟩ : window) with width := w2.width, height := w2.height } ∧
      (4 ≠ 0 → 6 ≠ 0 → w2.width = 4 ∧ w2.height = 6) ∧
      ∀ a, a ≠ 2 → s1.mem a = (mkServer [(1, rect 0 0 10 5 true false),
          (2, rect 2 2 10 5 false true), (3, rect 1 1 3 3 true false)]).mem a ∧
        s2.mem a = (mkServer [(1, rect 0 0 10 5 true false),
          (2, rect 2 2 10 5 false true), (3, rect 1 1 3 3 true false)]).mem a :=
  ⟨rfl, hidden_window_geometry_only (mkServer [(1, rect 0 0 10 5 true false),
    (2, rect 2 2 10 5 false true), (3, rect 1 1 3 3 true false)]) 2 0 24 80 7 9 4 6
    ⟨10, 5, 2, 2, 0, some 3, some 1, false, true, 0⟩ rfl rfl⟩

theorem redimL_root_self {m : Heap} {h : Nat} {post : List Nat} {w : window}
    (row col width height : Nat) (hnp : h ∉ post) (hw : m h = some w) :
    redimL ([] ++ h :: post) [] post h w row col width height m h
      = some (setGeom w row col width height) := by
  unfold redimL
  have hvac : vacateL ([] ++ h :: post) [].reverse h m = mdoL post m h := rfl
  have hh : mdoL post m h h = some w := by rw [mdoL_support _ _ _ _ hnp]; exact hw
  by_cases hv : w.visible = true
  · rw [if_pos hv, hvac]
    simp only [hh]
    rw [mdoL_support _ _ _ _ hnp, store_same]
  · rw [if_neg hv, store_same]

/-- C30: when the bottom window (the root) of a well-formed registry is not
dirty, be it visible or hidden, `stui_move_window` and `stui_resize_window`
return and leave it not dirty, with its new geometry and its other fields as
before.
More generally the scan `mark_dirty_overlapping( start, src )` returns and
leaves the record of every window that is not on the walk upwards from
`start` as it was. -/
theorem moved_root_stays_clean (s : Server) (post : List Nat)
    (h fuel rows cols row col width height : Nat) (w : window)
    (hwf : WF s (h :: post)) (hw : s.mem h = some w)
    (hd : w.dirty = false) (hf : post.length + 1 ≤ fuel) :
    (∃ s1 s2 w2, stui_move_window fuel s h row col = .ok s1 ∧
      stui_resize_window fuel rows cols s h width height = .ok s2 ∧
      s1.mem h = some { w with row := row, col := col } ∧
      s2.mem h = some w2 ∧ w2 = { w with width := w2.width, height := w2.height } ∧
      w2.dirty = false) ∧
    ∀ (m : Heap) (start : Option Nat) (src : Nat) (l : List Nat) (b : Nat),
      Seg window.up m start l none → l.length ≤ fuel → (∃ v, m src = some v) → b ∉ l →
      ∃ m', mark_dirty_overlapping fuel m start src = .ok m' ∧ m' b = m b := by
  have hwf' : WF s ([] ++ h :: post) := hwf
  have hnp : h ∉ post := (List.nodup_cons.1 hwf.nodup).1
  have hf' : ([] ++ h :: post).length ≤ fuel := by simpa using hf
  have e1 : stui_move_window fuel s h row col = .ok ⟨redimL ([] ++ h :: post) [] post h w
      row col w.width w.height s.mem, s.root⟩ := by
    simp only [stui_move_window, load_eq hw, bind, Except.bind]
    exact redim_window_eq _ _ _ _ hwf' hw hf'
  have e2 : stui_resize_window fuel rows cols s h width height
      = .ok ⟨redimL ([] ++ h :: post) [] post h w w.row w.col
        (if (width = 0 ∨ height = 0) ∧ width = 0 then u32 (cols + 4294967296 - w.col)
          else width)
        (if (width = 0 ∨ height = 0) ∧ height = 0 then u32 (rows + 4294967296 - w.row)
          else height) s.mem, s.root⟩ := by
    simp only [stui_resize_window, load_eq hw, bind, Except.bind]
    exact redim_window_eq _ _ _ _ hwf' hw hf'
  refine ⟨⟨_, _, _, e1, e2, redimL_root_self _ _ _ _ hnp hw,
    redimL_root_self _ _ _ _ hnp hw, rfl, hd⟩, ?_⟩
  intro m start src l b hseg hlen hsrc hb
  exact ⟨_, mark_dirty_overlapping_eq l fuel m start src hseg hlen hsrc,
    mdoL_support l m src b hb⟩

/-- Instance of `moved_root_stays_clean`: the lower of two overlapping visible
clean windows is moved and resized. -/
theorem moved_root_stays_clean_witness :
    WF (mkServer [(1, rect 0 0 10 5 true false), (2, rect 2 2 10 5 true false)]) (1 :: [2]) ∧
    (∃ s1 s2 w2, stui_move_window 2 (mkServer [(1, rect 0 0 10 5 true false),
        (2, rect 2 2 10 5 true false)]) 1 7 9 = .ok s1 ∧
      stui_resize_window 2 24 80 (mkServer [(1, rect 0 0 10 5 true false),
        (2, rect 2 2 10 5 true false)]) 1 4 6 = .ok s2 ∧
      s1.mem 1 = some { (⟨10, 5, 0, 0, 0, some 2, none, true, false, 0⟩ : window) with row := 7, col := 9 } ∧
      s2.mem 1 = some w2 ∧
      w2 = { (⟨10, 5, 0, 0, 0, some 2, none, true, false, 0⟩ : window) with width := w2.width, height := w2.height } ∧
      w2.dirty = false) ∧
    ∀ (m : Heap) (start : Option Nat) (src : Nat) (l : List Nat) (b : Nat),
      Seg window.up m start l none → l.length ≤ 2 → (∃ v, m src = some v) → b ∉ l →
      ∃ m', mark_dirty_overlapping 2 m start src = .ok m' ∧ m' b = m b :=
  ⟨wf_mkServer _ (by decide),
    moved_root_stays_clean (mkServer [(1, rect 0 0 10 5 true false),
      (2, rect 2 2 10 5 true false)]) [2] 1 2 24 80 7 9 4 6
      ⟨10, 5, 0, 0, 0, some 2, none, true, false, 0⟩ (wf_mkServer _ (by decide)) rfl rfl
      (by decide)⟩

/-! ## Claim on the subscript of `stui_cb_putchar` -/

/-- C29: the buffer that a successful `stui_server` leaves has
`rows * cols` cells when that product fits in 32 bits. On every surface whose
buffer has `width * height` cells, fitting in 32 bits, `stui_cb_putchar` on a
live window returns, for all `row` and `col` (wrapping sums included); when it
writes, the subscript it uses is below `width * height` and inside the buffer,
the write changes that cell only, and the surface keeps its size; when the
clipping test fails nothing changes. -/
theorem putchar_index_in_buffer (env : StartEnv) (d : Display) (h row col c : Nat)
    (win : window) (hs : SurfaceOk d.vis) (hw : d.srv.mem h = some win) :
    ((stui_server env).ret = 0 → env.rows * env.cols < 4294967296 →
      SurfaceOk (stui_server env).vis) ∧
    ∃ d', stui_cb_putchar d h row col c = .ok d' ∧ SurfaceOk d'.vis ∧
      ((row < win.height ∧ col < win.width ∧ (win.row + row) % 4294967296 < d.vis.height
          ∧ (win.col + col) % 4294967296 < d.vis.width) →
        cell_index d.vis win row col < d.vis.width * d.vis.height ∧
        cell_index d.vis win row col < d.vis.vbuf.length ∧
        d' = ⟨d.srv, ⟨d.vis.vbuf.set (cell_index d.vis win row col) c,
          d.vis.width, d.vis.height⟩⟩) ∧
      (¬ (row < win.height ∧ col < win.width ∧ (win.row + row) % 4294967296 < d.vis.height
          ∧ (win.col + col) % 4294967296 < d.vis.width) → d' = d) := by
  constructor
  · intro hret hfit
    have hall : env.open_status ≠ -1 ∧ env.mutex_status = 0 ∧ env.vbuf_ok = true ∧
        env.init_status = 0 ∧ env.start_status = 0 := by
      by_contra hne
      revert hret
      unfold stui_server
      by_cases h1 : env.open_status = -1
      · simp [h1]
      · by_cases h2 : env.mutex_status = 0
        · by_cases h3 : env.vbuf_ok = true
          · by_cases h4 : env.init_status = 0
            · by_cases h5 : env.start_status = 0
              · exact absurd ⟨h1, h2, h3, h4, h5⟩ hne
              · simp [h1, h2, h3, h4, h5]
            · simp [h1, h2, h3, h4]
          · simp [h1, h2, h3]
        · simp [h1, h2]
    obtain ⟨h1, h2, h3, h4, h5⟩ := hall
    have hfit' : env.cols * env.rows < 4294967296 := by rw [Nat.mul_comm]; exact hfit
    simp only [stui_server, h1, h2, h3, h4, h5, if_false, if_true, ne_eq, not_true_eq_false,
      Bool.true_eq_false, SurfaceOk, List.length_replicate, u32, Nat.mod_eq_of_lt hfit']
    exact ⟨trivial, hfit'⟩
  · have e := stui_cb_putchar_eq (d := d) (p := ⟨h, row, col, c⟩) hs ⟨win, hw⟩
    refine ⟨_, e, putL_surfaceOk _ hs, ?_, ?_⟩
    · intro hc
      have hc' : row < win.height ∧ col < win.width ∧ u32 (win.row + row) < d.vis.height
          ∧ u32 (win.col + col) < d.vis.width := hc
      have hlt := @cell_index_lt d.vis win row col hs hc.2.2.1 hc.2.2.2
      refine ⟨by rw [← hs.1]; exact hlt, hlt, ?_⟩
      simp only [putL, writeIndex, hw]
      rw [if_pos hc']
    · intro hc
      have hc' : ¬ (row < win.height ∧ col < win.width ∧ u32 (win.row + row) < d.vis.height
          ∧ u32 (win.col + col) < d.vis.width) := hc
      simp only [putL, writeIndex, hw]
      rw [if_neg hc']

/-- Instance of `putchar_index_in_buffer`: a window at row `2^32 - 1` with
`row = 1`, so that the sum wraps to row 0 of a surface of `4 x 2` cells. -/
theorem putchar_index_in_buffer_witness :
    SurfaceOk ⟨[32, 32, 32, 32, 32, 32, 32, 32], 4, 2⟩ ∧
    ((stui_server ⟨0, 0, 24, 80, true, 0, 0⟩).ret = 0 → 24 * 80 < 4294967296 →
      SurfaceOk (stui_server ⟨0, 0, 24, 80, true, 0, 0⟩).vis) ∧
    ∃ d', stui_cb_putchar ⟨mkServer [(1, rect 4294967295 0 4 2 true true)],
        ⟨[32, 32, 32, 32, 32, 32, 32, 32], 4, 2⟩⟩ 1 1 0 88 = .ok d' ∧ SurfaceOk d'.vis ∧
      ((1 < (rect 4294967295 0 4 2 true true).height ∧ 0 < (rect 4294967295 0 4 2 true true).width
          ∧ ((rect 4294967295 0 4 2 true true).row + 1) % 4294967296 < 2
          ∧ ((rect 4294967295 0 4 2 true true).col + 0) % 4294967296 < 4) →
        cell_index ⟨[32, 32, 32, 32, 32, 32, 32, 32], 4, 2⟩
          (rect 4294967295 0 4 2 true true) 1 0 < 4 * 2 ∧
        cell_index ⟨[32, 32, 32, 32, 32, 32, 32, 32], 4, 2⟩
          (rect 4294967295 0 4 2 true true) 1 0 < [32, 32, 32, 32, 32, 32, 32, 32].length ∧
        d' = ⟨mkServer [(1, rect 4294967295 0 4 2 true true)],
          ⟨[32, 32, 32, 32, 32, 32, 32, 32].set (cell_index ⟨[32, 32, 32, 32, 32, 32, 32, 32], 4, 2⟩
            (rect 4294967295 0 4 2 true true) 1 0) 88, 4, 2⟩⟩) ∧
      (¬ (1 < (rect 4294967295 0 4 2 true true).height ∧ 0 < (rect 4294967295 0 4 2 true true).width
          ∧ ((rect 4294967295 0 4 2 true true).row + 1) % 4294967296 < 2
          ∧ ((rect 4294967295 0 4 2 true true).col + 0) % 4294967296 < 4) →
        d' = ⟨mkServer [(1, rect 4294967295 0 4 2 true true)],
          ⟨[32, 32, 32, 32, 32, 32, 32, 32], 4, 2⟩⟩) :=
  ⟨⟨rfl, by decide⟩,
    putchar_index_in_buffer ⟨0, 0, 24, 80, true, 0, 0⟩
      ⟨mkServer [(1, rect 4294967295 0 4 2 true true)],
        ⟨[32, 32, 32, 32, 32, 32, 32, 32], 4, 2⟩⟩ 1 1 0 88
      (rect 4294967295 0 4 2 true true) ⟨rfl, by decide⟩ rfl⟩

/-! ## Claim on the recursion of the upward scan -/

theorem cleanCount_congr {m m' : Heap} {l : List Nat} (h : ∀ a ∈ l, m' a = m a) :
    cleanCount m' l = cleanCount m l := by
  unfold cleanCount
  congr 1
  apply List.filter_congr
  intro a ha
  simp only [isClean, h a ha]

theorem cleanCount_cons (m : Heap) (a : Nat) (t : List Nat) :
    cleanCount m (a :: t) = (if isClean m a = true then 1 else 0) + cleanCount m t := by
  unfold cleanCount
  rw [List.filter_cons]
  split
  · rw [List.length_cons]; omega
  · omega

theorem cleanCount_le (m : Heap) (l : List Nat) : cleanCount m l ≤ l.length :=
  List.length_filter_le _ _

/-- On a walk without repetition that ends at `NULL` the counted scan returns
the heap of `mark_dirty_overlapping`; the number of recursive calls is the
number of dirty flags set, and the depth of the recursion is at most the
length of the walk. -/
theorem mark_dirty_overlapping_count_eq (l : List Nat) (fuel : Nat) (m : Heap)
    (start : Option Nat) (src : Nat) (hs : Seg window.up m start l none) (hn : l.Nodup)
    (hf : l.length ≤ fuel) (hsrc : ∃ ws, m src = some ws) :
    ∃ n d, mark_dirty_overlapping_count fuel m start src = .ok (mdoL l m src, n, d) ∧
      n + cleanCount (mdoL l m src) l = cleanCount m l ∧ d ≤ l.length := by
  induction l generalizing fuel m start src with
  | nil =>
    have : start = none := hs
    subst this
    refine ⟨0, 0, ?_, rfl, Nat.le_refl _⟩
    cases fuel <;> rfl
  | cons a t ih =>
    obtain ⟨hp, w, hw, hseg⟩ := hs
    subst hp
    obtain ⟨ws, hws⟩ := hsrc
    rw [List.nodup_cons] at hn
    cases fuel with
    | zero => simp at hf
    | succ f =>
      have hf' : t.length ≤ f := by simpa using hf
      have hskip : ((w.visible && !w.dirty) && overlap_test w ws) ≠ true →
          ∃ n d, mark_dirty_overlapping_count f m w.up src = .ok (mdoL t m src, n, d) ∧
            n + cleanCount (mdoL (a :: t) m src) (a :: t) = cleanCount m (a :: t) ∧
            d ≤ (a :: t).length := by
        intro hc
        obtain ⟨n, d, e, hcnt, hd⟩ := ih f m w.up src hseg hn.2 hf' ⟨ws, hws⟩
        have he : mdoL (a :: t) m src = mdoL t m src := by
          simp only [mdoL, hw, hws]
          rw [if_neg hc]
        refine ⟨n, d, e, ?_, by simp only [List.length_cons]; omega⟩
        rw [he, cleanCount_cons, cleanCount_cons]
        have hsame : isClean (mdoL t m src) a = isClean m a := by
          simp only [isClean, mdoL_support t m src a hn.1]
        rw [hsame]
        omega
      by_cases hc : (w.visible && !w.dirty) = true
      · by_cases ht : overlap_test w ws = true
        · have hd : w.dirty = false := by
            simp only [Bool.and_eq_true, Bool.not_eq_true', Bool.not_eq_eq_eq_not,
              Bool.not_true] at hc
            exact hc.2
          have hmk := marked_store hw hd
          have hseg1 := marked_seg (n := window.up) (fun _ _ => rfl) hmk hseg
          have ha1 : store m a (setDirty w) a = some (setDirty w) := store_same _ _ _
          obtain ⟨n1, d1, e1, hc1, hd1⟩ := ih f _ _ a hseg1 hn.2 hf' ⟨_, ha1⟩
          have hmk2 := mdoL_marked t (store m a (setDirty w)) a
          obtain ⟨w2, hw2, he2, hdd2⟩ := marked_get hmk2 ha1
          have hup : w2.up = w.up := by rw [he2]; rfl
          have hseg2 := marked_seg (n := window.up) (fun _ _ => rfl) hmk2 hseg1
          obtain ⟨n2, d2, e2, hc2, hd2⟩ := ih f _ _ src hseg2 hn.2 hf'
            (marked_live (marked_trans hmk hmk2) ⟨ws, hws⟩)
          have he : mdoL (a :: t) m src
              = mdoL t (mdoL t (store m a (setDirty w)) a) src := by
            simp only [mdoL, hw, hws, hc, ht, Bool.and_self, if_true]
          have e1' : mark_dirty_overlapping_count f (store m a { w with dirty := true }) w.up a
              = .ok (mdoL t (store m a (setDirty w)) a, n1, d1) := e1
          refine ⟨n1 + 1 + n2, max (d1 + 1) d2, ?_, ?_, ?_⟩
          · simp only [mark_dirty_overlapping_count, hw, hws, hc, ht, if_true, e1', hw2, hup, e2,
              he]
          · rw [he, cleanCount_cons, cleanCount_cons]
            have hcl : isClean m a = true := by simp [isClean, hw, hd]
            have hm3 := mdoL_marked t (mdoL t (store m a (setDirty w)) a) src
            obtain ⟨w3, hw3, _, hdd3⟩ := marked_get hm3 hw2
            have hnc : isClean (mdoL t (mdoL t (store m a (setDirty w)) a) src) a = false := by
              simp [isClean, hw3, hdd3 (hdd2 rfl)]
            have hcm : cleanCount (store m a (setDirty w)) t = cleanCount m t :=
              cleanCount_congr (fun b hb => store_other _ _ (fun (e : b = a) => hn.1 (e ▸ hb)))
            rw [hcl, hnc]
            simp only [if_true, Bool.false_eq_true, if_false]
            omega
          · simp only [List.length_cons]
            omega
        · obtain ⟨n, d, e, h1, h2⟩ := hskip (by simp [hc, ht])
          refine ⟨n, d, ?_, h1, h2⟩
          have he : mdoL (a :: t) m src = mdoL t m src := by
            simp only [mdoL, hw, hws]
            rw [if_neg (by simp [hc, ht])]
          simp only [mark_dirty_overlapping_count, hw, hws, hc, ht, if_true, if_false,
            Bool.false_eq_true, e, he]
      · obtain ⟨n, d, e, h1, h2⟩ := hskip (by simp [hc])
        refine ⟨n, d, ?_, h1, h2⟩
        have he : mdoL (a :: t) m src = mdoL t m src := by
          simp only [mdoL, hw, hws]
          rw [if_neg (by simp [hc])]
        simp only [mark_dirty_overlapping_count, hw, hws, hc, if_false, Bool.false_eq_true, e, he]

/-- C28: on a well-formed registry, for a start pointer from which the windows
`post` are reached going up, the scan `mark_dirty_overlapping( start, src )`
returns once the step bound is at least the number of these windows. Counting
its recursive calls gives the same heap; the number of recursive calls is the
number of windows whose dirty flag the scan sets (one call right after each
flag is set), so it is at most the number of windows at or above `start` and
at most the number of windows; the depth of the recursion is at most the
number of windows at or above `start`. -/
theorem rule_B_terminates (s : Server) (pre post : List Nat) (start : Option Nat)
    (src fuel : Nat) (hwf : WF s (pre ++ post)) (hseg : Seg window.up s.mem start post none)
    (hsrc : ∃ ws, s.mem src = some ws) (hf : post.length ≤ fuel) :
    ∃ m' calls depth, mark_dirty_overlapping_count fuel s.mem start src = .ok (m', calls, depth) ∧
      mark_dirty_overlapping fuel s.mem start src = .ok m' ∧
      calls + cleanCount m' post = cleanCount s.mem post ∧
      calls ≤ post.length ∧ calls ≤ (pre ++ post).length ∧ depth ≤ post.length := by
  have hn : post.Nodup := (List.nodup_append.1 hwf.nodup).2.1
  obtain ⟨n, d, e, hc, hd⟩ := mark_dirty_overlapping_count_eq post fuel s.mem start src hseg hn
    hf hsrc
  have hle := cleanCount_le s.mem post
  refine ⟨_, n, d, e, mark_dirty_overlapping_eq post fuel s.mem start src hseg hf hsrc, hc,
    by omega, ?_, hd⟩
  simp only [List.length_append]
  omega

/-- Instance of `rule_B_terminates`: three stacked visible clean windows, each
overlapping the next; the scan of `stui_repaint` on the bottom one makes three
recursive calls, nested three deep. -/
theorem rule_B_terminates_witness :
    WF (mkServer [(1, rect 0 0 10 5 true false), (2, rect 2 2 10 5 true false),
      (3, rect 4 4 10 5 true false)]) ([] ++ [1, 2, 3]) ∧
    ∃ m' calls depth, mark_dirty_overlapping_count 3 (mkServer [(1, rect 0 0 10 5 true false),
        (2, rect 2 2 10 5 true false), (3, rect 4 4 10 5 true false)]).mem (some 1) 1
        = .ok (m', calls, depth) ∧
      mark_dirty_overlapping 3 (mkServer [(1, rect 0 0 10 5 true false),
        (2, rect 2 2 10 5 true false), (3, rect 4 4 10 5 true false)]).mem (some 1) 1 = .ok m' ∧
      calls + cleanCount m' [1, 2, 3] = cleanCount (mkServer [(1, rect 0 0 10 5 true false),
        (2, rect 2 2 10 5 true false), (3, rect 4 4 10 5 true false)]).mem [1, 2, 3] ∧
      calls ≤ [1, 2, 3].length ∧ calls ≤ ([] ++ [1, 2, 3]).length ∧ depth ≤ [1, 2, 3].length :=
  ⟨wf_mkServer _ (by decide),
    rule_B_terminates (mkServer [(1, rect 0 0 10 5 true false),
      (2, rect 2 2 10 5 true false), (3, rect 4 4 10 5 true false)]) [] [1, 2, 3] (some 1) 1 3
      (wf_mkServer _ (by decide))
      ⟨rfl, _, rfl, rfl, _, rfl, rfl, _, rfl, rfl⟩ ⟨_, rfl⟩ (by decide)⟩

/-! ## No API call clears a dirty flag -/

theorem keeps_refl (m : Heap) : Keeps m m := fun _ w hw => ⟨w, hw, id⟩

theorem keeps_trans {m1 m2 m3 : Heap} (h12 : Keeps m1 m2) (h23 : Keeps m2 m3) : Keeps m1 m3 := by
  intro a w hw
  obtain ⟨w2, hw2, hd2⟩ := h12 a w hw
  obtain ⟨w3, hw3, hd3⟩ := h23 a w2 hw2
  exact ⟨w3, hw3, fun hd => hd3 (hd2 hd)⟩

theorem keeps_store {m : Heap} {a : Nat} {w w' : window} (hw : m a = some w)
    (hd : w.dirty = true → w'.dirty = true) : Keeps m (store m a w') := by
  intro b v hv
  by_cases hb : b = a
  · subst hb
    rw [hw] at hv
    cases hv
    exact ⟨w', store_same _ _ _, hd⟩
  · exact ⟨v, by rw [store_other _ _ hb]; exact hv, id⟩

theorem keeps_store_fresh {m : Heap} {a : Nat} (w' : window) (hw : m a = none) :
    Keeps m (store m a w') := by
  intro b v hv
  have hb : b ≠ a := fun e => by rw [e, hw] at hv; cases hv
  exact ⟨v, by rw [store_other _ _ hb]; exact hv, id⟩

theorem load_ok {m : Heap} {p : Option Nat} {w : window} (h : load m p = .ok w) :
    ∃ a, p = some a ∧ m a = some w := by
  cases p with
  | none => cases h
  | some a =>
    refine ⟨a, rfl, ?_⟩
    simp only [load] at h
    cases hm : m a with
    | none => rw [hm] at h; cases h
    | some v => rw [hm] at h; cases h; rfl

theorem modify_ok {m m' : Heap} {p : Option Nat} {f : window → window}
    (h : modify m p f = .ok m') : ∃ a w, p = some a ∧ m a = some w ∧ m' = store m a (f w) := by
  cases p with
  | none => cases h
  | some a =>
    simp only [modify, load] at h
    cases hm : m a with
    | none => rw [hm] at h; cases h
    | some v =>
      rw [hm] at h
      cases h
      exact ⟨a, v, rfl, hm, rfl⟩

theorem keeps_modify {m m' : Heap} {p : Option Nat} {f : window → window}
    (h : modify m p f = .ok m') (hf : ∀ w, w.dirty = true → (f w).dirty = true) : Keeps m m' := by
  obtain ⟨a, w, _, hw, rfl⟩ := modify_ok h
  exact keeps_store hw (hf w)

theorem bind_ok {α β : Type} {x : Except Fault α} {f : α → Except Fault β} {b : β}
    (h : (x >>= f) = .ok b) : ∃ a, x = .ok a ∧ f a = .ok b := by
  cases x with
  | error e => cases h
  | ok a => exact ⟨a, rfl, h⟩

theorem mark_dirty_underlapping_keeps (fuel : Nat) (m : Heap) (p : Option Nat) (src : Nat)
    {m' : Heap} (h : mark_dirty_underlapping fuel m p src = .ok m') : Keeps m m' := by
  induction fuel generalizing m p with
  | zero =>
    cases p with
    | none => cases h; exact keeps_refl _
    | some a => cases h
  | succ f ih =>
    cases p with
    | none => cases h; exact keeps_refl _
    | some a =>
      simp only [mark_dirty_underlapping] at h
      cases hm : m a with
      | none => rw [hm] at h; cases h
      | some w =>
        rw [hm] at h
        dsimp only at h
        split at h
        · cases hs : m src with
          | none => rw [hs] at h; cases h
          | some ws =>
            rw [hs] at h
            dsimp only at h
            split at h
            · exact keeps_trans (keeps_store hm (fun _ => rfl)) (ih _ _ h)
            · exact ih _ _ h
        · exact ih _ _ h

theorem mark_dirty_overlapping_keeps (fuel : Nat) (m : Heap) (p : Option Nat) (src : Nat)
    {m' : Heap} (h : mark_dirty_overlapping fuel m p src = .ok m') : Keeps m m' := by
  induction fuel generalizing m p src m' with
  | zero =>
    cases p with
    | none => cases h; exact keeps_refl _
    | some a => cases h
  | succ f ih =>
    cases p with
    | none => cases h; exact keeps_refl _
    | some a =>
      simp only [mark_dirty_overlapping] at h
      cases hm : m a with
      | none => rw [hm] at h; cases h
      | some w =>
        rw [hm] at h
        dsimp only at h
        split at h
        · cases hs : m src with
          | none => rw [hs] at h; cases h
          | some ws =>
            rw [hs] at h
            dsimp only at h
            split at h
            · cases h1 : mark_dirty_overlapping f (store m a { w with dirty := true }) w.up a with
              | error e => rw [h1] at h; cases h
              | ok m2 =>
                rw [h1] at h
                dsimp only at h
                cases h2 : m2 a with
                | none => rw [h2] at h; cases h
                | some w2 =>
                  rw [h2] at h
                  dsimp only at h
                  exact keeps_trans (keeps_store hm (fun _ => rfl))
                    (keeps_trans (ih _ _ _ h1) (ih _ _ _ h))
            · exact ih _ _ _ h
        · exact ih _ _ _ h

theorem mark_from_root_keeps {fuel : Nat} {m m' : Heap} {root : Option Nat}
    (h : mark_from_root fuel m root = .ok m') : Keeps m m' := by
  unfold mark_from_root at h
  cases root with
  | none => cases h
  | some r =>
    dsimp only at h
    cases hr : m r with
    | none => rw [hr] at h; cases h
    | some rw_ =>
      rw [hr] at h
      exact mark_dirty_overlapping_keeps _ _ _ _ h

theorem vacate_keeps {fuel : Nat} {s : Server} {win : Nat} {m' : Heap}
    (h : vacate fuel s win = .ok m') : Keeps s.mem m' := by
  unfold vacate at h
  obtain ⟨w, _, h⟩ := bind_ok h
  obtain ⟨m1, h2, h⟩ := bind_ok h
  exact keeps_trans (mark_dirty_underlapping_keeps _ _ _ _ h2) (mark_from_root_keeps h)

theorem redim_window_keeps {fuel : Nat} {s s' : Server} {win row col width height : Nat}
    (h : redim_window fuel s win row col width height = .ok s') : Keeps s.mem s'.mem := by
  unfold redim_window at h
  obtain ⟨w, _, h⟩ := bind_ok h
  have key : ∀ m1, Keeps s.mem m1 →
      (do
        let m2 ← modify m1 (some win)
          (fun x => { x with row := row, col := col, width := width, height := height })
        let w2 ← load m2 (some win)
        let m3 ← if w2.visible then mark_dirty_overlapping fuel m2 w2.up win else pure m2
        pure { s with mem := m3 }) = Except.ok s' → Keeps s.mem s'.mem := by
    intro m1 hk h
    obtain ⟨m2, h2, h⟩ := bind_ok h
    obtain ⟨w2, _, h⟩ := bind_ok h
    have hk2 := keeps_trans hk (keeps_modify h2 (fun _ hd => hd))
    by_cases hv2 : w2.visible = true
    · rw [if_pos hv2] at h
      obtain ⟨m3, h3, h⟩ := bind_ok h
      cases h
      exact keeps_trans hk2 (mark_dirty_overlapping_keeps _ _ _ _ h3)
    · rw [if_neg hv2] at h
      cases h
      exact hk2
  by_cases hv : w.visible = true
  · rw [if_pos hv] at h
    obtain ⟨m1, h1, h⟩ := bind_ok h
    exact key m1 (vacate_keeps h1) h
  · rw [if_neg hv] at h
    exact key s.mem (keeps_refl _) h

theorem stui_create_window_keeps {s s' : Server} {fresh r : Option Nat} {cb : Nat}
    (hfresh : ∀ a, fresh = some a → s.mem a = none)
    (h : stui_create_window s fresh cb = .ok (s', r)) : Keeps s.mem s'.mem := by
  cases fresh with
  | none =>
    cases h
    exact keeps_refl _
  | some a =>
    have hk0 : Keeps s.mem (store s.mem a zeroed) := keeps_store_fresh _ (hfresh a rfl)
    cases hr : s.root with
    | none =>
      simp only [stui_create_window, hr] at h
      obtain ⟨m1, h1, h⟩ := bind_ok h
      cases h
      exact keeps_trans hk0 (keeps_modify h1 (fun _ hd => hd))
    | some r0 =>
      simp only [stui_create_window, hr] at h
      obtain ⟨m1, h1, h⟩ := bind_ok h
      obtain ⟨m2, h2, h⟩ := bind_ok h
      obtain ⟨w3, _, h⟩ := bind_ok h
      obtain ⟨m3, h3, h⟩ := bind_ok h
      cases h
      exact keeps_trans hk0 (keeps_trans (keeps_modify h1 (fun _ hd => hd))
        (keeps_trans (keeps_modify h2 (fun _ hd => hd)) (keeps_modify h3 (fun _ hd => hd))))

theorem unlink_below_keeps {s s' : Server} {h : Nat} (e : unlink_below s h = .ok s') :
    Keeps s.mem s'.mem := by
  unfold unlink_below at e
  obtain ⟨win, _, e⟩ := bind_ok e
  cases hd : win.down with
  | none =>
    simp only [hd] at e
    cases e
    exact keeps_refl _
  | some d =>
    simp only [hd] at e
    obtain ⟨m1, h1, e⟩ := bind_ok e
    cases e
    exact keeps_modify h1 (fun _ hd => hd)

theorem unlink_above_keeps {s s' : Server} {h : Nat} (e : unlink_above s h = .ok s') :
    Keeps s.mem s'.mem := by
  unfold unlink_above at e
  obtain ⟨win, _, e⟩ := bind_ok e
  cases hu : win.up with
  | none =>
    simp only [hu] at e
    cases e
    exact keeps_refl _
  | some u =>
    simp only [hu] at e
    obtain ⟨m1, h1, e⟩ := bind_ok e
    cases e
    exact keeps_modify h1 (fun _ hd => hd)

theorem unlink_keeps {s s' : Server} {h : Nat} (e : unlink s h = .ok s') :
    Keeps s.mem s'.mem := by
  unfold unlink at e
  obtain ⟨s1, h1, e⟩ := bind_ok e
  exact keeps_trans (unlink_below_keeps h1) (unlink_above_keeps e)

theorem stui_show_window_keeps {fuel : Nat} {s s' : Server} {h : Nat}
    (e : stui_show_window fuel s h = .ok s') : Keeps s.mem s'.mem := by
  unfold stui_show_window at e
  obtain ⟨m1, h1, e⟩ := bind_ok e
  obtain ⟨m2, h2, e⟩ := bind_ok e
  cases e
  exact keeps_trans (keeps_modify h1 (fun _ hd => hd)) (mark_dirty_overlapping_keeps _ _ _ _ h2)

theorem stui_hide_window_keeps {fuel : Nat} {s s' : Server} {h : Nat}
    (e : stui_hide_window fuel s h = .ok s') : Keeps s.mem s'.mem := by
  unfold stui_hide_window at e
  obtain ⟨win, _, e⟩ := bind_ok e
  by_cases hv : win.visible = true
  · rw [if_pos hv] at e
    obtain ⟨m1, h1, e⟩ := bind_ok e
    obtain ⟨m2, h2, e⟩ := bind_ok e
    cases e
    exact keeps_trans (keeps_modify h1 (fun _ hd => hd)) (vacate_keeps h2)
  · rw [if_neg hv] at e
    cases e
    exact keeps_refl _

theorem stui_move_window_keeps {fuel : Nat} {s s' : Server} {h row col : Nat}
    (e : stui_move_window fuel s h row col = .ok s') : Keeps s.mem s'.mem := by
  unfold stui_move_window at e
  obtain ⟨win, _, e⟩ := bind_ok e
  exact redim_window_keeps e

theorem stui_resize_window_keeps {fuel rows cols : Nat} {s s' : Server} {h width height : Nat}
    (e : stui_resize_window fuel rows cols s h width height = .ok s') : Keeps s.mem s'.mem := by
  unfold stui_resize_window at e
  obtain ⟨win, _, e⟩ := bind_ok e
  exact redim_window_keeps e

theorem stui_repaint_keeps {fuel : Nat} {s s' : Server} {h : Nat}
    (e : stui_repaint fuel s h = .ok s') : Keeps s.mem s'.mem := by
  unfold stui_repaint at e
  obtain ⟨m1, h1, e⟩ := bind_ok e
  cases e
  exact mark_dirty_overlapping_keeps _ _ _ _ h1

theorem stui_set_userdata_keeps {s s' : Server} {h ud : Nat}
    (e : stui_set_userdata s h ud = .ok s') : Keeps s.mem s'.mem := by
  unfold stui_set_userdata at e
  obtain ⟨m1, h1, e⟩ := bind_ok e
  cases e
  exact keeps_modify h1 (fun _ hd => hd)

theorem raise_walk_keeps (fuel : Nat) (m : Heap) (h : Nat) {m' : Heap}
    (e : raise_walk fuel m h = .ok m') : Keeps m m' := by
  induction fuel generalizing m with
  | zero =>
    unfold raise_walk at e
    split at e
    · cases e
    · split at e
      · cases e
      · split at e
        · cases e; exact keeps_refl _
        · cases e
  | succ f ih =>
    unfold raise_walk at e
    split at e
    · cases e
    · split at e
      · cases e
      · split at e
        · cases e; exact keeps_refl _
        · dsimp only at e
          split at e
          · cases e
          · rename_i m1 h1
            exact keeps_trans (keeps_modify h1 (fun _ hd => hd)) (ih _ e)

theorem put_on_top_keeps {fuel : Nat} {s s' : Server} {h : Nat}
    (e : put_on_top fuel s h = .ok s') : Keeps s.mem s'.mem := by
  unfold put_on_top at e
  obtain ⟨m1, h1, e⟩ := bind_ok e
  obtain ⟨m2, h2, e⟩ := bind_ok e
  obtain ⟨m3, h3, e⟩ := bind_ok e
  obtain ⟨win, _, e⟩ := bind_ok e
  obtain ⟨m4, h4, e⟩ := bind_ok e
  cases e
  exact keeps_trans (keeps_modify h1 (fun _ hd => hd))
    (keeps_trans (keeps_modify h2 (fun _ hd => hd))
      (keeps_trans (raise_walk_keeps _ _ _ h3) (keeps_modify h4 (fun _ hd => hd))))

theorem stui_raise_window_keeps {fuel : Nat} {s s' : Server} {h : Nat}
    (e : stui_raise_window fuel s h = .ok s') : Keeps s.mem s'.mem := by
  unfold stui_raise_window at e
  obtain ⟨win, _, e⟩ := bind_ok e
  by_cases hv : win.visible = true
  · rw [if_pos hv] at e
    obtain ⟨m1, h1, e⟩ := bind_ok e
    obtain ⟨s2, h2, e⟩ := bind_ok e
    exact keeps_trans (vacate_keeps h1) (keeps_trans (unlink_keeps h2) (put_on_top_keeps e))
  · rw [if_neg hv] at e
    obtain ⟨m1, h1, e⟩ := bind_ok e
    cases h1
    obtain ⟨s2, h2, e⟩ := bind_ok e
    exact keeps_trans (unlink_keeps h2) (put_on_top_keeps e)

/-- After `stui_destroy_window` every other window is still allocated, and
dirty if it was dirty; the destroyed window is gone. -/
theorem stui_destroy_window_keeps {fuel : Nat} {s s' : Server} {h : Nat}
    (e : stui_destroy_window fuel s h = .ok s') :
    ∃ m2, Keeps s.mem m2 ∧ s'.mem = release m2 h := by
  unfold stui_destroy_window at e
  obtain ⟨s1, h1, e⟩ := bind_ok e
  obtain ⟨win, _, e⟩ := bind_ok e
  by_cases hv : win.visible = true
  · rw [if_pos hv] at e
    obtain ⟨m2, h2, e⟩ := bind_ok e
    obtain ⟨_, _, e⟩ := bind_ok e
    cases e
    exact ⟨m2, keeps_trans (unlink_keeps h1) (vacate_keeps h2), rfl⟩
  · rw [if_neg hv] at e
    obtain ⟨m2, h2, e⟩ := bind_ok e
    cases h2
    obtain ⟨_, _, e⟩ := bind_ok e
    cases e
    exact ⟨s1.mem, unlink_keeps h1, rfl⟩

/-- C26: for every registry, step bound and API call (create, show, hide,
move, resize, raise, repaint, destroy, set-userdata) that returns, every
window that was dirty before the call and is still allocated after it is
dirty after it. For create, the address that `calloc` hands out is one that
is not in use. -/
theorem marking_never_unmarks (s s' : Server) (fuel rows cols : Nat) (call : ApiCall)
    (hfresh : ∀ a cb, call = ApiCall.create (some a) cb → s.mem a = none)
    (hrun : run_api fuel rows cols s call = .ok s') :
    ∀ a w w', s.mem a = some w → w.dirty = true → s'.mem a = some w' → w'.dirty = true := by
  have fin : Keeps s.mem s'.mem →
      ∀ a w w', s.mem a = some w → w.dirty = true → s'.mem a = some w' → w'.dirty = true := by
    intro hk a w w' hw hd hw'
    obtain ⟨w2, hw2, hd2⟩ := hk a w hw
    rw [hw'] at hw2
    cases hw2
    exact hd2 hd
  cases call with
  | create fresh cb =>
    simp only [run_api] at hrun
    cases hc : stui_create_window s fresh cb with
    | error e => rw [hc] at hrun; cases hrun
    | ok r =>
      rw [hc] at hrun
      cases hrun
      exact fin (stui_create_window_keeps (r := r.2)
        (fun a ha => hfresh a cb (by rw [ha])) hc)
  | set_userdata h ud => exact fin (stui_set_userdata_keeps hrun)
  | win h op =>
    cases op with
    | opShow => exact fin (stui_show_window_keeps hrun)
    | opHide => exact fin (stui_hide_window_keeps hrun)
    | opMove row col => exact fin (stui_move_window_keeps hrun)
    | opResize width height => exact fin (stui_resize_window_keeps hrun)
    | opRaise => exact fin (stui_raise_window_keeps hrun)
    | opRepaint => exact fin (stui_repaint_keeps hrun)
    | opDestroy =>
      obtain ⟨m2, hk, hm⟩ := stui_destroy_window_keeps hrun
      intro a w w' hw hd hw'
      obtain ⟨w2, hw2, hd2⟩ := hk a w hw
      rw [hm] at hw'
      by_cases hah : a = h
      · rw [hah, release_same] at hw'
        cases hw'
      · rw [release_other _ hah, hw2] at hw'
        cases hw'
        exact hd2 hd

/-- Instance of `marking_never_unmarks`: a window is created in a registry
that holds a dirty window and a clean one. -/
theorem marking_never_unmarks_witness :
    (∀ a cb, ApiCall.create (some 3) 7 = ApiCall.create (some a) cb →
      (mkServer [(1, rect 0 0 10 5 true true), (2, rect 2 2 10 5 true false)]).mem a = none) ∧
    ∃ s', run_api 2 24 80 (mkServer [(1, rect 0 0 10 5 true true),
        (2, rect 2 2 10 5 true false)]) (ApiCall.create (some 3) 7) = .ok s' ∧
      ∀ a w w', (mkServer [(1, rect 0 0 10 5 true true),
          (2, rect 2 2 10 5 true false)]).mem a = some w → w.dirty = true →
        s'.mem a = some w' → w'.dirty = true :=
  ⟨fun a cb h => by cases h; rfl, _, rfl,
    marking_never_unmarks (mkServer [(1, rect 0 0 10 5 true true),
      (2, rect 2 2 10 5 true false)]) _ 2 24 80 (ApiCall.create (some 3) 7)
      (fun a cb h => by cases h; rfl) rfl⟩

/-! ## Claim on the message queue -/

theorem memcpy_into_getElem? (dst : List Nat) (off : Nat) (src : List Nat) (n i : Nat)
    (hd : off + n ≤ dst.length) (hsrc : src.length = n) :
    (memcpy_into dst off src n)[i]?
      = if off ≤ i ∧ i < off + n then src[i - off]? else dst[i]? := by
  unfold memcpy_into
  have h1 : (dst.take off).length = off := by rw [List.length_take]; omega
  have h2 : (src.take n).length = n := by rw [List.length_take]; omega
  rw [List.append_assoc, List.getElem?_append, h1]
  by_cases hi : i < off
  · rw [if_pos hi, if_neg (by omega), List.getElem?_take_of_lt hi]
  · rw [if_neg hi, List.getElem?_append, h2]
    by_cases hi2 : i - off < n
    · rw [if_pos hi2, if_pos (by omega), List.getElem?_take_of_lt hi2]
    · rw [if_neg hi2, if_neg (by omega), List.getElem?_drop]
      congr 1
      omega

theorem length_memcpy_into (dst : List Nat) (off : Nat) (src : List Nat) (n : Nat)
    (hd : off + n ≤ dst.length) (hsrc : src.length = n) :
    (memcpy_into dst off src n).length = dst.length := by
  unfold memcpy_into
  simp only [List.length_append, List.length_take, List.length_drop]
  omega

theorem slot_getElem? (n : Nat) (mem : List Nat) (k i : Nat) :
    (slot n mem k)[i]? = if i < n then mem[k * n + i]? else none := by
  unfold slot
  rw [List.getElem?_take, List.getElem?_drop]

theorem slot_memcpy_same (n : Nat) (mem msg : List Nat) (k : Nat)
    (hd : k * n + n ≤ mem.length) (hmsg : msg.length = n) :
    slot n (memcpy_into mem (k * n) msg n) k = msg := by
  apply List.ext_getElem?
  intro i
  rw [slot_getElem?, memcpy_into_getElem? _ _ _ _ _ hd hmsg]
  by_cases hi : i < n
  · rw [if_pos hi, if_pos (by omega)]
    congr 1
    omega
  · rw [if_neg hi, List.getElem?_eq_none (by omega)]

theorem slot_memcpy_other (n : Nat) (mem msg : List Nat) (k j : Nat)
    (hd : k * n + n ≤ mem.length) (hmsg : msg.length = n) (hjk : j ≠ k) :
    slot n (memcpy_into mem (k * n) msg n) j = slot n mem j := by
  apply List.ext_getElem?
  intro i
  rw [slot_getElem?, slot_getElem?, memcpy_into_getElem? _ _ _ _ _ hd hmsg]
  by_cases hi : i < n
  · rw [if_pos hi, if_pos hi]
    rw [if_neg]
    rintro ⟨h1, h2⟩
    rcases Nat.lt_or_gt_of_ne hjk with hlt | hgt
    · have := Nat.mul_le_mul_right n (Nat.succ_le_of_lt hlt)
      rw [Nat.succ_mul] at this
      omega
    · have := Nat.mul_le_mul_right n (Nat.succ_le_of_lt hgt)
      rw [Nat.succ_mul] at this
      omega
  · rw [if_neg hi, if_neg hi]

theorem bump_wrap_eq {i len : Nat} (hi : i < len) (hl : len < 4294967296) :
    bump_wrap i len = (i + 1) % len := by
  unfold bump_wrap u32
  rw [Nat.mod_eq_of_lt (by omega : i + 1 < 4294967296)]
  by_cases h : i + 1 ≥ len
  · rw [if_pos h]
    have : i + 1 = len := by omega
    rw [this, Nat.mod_self]
  · rw [if_neg h, Nat.mod_eq_of_lt (by omega)]

theorem mod_succ_mod (a L : Nat) : (a % L + 1) % L = (a + 1) % L := by
  rw [Nat.add_mod (a % L) 1 L, Nat.mod_mod, ← Nat.add_mod]

theorem mod_add_mod_left (a b L : Nat) : (a % L + b) % L = (a + b) % L := by
  rw [Nat.add_mod (a % L) b L, Nat.mod_mod, ← Nat.add_mod]

theorem mod_add_ne {t i n L : Nat} (hi : i < n) (hn : n < L) :
    (t + i) % L ≠ (t + n) % L := by
  intro h
  have h1 : i ≡ n [MOD L] := Nat.ModEq.add_left_cancel' t h
  have h2 : i % L = n % L := h1
  rw [Nat.mod_eq_of_lt (by omega), Nat.mod_eq_of_lt hn] at h2
  omega

theorem qinv_init {L S : Nat} (hL : 1 ≤ L) (hS : 1 ≤ S) :
    ∃ q0, osal_queue_init L S true 0 = (0, some q0) ∧ QInv L S q0 [] := by
  refine ⟨⟨S, L, List.replicate (L * S) 0, 0, 0, L, 0⟩, ?_, rfl, rfl, List.length_replicate _ _,
    Nat.lt_of_lt_of_le Nat.zero_lt_one hL, Nat.lt_of_lt_of_le Nat.zero_lt_one hL, rfl, rfl,
    ?_, ?_⟩
  · unfold osal_queue_init
    rw [if_neg (by omega), if_neg (by simp)]
  · show 0 = (0 + 0) % L
    rw [Nat.zero_mod]
  · intro i hi
    cases hi

/-- A send that finds room and obtains the mutex stores the message behind the
pending ones and returns 0. -/
theorem osal_queue_send_to_ok {L S : Nat} {q : osal_queue_t} {pend : List (List Nat)}
    (hL : L < 4294967296) (hinv : QInv L S q pend) (msg : List Nat) (hmsg : msg.length = S)
    (hroom : pend.length < L) :
    ∃ q1, osal_queue_send_to q msg 0 = .ok (0, q1) ∧ QInv L S q1 (pend ++ [msg]) := by
  obtain ⟨h1, h2, h3, h4, h5, h6, h7, h8, h9⟩ := hinv
  have hput : 0 < q.sem_put := by omega
  have hoff : q.head * S + S ≤ q.qmem.length := by
    have := Nat.mul_le_mul_right S (Nat.succ_le_of_lt h4)
    rw [Nat.succ_mul] at this
    omega
  refine ⟨⟨q.msg_size, q.len, memcpy_into q.qmem (q.head * q.msg_size) msg q.msg_size,
    bump_wrap q.head q.len, q.tail, q.sem_put - 1, q.sem_get + 1⟩, ?_, ?_⟩
  · simp only [osal_queue_send_to, osal_sem_obtain, hput, if_true, h2]
    rw [if_neg (by omega)]
  · refine ⟨h1, h2, ?_, ?_, h5, ?_, ?_, ?_, ?_⟩
    · show (memcpy_into q.qmem (q.head * q.msg_size) msg q.msg_size).length = L * S
      rw [h2, length_memcpy_into _ _ _ _ hoff hmsg, h3]
    · show bump_wrap q.head q.len < L
      rw [h1, bump_wrap_eq h4 hL]
      exact Nat.mod_lt _ (by omega)
    · show q.sem_get + 1 = (pend ++ [msg]).length
      rw [List.length_append, List.length_singleton, h6]
    · show q.sem_put - 1 + (pend ++ [msg]).length = L
      rw [List.length_append, List.length_singleton]
      omega
    · show bump_wrap q.head q.len = (q.tail + (pend ++ [msg]).length) % L
      rw [h1, bump_wrap_eq h4 hL, h8, mod_succ_mod, List.length_append, List.length_singleton,
        Nat.add_assoc]
    · intro i hi
      show (pend ++ [msg])[i]?
        = some (slot S (memcpy_into q.qmem (q.head * q.msg_size) msg q.msg_size)
          ((q.tail + i) % L))
      rw [List.length_append, List.length_singleton] at hi
      rw [h2]
      by_cases hip : i < pend.length
      · rw [List.getElem?_append_left hip, h9 i hip,
          slot_memcpy_other S _ _ _ _ hoff hmsg (by rw [h8]; exact mod_add_ne hip hroom)]
      · have hie : i = pend.length := by omega
        rw [hie, List.getElem?_append_right (Nat.le_refl _), Nat.sub_self, ← h8,
          slot_memcpy_same S _ _ _ hoff hmsg]
        rfl

/-- A send that finds the queue full returns `ETIMEDOUT` and leaves the queue
as it was, whatever the mutex would do. -/
theorem osal_queue_send_to_full {L S : Nat} {q : osal_queue_t} {pend : List (List Nat)}
    (hinv : QInv L S q pend) (msg : List Nat) (mtx : Nat) (hfull : ¬ pend.length < L) :
    osal_queue_send_to q msg mtx = .ok (ETIMEDOUT, q) := by
  obtain ⟨h1, h2, h3, h4, h5, h6, h7, h8, h9⟩ := hinv
  have hput : ¬ 0 < q.sem_put := by omega
  simp only [osal_queue_send_to, osal_sem_obtain, hput, if_false]
  rw [if_neg (by decide)]

/-- A send that finds room but does not obtain the mutex returns the status
of the mutex and leaves the queue as it was. -/
theorem osal_queue_send_to_busy {L S : Nat} {q : osal_queue_t} {pend : List (List Nat)}
    (hinv : QInv L S q pend) (msg : List Nat) (mtx : Nat) (hroom : pend.length < L)
    (hm : mtx ≠ 0) :
    osal_queue_send_to q msg mtx = .ok (mtx, q) := by
  obtain ⟨h1, h2, h3, h4, h5, h6, h7, h8, h9⟩ := hinv
  have hput : 0 < q.sem_put := by omega
  simp only [osal_queue_send_to, osal_sem_obtain, hput, if_true]
  rw [if_neg hm]
  have : q.sem_put - 1 + 1 = q.sem_put := by omega
  rw [this]

/-- A receive that finds a message and obtains the mutex stores the oldest
pending message and returns 0. -/
theorem osal_queue_recv_from_ok {L S : Nat} {q : osal_queue_t} {msg : List Nat}
    {rest : List (List Nat)} (hL : L < 4294967296) (hinv : QInv L S q (msg :: rest)) :
    ∃ q1, osal_queue_recv_from q 0 = .ok (0, q1, some msg) ∧ QInv L S q1 rest := by
  obtain ⟨h1, h2, h3, h4, h5, h6, h7, h8, h9⟩ := hinv
  rw [List.length_cons] at h6 h7 h8
  have hget : 0 < q.sem_get := by omega
  have hoff : q.tail * S + S ≤ q.qmem.length := by
    have := Nat.mul_le_mul_right S (Nat.succ_le_of_lt h5)
    rw [Nat.succ_mul] at this
    omega
  have h0 := h9 0 (by simp)
  rw [Nat.add_zero, Nat.mod_eq_of_lt h5] at h0
  have hmsg : msg = slot S q.qmem q.tail := by
    simpa using h0
  refine ⟨⟨q.msg_size, q.len, q.qmem, q.head, bump_wrap q.tail q.len, q.sem_put + 1,
    q.sem_get - 1⟩, ?_, ?_⟩
  · simp only [osal_queue_recv_from, osal_sem_obtain, hget, if_true, h2]
    rw [if_neg (by omega)]
    rw [hmsg]
    rfl
  · refine ⟨h1, h2, h3, h4, ?_, ?_, ?_, ?_, ?_⟩
    · show bump_wrap q.tail q.len < L
      rw [h1, bump_wrap_eq h5 hL]
      exact Nat.mod_lt _ (by omega)
    · show q.sem_get - 1 = rest.length
      omega
    · show q.sem_put + 1 + rest.length = L
      omega
    · show q.head = (bump_wrap q.tail q.len + rest.length) % L
      rw [h1, bump_wrap_eq h5 hL, mod_add_mod_left, h8]
      congr 1
      omega
    · intro i hi
      show rest[i]? = some (slot S q.qmem ((bump_wrap q.tail q.len + i) % L))
      have := h9 (i + 1) (by rw [List.length_cons]; omega)
      rw [List.getElem?_cons_succ] at this
      rw [this, h1, bump_wrap_eq h5 hL, mod_add_mod_left]
      congr 3
      omega

/-- A receive that finds the queue empty returns `ETIMEDOUT`, stores nothing
and leaves the queue as it was. -/
theorem osal_queue_recv_from_empty {L S : Nat} {q : osal_queue_t} (hinv : QInv L S q [])
    (mtx : Nat) :
    osal_queue_recv_from q mtx = .ok (ETIMEDOUT, q, none) := by
  obtain ⟨h1, h2, h3, h4, h5, h6, h7, h8, h9⟩ := hinv
  rw [List.length_nil] at h6
  have hget : ¬ 0 < q.sem_get := by omega
  simp only [osal_queue_recv_from, osal_sem_obtain, hget, if_false]
  rw [if_neg (by decide)]

/-- A receive that finds a message but does not obtain the mutex returns the
status of the mutex, stores nothing and leaves the queue as it was. -/
theorem osal_queue_recv_from_busy {L S : Nat} {q : osal_queue_t} {msg : List Nat}
    {rest : List (List Nat)} (hinv : QInv L S q (msg :: rest)) (mtx : Nat) (hm : mtx ≠ 0) :
    osal_queue_recv_from q mtx = .ok (mtx, q, none) := by
  obtain ⟨h1, h2, h3, h4, h5, h6, h7, h8, h9⟩ := hinv
  rw [List.length_cons] at h6
  have hget : 0 < q.sem_get := by omega
  simp only [osal_queue_recv_from, osal_sem_obtain, hget, if_true]
  rw [if_neg hm]
  have : q.sem_get - 1 + 1 = q.sem_get := by omega
  rw [this]

/-- Running calls on a queue that holds the messages `pend`: the run returns,
every call returns what the reference model returns, and the pending messages
followed by those sent are the messages received followed by those pending at
the end. -/
theorem run_queue_fifo {L S : Nat} (hL : L < 4294967296) (calls : List QueueCall)
    (q : osal_queue_t) (pend : List (List Nat)) (hinv : QInv L S q pend)
    (hmsg : ∀ msg mtx, QueueCall.send msg mtx ∈ calls → msg.length = S) :
    ∃ q' pend', run_queue q calls = .ok (q', fifo_model L pend calls) ∧ QInv L S q' pend' ∧
      pend ++ sent_messages calls (fifo_model L pend calls)
        = received_messages calls (fifo_model L pend calls) ++ pend' := by
  induction calls generalizing q pend with
  | nil =>
    have hnil : fifo_model L pend [] = [] := by cases pend <;> rfl
    refine ⟨q, pend, ?_, hinv, ?_⟩
    · rw [hnil]; rfl
    · rw [hnil]; simp [sent_messages, received_messages]
  | cons c cs ih =>
    have hmsg' : ∀ msg mtx, QueueCall.send msg mtx ∈ cs → msg.length = S :=
      fun msg mtx h => hmsg msg mtx (List.mem_cons_of_mem _ h)
    cases c with
    | send msg mtx =>
      have hlen := hmsg msg mtx (List.mem_cons_self _ _)
      by_cases hroom : pend.length < L
      · by_cases hm : mtx = 0
        · subst hm
          obtain ⟨q1, e1, hinv1⟩ := osal_queue_send_to_ok hL hinv msg hlen hroom
          obtain ⟨q', pend', e2, hinv2, heq⟩ := ih q1 _ hinv1 hmsg'
          refine ⟨q', pend', ?_, hinv2, ?_⟩
          · simp only [run_queue, fifo_model, e1, e2, hroom, if_true]
          · simp only [fifo_model, hroom, if_true, sent_messages, received_messages]
            rw [← heq]
            simp
        · have e1 := osal_queue_send_to_busy hinv msg mtx hroom hm
          obtain ⟨q', pend', e2, hinv2, heq⟩ := ih q _ hinv hmsg'
          refine ⟨q', pend', ?_, hinv2, ?_⟩
          · simp only [run_queue, fifo_model, e1, e2, hroom, hm, if_true, if_false]
          · simp only [fifo_model, hroom, hm, if_true, if_false, sent_messages,
              received_messages]
            exact heq
      · have e1 := osal_queue_send_to_full hinv msg mtx hroom
        obtain ⟨q', pend', e2, hinv2, heq⟩ := ih q _ hinv hmsg'
        refine ⟨q', pend', ?_, hinv2, ?_⟩
        · simp only [run_queue, fifo_model, e1, e2, hroom, if_false]
        · have hne : ¬ ETIMEDOUT = 0 := by decide
          simp only [fifo_model, hroom, if_false, sent_messages, received_messages, hne]
          exact heq
    | recv mtx =>
      cases pend with
      | nil =>
        have e1 := osal_queue_recv_from_empty hinv mtx
        obtain ⟨q', pend', e2, hinv2, heq⟩ := ih q _ hinv hmsg'
        refine ⟨q', pend', ?_, hinv2, ?_⟩
        · simp only [run_queue, fifo_model, e1, e2]
        · simp only [fifo_model, sent_messages]
          rw [heq]
          rfl
      | cons msg rest =>
        by_cases hm : mtx = 0
        · subst hm
          obtain ⟨q1, e1, hinv1⟩ := osal_queue_recv_from_ok hL hinv
          obtain ⟨q', pend', e2, hinv2, heq⟩ := ih q1 _ hinv1 hmsg'
          refine ⟨q', pend', ?_, hinv2, ?_⟩
          · simp only [run_queue, fifo_model, e1, e2, if_true]
          · simp only [fifo_model, if_true, sent_messages, received_messages]
            rw [List.cons_append, heq, List.cons_append]
        · have e1 := osal_queue_recv_from_busy hinv mtx hm
          obtain ⟨q', pend', e2, hinv2, heq⟩ := ih q _ hinv hmsg'
          refine ⟨q', pend', ?_, hinv2, ?_⟩
          · simp only [run_queue, fifo_model, e1, e2, hm, if_false]
          · simp only [fifo_model, hm, if_false, sent_messages]
            rw [heq]
            cases mtx with
            | zero => exact absurd rfl hm
            | succ k => rfl

/-- C22: a queue initialised with length `L >= 1` (an `unsigned int`) and
message size `S >= 1` is a FIFO. For every sequence of sends of messages of
`S` bytes and receives, whatever the status of the mutex in each call, the run
returns, and every call returns what a first-in first-out queue of capacity
`L` returns: a send returns 0 when fewer than `L` messages are outstanding and
the mutex is obtained, a receive returns 0 and stores the oldest outstanding
message when there is one and the mutex is obtained. The messages stored by
the receives that return 0 are, in order and byte for byte, the first messages
sent by the sends that return 0; at most `L` messages are outstanding; `head`
and `tail` are below `L` afterwards (hence after every call, each prefix being
such a sequence). In the state reached, one more send of a message of `S`
bytes that obtains the mutex returns 0 when fewer than `L` messages are
outstanding, and one more receive that obtains the mutex returns 0 and stores
the next message that was sent and not yet received. -/
theorem queue_is_fifo (L S : Nat) (calls : List QueueCall) (hL : 1 ≤ L)
    (hL32 : L < 4294967296) (hS : 1 ≤ S)
    (hmsg : ∀ msg mtx, QueueCall.send msg mtx ∈ calls → msg.length = S) :
    ∃ q0 q rs, osal_queue_init L S true 0 = (0, some q0) ∧
      run_queue q0 calls = .ok (q, rs) ∧ rs = fifo_model L [] calls ∧
      received_messages calls rs
        = (sent_messages calls rs).take (received_messages calls rs).length ∧
      (received_messages calls rs).length ≤ (sent_messages calls rs).length ∧
      (sent_messages calls rs).length ≤ (received_messages calls rs).length + L ∧
      q.head < L ∧ q.tail < L ∧ q.len = L ∧ q.msg_size = S ∧
      (∀ msg, msg.length = S →
        (sent_messages calls rs).length < (received_messages calls rs).length + L →
        ∃ q1, osal_queue_send_to q msg 0 = .ok (0, q1)) ∧
      (∀ msg, (sent_messages calls rs)[(received_messages calls rs).length]? = some msg →
        ∃ q1, osal_queue_recv_from q 0 = .ok (0, q1, some msg)) := by
  obtain ⟨q0, e0, hinv0⟩ := qinv_init hL hS
  obtain ⟨q, pend', e, hinv, heq⟩ := run_queue_fifo hL32 calls q0 [] hinv0 hmsg
  rw [List.nil_append] at heq
  have hpl : pend'.length ≤ L := by
    have := hinv.2.2.2.2.2.2.1
    omega
  refine ⟨q0, q, _, e0, e, rfl, ?_, ?_, ?_, hinv.2.2.2.1, hinv.2.2.2.2.1, hinv.1, hinv.2.1,
    ?_, ?_⟩
  · rw [heq, List.take_left]
  · rw [heq, List.length_append]; omega
  · rw [heq, List.length_append]; omega
  · intro msg hlen hroom
    rw [heq, List.length_append] at hroom
    obtain ⟨q1, e1, _⟩ := osal_queue_send_to_ok hL32 hinv msg hlen (by omega)
    exact ⟨q1, e1⟩
  · intro msg hget
    rw [heq, List.getElem?_append_right (Nat.le_refl _), Nat.sub_self] at hget
    cases pend' with
    | nil => simp at hget
    | cons m rest =>
      have hm : m = msg := by simpa using hget
      subst hm
      obtain ⟨q1, e1, _⟩ := osal_queue_recv_from_ok hL32 hinv
      exact ⟨q1, e1⟩

/-- Instance of `queue_is_fifo`: a queue of two messages of three bytes. The
third send finds the queue full and times out, the retried send wraps `head`
around, the second receive wraps `tail` around, and the last receive finds the
queue empty and times out. Every other call returns 0, and the receives store
the three messages in the order in which they were sent. -/
theorem queue_is_fifo_witness :
    (1 ≤ 2 ∧ 2 < 4294967296 ∧ 1 ≤ 3 ∧
      ∀ msg mtx, QueueCall.send msg mtx ∈ [QueueCall.send [1, 2, 3] 0,
        QueueCall.send [4, 5, 6] 0, QueueCall.send [7, 8, 9] 0, QueueCall.recv 0,
        QueueCall.send [7, 8, 9] 0, QueueCall.recv 0, QueueCall.recv 0, QueueCall.recv 0] →
        msg.length = 3) ∧
    run_queue ⟨3, 2, [0, 0, 0, 0, 0, 0], 0, 0, 2, 0⟩ [QueueCall.send [1, 2, 3] 0,
        QueueCall.send [4, 5, 6] 0, QueueCall.send [7, 8, 9] 0, QueueCall.recv 0,
        QueueCall.send [7, 8, 9] 0, QueueCall.recv 0, QueueCall.recv 0, QueueCall.recv 0]
      = .ok (⟨3, 2, [7, 8, 9, 4, 5, 6], 1, 1, 2, 0⟩,
        [(0, none), (0, none), (ETIMEDOUT, none), (0, some [1, 2, 3]), (0, none),
          (0, some [4, 5, 6]), (0, some [7, 8, 9]), (ETIMEDOUT, none)]) ∧
    ∃ q0 q rs, osal_queue_init 2 3 true 0 = (0, some q0) ∧
      run_queue q0 [QueueCall.send [1, 2, 3] 0, QueueCall.send [4, 5, 6] 0,
        QueueCall.send [7, 8, 9] 0, QueueCall.recv 0, QueueCall.send [7, 8, 9] 0,
        QueueCall.recv 0, QueueCall.recv 0, QueueCall.recv 0] = .ok (q, rs) ∧
      rs = [(0, none), (0, none), (ETIMEDOUT, none), (0, some [1, 2, 3]), (0, none),
        (0, some [4, 5, 6]), (0, some [7, 8, 9]), (ETIMEDOUT, none)] ∧
      q.head < 2 ∧ q.tail < 2 := by
  have hmsg : ∀ msg mtx, QueueCall.send msg mtx ∈ [QueueCall.send [1, 2, 3] 0,
      QueueCall.send [4, 5, 6] 0, QueueCall.send [7, 8, 9] 0, QueueCall.recv 0,
      QueueCall.send [7, 8, 9] 0, QueueCall.recv 0, QueueCall.recv 0, QueueCall.recv 0] →
      msg.length = 3 := by
    intro msg mtx h
    simp only [List.mem_cons, QueueCall.send.injEq, reduceCtorEq, false_or, List.not_mem_nil,
      or_false] at h
    rcases h with h | h | h | h <;> (rw [h.1]; rfl)
  obtain ⟨q0, q, rs, e0, e, hrs, _, _, _, hh, ht, _⟩ :=
    queue_is_fifo 2 3 _ (by decide) (by decide) (by decide) hmsg
  exact ⟨⟨by decide, by decide, by decide, hmsg⟩, rfl, q0, q, rs, e0, e, hrs, hh, ht⟩

/-! ## The upward scan computes the cascade -/

theorem overlap_test_geo {w s s' : window} (h : geo s' = geo s) :
    overlap_test w s' = overlap_test w s := by
  simp only [geo, Prod.mk.injEq] at h
  obtain ⟨h1, h2, h3, h4⟩ := h
  simp only [overlap_test, h1, h2, h3, h4]

theorem sameGeo_refl (m : Heap) : SameGeo m m := fun _ => rfl

theorem sameGeo_trans {m1 m2 m3 : Heap} (h12 : SameGeo m1 m2) (h23 : SameGeo m2 m3) :
    SameGeo m1 m3 := fun p => (h23 p).trans (h12 p)

theorem mark_same (m : Heap) (a : Nat) : mark m a a = (m a).map setDirty := by
  simp [mark]

theorem mark_other (m : Heap) {a b : Nat} (h : b ≠ a) : mark m a b = m b := by
  simp [mark, h]

theorem sameGeo_mark (m : Heap) (a : Nat) : SameGeo m (mark m a) := by
  intro p
  by_cases hp : p = a
  · subst hp
    rw [mark_same]
    cases m p <;> rfl
  · rw [mark_other _ hp]

theorem mark_comm (m : Heap) (a x : Nat) : mark (mark m x) a = mark (mark m a) x := by
  funext q
  by_cases hax : a = x
  · subst hax; rfl
  · have hxa : x ≠ a := fun e => hax e.symm
    by_cases hqa : q = a
    · subst hqa
      rw [mark_same, mark_other _ hax, mark_other _ hax, mark_same]
    · rw [mark_other _ hqa]
      by_cases hqx : q = x
      · subst hqx
        rw [mark_same, mark_same, mark_other _ hxa]
      · rw [mark_other _ hqx, mark_other _ hqx, mark_other _ hqa]

theorem store_setDirty_eq_mark {m : Heap} {a : Nat} {w : window} (hw : m a = some w) :
    store m a (setDirty w) = mark m a := by
  funext q
  by_cases hq : q = a
  · subst hq
    rw [store_same, mark_same, hw]
    rfl
  · rw [store_other _ _ hq, mark_other _ hq]

theorem cascades_congr {m m' : Heap} {prev a : Nat} (ha : m' a = m a)
    (hp : (m' prev).map geo = (m prev).map geo) : cascades m' prev a = cascades m prev a := by
  unfold cascades
  rw [ha]
  cases m a with
  | none => rfl
  | some wa =>
    cases h1 : m prev with
    | none =>
      rw [h1] at hp
      cases h2 : m' prev with
      | none => rfl
      | some wp' => rw [h2] at hp; cases hp
    | some wp =>
      rw [h1] at hp
      cases h2 : m' prev with
      | none => rw [h2] at hp; cases hp
      | some wp' =>
        rw [h2] at hp
        simp only [Option.map_some', Option.some.injEq] at hp
        simp only [overlap_test_geo hp]

theorem hits_congr {m m' : Heap} {S : List Nat} {a : Nat} (ha : m' a = m a)
    (hg : SameGeo m m') : hits m' S a = hits m S a := by
  unfold hits
  induction S with
  | nil => rfl
  | cons p S ih => simp only [List.any_cons, ih, cascades_congr ha (hg p)]

theorem hits_set {m : Heap} {S S' : List Nat} (a : Nat) (h : ∀ p, p ∈ S ↔ p ∈ S') :
    hits m S a = hits m S' a := by
  unfold hits
  rw [Bool.eq_iff_iff, List.any_eq_true, List.any_eq_true]
  constructor
  · rintro ⟨p, hp, hc⟩
    exact ⟨p, (h p).1 hp, hc⟩
  · rintro ⟨p, hp, hc⟩
    exact ⟨p, (h p).2 hp, hc⟩

theorem hits_append (m : Heap) (S1 S2 : List Nat) (a : Nat) :
    hits m (S1 ++ S2) a = (hits m S1 a || hits m S2 a) := by
  unfold hits
  rw [List.any_append]

theorem hits_dirty {m : Heap} {S : List Nat} {a : Nat} {w : window} (hw : m a = some w)
    (hd : w.dirty = true) : hits m S a = false := by
  unfold hits
  rw [List.any_eq_false]
  intro p _
  unfold cascades
  rw [hw]
  cases m p <;> simp [hd]

theorem mdoS_support (t : List Nat) (m : Heap) (S : List Nat) (x : Nat) (hx : x ∉ t) :
    mdoS t m S x = m x := by
  induction t generalizing m S with
  | nil => rfl
  | cons a t ih =>
    have hxa : x ≠ a := fun e => hx (e ▸ List.mem_cons_self _ _)
    have hxt : x ∉ t := fun e => hx (List.mem_cons_of_mem _ e)
    unfold mdoS
    split
    · rw [ih _ _ hxt, mark_other _ hxa]
    · exact ih _ _ hxt

theorem mdoS_sameGeo (t : List Nat) (m : Heap) (S : List Nat) : SameGeo m (mdoS t m S) := by
  induction t generalizing m S with
  | nil => exact sameGeo_refl m
  | cons a t ih =>
    unfold mdoS
    split
    · exact sameGeo_trans (sameGeo_mark m a) (ih _ _)
    · exact ih _ _

theorem mdoS_set (t : List Nat) (m : Heap) {S S' : List Nat} (h : ∀ p, p ∈ S ↔ p ∈ S') :
    mdoS t m S = mdoS t m S' := by
  induction t generalizing m S S' with
  | nil => rfl
  | cons a t ih =>
    unfold mdoS
    rw [hits_set a h]
    split
    · exact ih _ (fun p => by simp only [List.mem_cons, h p])
    · exact ih _ h

theorem mdoS_mark (t : List Nat) (m : Heap) (S : List Nat) (x : Nat) (hx : x ∉ t) :
    mdoS t (mark m x) S = mark (mdoS t m S) x := by
  induction t generalizing m S with
  | nil => rfl
  | cons a t ih =>
    have hax : a ≠ x := fun e => hx (e ▸ List.mem_cons_self _ _)
    have hxt : x ∉ t := fun e => hx (List.mem_cons_of_mem _ e)
    unfold mdoS
    rw [hits_congr (mark_other m hax) (sameGeo_mark m x)]
    split
    · rw [mark_comm, ih _ _ hxt]
    · exact ih _ _ hxt

/-- Two passes, one after the other, mark what one pass with both sets of
sources marks. -/
theorem mdoS_append (t : List Nat) (m : Heap) (S1 S2 : List Nat) (hn : t.Nodup) :
    mdoS t (mdoS t m S1) S2 = mdoS t m (S1 ++ S2) := by
  induction t generalizing m S1 S2 with
  | nil => rfl
  | cons x t ih =>
    rw [List.nodup_cons] at hn
    by_cases h1 : hits m S1 x = true
    · have e1 : mdoS (x :: t) m S1 = mdoS t (mark m x) (x :: S1) := by
        rw [mdoS, if_pos h1]
      have e3 : mdoS (x :: t) m (S1 ++ S2) = mdoS t (mark m x) (x :: (S1 ++ S2)) := by
        rw [mdoS, if_pos (by rw [hits_append, h1]; rfl)]
      have hxm : ∃ w, m x = some w := by
        unfold hits at h1
        rw [List.any_eq_true] at h1
        obtain ⟨p, _, hc⟩ := h1
        unfold cascades at hc
        cases hm : m x with
        | none => rw [hm] at hc; cases hc
        | some w => exact ⟨w, rfl⟩
      obtain ⟨w, hw⟩ := hxm
      have hd : mdoS t (mark m x) (x :: S1) x = some (setDirty w) := by
        rw [mdoS_support _ _ _ _ hn.1, mark_same, hw]
        rfl
      have e2 : mdoS (x :: t) (mdoS t (mark m x) (x :: S1)) S2
          = mdoS t (mdoS t (mark m x) (x :: S1)) S2 := by
        rw [mdoS, if_neg (by rw [hits_dirty hd rfl]; decide)]
      rw [e1, e2, e3, ih _ _ _ hn.2]
      rfl
    · have e1 : mdoS (x :: t) m S1 = mdoS t m S1 := by
        rw [mdoS, if_neg h1]
      have hh : hits (mdoS t m S1) S2 x = hits m S2 x :=
        hits_congr (mdoS_support _ _ _ _ hn.1) (mdoS_sameGeo _ _ _)
      by_cases h2 : hits m S2 x = true
      · have e2 : mdoS (x :: t) (mdoS t m S1) S2
            = mdoS t (mark (mdoS t m S1) x) (x :: S2) := by
          rw [mdoS, if_pos (by rw [hh]; exact h2)]
        have e3 : mdoS (x :: t) m (S1 ++ S2) = mdoS t (mark m x) (x :: (S1 ++ S2)) := by
          rw [mdoS, if_pos (by rw [hits_append, h2, Bool.or_true])]
        rw [e1, e2, e3, ← mdoS_mark _ _ _ _ hn.1, ih _ _ _ hn.2]
        apply mdoS_set
        intro p
        simp only [List.mem_append, List.mem_cons]
        tauto
      · have e2 : mdoS (x :: t) (mdoS t m S1) S2 = mdoS t (mdoS t m S1) S2 := by
          rw [mdoS, if_neg (by rw [hh]; exact h2)]
        have e3 : mdoS (x :: t) m (S1 ++ S2) = mdoS t m (S1 ++ S2) := by
          rw [mdoS, if_neg (by rw [hits_append]; simp [h1, h2])]
        rw [e1, e2, e3, ih _ _ _ hn.2]

theorem sameGeo_live {m m' : Heap} (h : SameGeo m m') {p : Nat} (hp : ∃ w, m p = some w) :
    ∃ w, m' p = some w := by
  obtain ⟨w, hw⟩ := hp
  have := h p
  rw [hw] at this
  cases hm : m' p with
  | none => rw [hm] at this; cases this
  | some w' => exact ⟨w', rfl⟩

/-- The recursive scan is a pass with the one source `src`. -/
theorem mdoL_eq_mdoS (l : List Nat) (m : Heap) (src : Nat) (hn : l.Nodup)
    (hl : ∀ a ∈ l, ∃ w, m a = some w) (hsrc : ∃ ws, m src = some ws) :
    mdoL l m src = mdoS l m [src] := by
  induction l generalizing m src with
  | nil => rfl
  | cons a t ih =>
    rw [List.nodup_cons] at hn
    obtain ⟨w, hw⟩ := hl a (List.mem_cons_self _ _)
    obtain ⟨ws, hws⟩ := hsrc
    have hlt : ∀ b ∈ t, ∃ v, m b = some v := fun b hb => hl b (List.mem_cons_of_mem _ hb)
    have hh : hits m [src] a = ((w.visible && !w.dirty) && overlap_test w ws) := by
      simp only [hits, List.any_cons, List.any_nil, Bool.or_false, cascades, hw, hws]
    simp only [mdoL, mdoS, hw, hws, hh]
    by_cases hc : ((w.visible && !w.dirty) && overlap_test w ws) = true
    · rw [if_pos hc, if_pos hc, store_setDirty_eq_mark hw]
      have hg1 := sameGeo_mark m a
      have hl1 : ∀ b ∈ t, ∃ v, mark m a b = some v := fun b hb => sameGeo_live hg1 (hlt b hb)
      have e1 := ih (mark m a) a hn.2 hl1 (sameGeo_live hg1 ⟨w, hw⟩)
      have hg2 := sameGeo_trans hg1 (mdoS_sameGeo t (mark m a) [a])
      have e2 := ih (mdoS t (mark m a) [a]) src hn.2
        (fun b hb => sameGeo_live hg2 (hlt b hb)) (sameGeo_live hg2 ⟨ws, hws⟩)
      rw [e1, e2, mdoS_append _ _ _ _ hn.2]
      rfl
    · rw [if_neg hc, if_neg hc]
      exact ih m src hn.2 hlt ⟨ws, hws⟩

theorem isChain_congr {m m' : Heap} (hg : SameGeo m m') (c : List Nat) (p : Nat)
    (hc : ∀ x ∈ c, m' x = m x) : IsChain m' p c = IsChain m p c := by
  induction c generalizing p with
  | nil => rfl
  | cons a c ih =>
    simp only [IsChain]
    rw [cascades_congr (hc a (List.mem_cons_self _ _)) (hg p),
      ih a (fun x hx => hc x (List.mem_cons_of_mem _ hx))]

theorem hits_iff {m : Heap} {S : List Nat} {a : Nat} :
    hits m S a = true ↔ ∃ p ∈ S, cascades m p a = true := by
  unfold hits
  rw [List.any_eq_true]

/-- The flag of a window after a pass: set exactly when it was set before or
a chain from one of the sources, going up through the list, ends at the
window. -/
theorem mdoS_dirty_iff (l : List Nat) (m : Heap) (S : List Nat) (b : Nat) {wb : window}
    (hn : l.Nodup) (hwb : m b = some wb) :
    ∃ wb', mdoS l m S b = some wb' ∧ wb' = { wb with dirty := wb'.dirty } ∧
      (wb'.dirty = true ↔ (wb.dirty = true ∨
        ∃ c, c.Sublist l ∧ (∃ p ∈ S, IsChain m p c = true) ∧ c.getLast? = some b)) := by
  induction l generalizing m S wb with
  | nil =>
    refine ⟨wb, hwb, rfl, ?_⟩
    constructor
    · exact Or.inl
    · rintro (h | ⟨c, hc, _, hlast⟩)
      · exact h
      · rw [List.sublist_nil] at hc
        rw [hc] at hlast
        cases hlast
  | cons a t ih =>
    rw [List.nodup_cons] at hn
    have same_t : ∀ c : List Nat, c.Sublist t → ∀ x ∈ c, mark m a x = m x := by
      intro c hc x hx
      exact mark_other m (fun e => hn.1 (e ▸ hc.subset hx))
    by_cases hh : hits m S a = true
    · rw [mdoS, if_pos hh]
      obtain ⟨p0, hp0, hcas⟩ := hits_iff.1 hh
      by_cases hba : b = a
      · subst hba
        have hm1 : mark m b b = some (setDirty wb) := by rw [mark_same, hwb]; rfl
        obtain ⟨wb', e, e1, e2⟩ := ih (mark m b) (b :: S) hn.2 hm1
        have hd' : wb'.dirty = true := e2.2 (Or.inl rfl)
        refine ⟨wb', e, by rw [e1]; rfl, ?_⟩
        constructor
        · intro _
          refine Or.inr ⟨[b], ?_, ⟨p0, hp0, ?_⟩, rfl⟩
          · exact List.Sublist.cons₂ _ (List.nil_sublist _)
          · simp only [IsChain, hcas, Bool.and_true]
        · intro _
          exact hd'
      · have hm1 : mark m a b = some wb := by rw [mark_other _ hba]; exact hwb
        obtain ⟨wb', e, e1, e2⟩ := ih (mark m a) (a :: S) hn.2 hm1
        refine ⟨wb', e, e1, ?_⟩
        rw [e2]
        constructor
        · rintro (h | ⟨c, hc, ⟨p, hp, hch⟩, hlast⟩)
          · exact Or.inl h
          · right
            rw [isChain_congr (sameGeo_mark m a) c p (same_t c hc)] at hch
            rcases List.mem_cons.1 hp with rfl | hpS
            · refine ⟨p :: c, List.Sublist.cons₂ _ hc, ⟨p0, hp0, ?_⟩, ?_⟩
              · simp only [IsChain, hcas, hch, Bool.and_self]
              · cases c with
                | nil => cases hlast
                | cons y ys => rw [List.getLast?_cons_cons]; exact hlast
            · exact ⟨c, List.Sublist.cons _ hc, ⟨p, hpS, hch⟩, hlast⟩
        · rintro (h | ⟨c, hc, ⟨p, hp, hch⟩, hlast⟩)
          · exact Or.inl h
          · right
            rcases List.sublist_cons_iff.1 hc with hct | ⟨r, rfl, hr⟩
            · refine ⟨c, hct, ⟨p, List.mem_cons_of_mem _ hp, ?_⟩, hlast⟩
              rw [isChain_congr (sameGeo_mark m a) c p (same_t c hct)]
              exact hch
            · simp only [IsChain, Bool.and_eq_true] at hch
              cases r with
              | nil =>
                simp only [List.getLast?_singleton, Option.some.injEq] at hlast
                exact absurd hlast.symm hba
              | cons y ys =>
                rw [List.getLast?_cons_cons] at hlast
                refine ⟨y :: ys, hr, ⟨a, List.mem_cons_self _ _, ?_⟩, hlast⟩
                rw [isChain_congr (sameGeo_mark m a) _ a (same_t _ hr)]
                exact hch.2
    · rw [mdoS, if_neg hh]
      obtain ⟨wb', e, e1, e2⟩ := ih m S hn.2 hwb
      refine ⟨wb', e, e1, ?_⟩
      rw [e2]
      constructor
      · rintro (h | ⟨c, hc, hch, hlast⟩)
        · exact Or.inl h
        · exact Or.inr ⟨c, List.Sublist.cons _ hc, hch, hlast⟩
      · rintro (h | ⟨c, hc, ⟨p, hp, hch⟩, hlast⟩)
        · exact Or.inl h
        · right
          rcases List.sublist_cons_iff.1 hc with hct | ⟨r, rfl, hr⟩
          · exact ⟨c, hct, ⟨p, hp, hch⟩, hlast⟩
          · simp only [IsChain, Bool.and_eq_true] at hch
            exact absurd (hits_iff.2 ⟨p, hp, hch.1⟩) hh

/-- C23: on a well-formed registry, for a start pointer from which the windows
`post` are reached going up, the scan `mark_dirty_overlapping( start, src )`
returns; afterwards every window is as before except possibly for its dirty
flag, `root` and the z-order are unchanged, and a window is dirty exactly when
it was dirty before or it is the last window of a chain: a list of windows
taken from `post` in z-order (each strictly above the one before it), each of
them visible and not dirty before the call, the first passing the overlap
test against `src` and each further one against the one before it. -/
theorem rule_B_cascade (s : Server) (pre post : List Nat) (start : Option Nat)
    (src fuel : Nat) (hwf : WF s (pre ++ post)) (hseg : Seg window.up s.mem start post none)
    (hsrc : ∃ ws, s.mem src = some ws) (hf : post.length ≤ fuel) :
    ∃ m', mark_dirty_overlapping fuel s.mem start src = .ok m' ∧
      WF ⟨m', s.root⟩ (pre ++ post) ∧
      ∀ b wb, s.mem b = some wb →
        ∃ wb', m' b = some wb' ∧ wb' = { wb with dirty := wb'.dirty } ∧
          (wb'.dirty = true ↔ (wb.dirty = true ∨
            ∃ c, c.Sublist post ∧ IsChain s.mem src c = true ∧ c.getLast? = some b)) := by
  have hn : post.Nodup := (List.nodup_append.1 hwf.nodup).2.1
  have hl : ∀ a ∈ post, ∃ w, s.mem a = some w :=
    fun a ha => (hwf.live a).2 (List.mem_append_right _ ha)
  have e := mark_dirty_overlapping_eq post fuel s.mem start src hseg hf hsrc
  refine ⟨_, e, hwf.sameLinks (sameLinks_of_marked (mdoL_marked _ _ _)), fun b wb hwb => ?_⟩
  rw [mdoL_eq_mdoS post s.mem src hn hl hsrc]
  obtain ⟨wb', e1, e2, e3⟩ := mdoS_dirty_iff post s.mem [src] b hn hwb
  refine ⟨wb', e1, e2, ?_⟩
  rw [e3]
  constructor
  · rintro (h | ⟨c, hc, ⟨p, hp, hch⟩, hlast⟩)
    · exact Or.inl h
    · rw [List.mem_singleton] at hp
      subst hp
      exact Or.inr ⟨c, hc, hch, hlast⟩
  · rintro (h | ⟨c, hc, hch, hlast⟩)
    · exact Or.inl h
    · exact Or.inr ⟨c, hc, ⟨src, List.mem_singleton.2 rfl, hch⟩, hlast⟩

/-- Instance of `rule_B_cascade`: three visible clean windows; window 2
overlaps windows 1 and 3, which do not overlap each other; the scan starts at
window 2 with window 1 as source. -/
theorem rule_B_cascade_witness :
    WF (mkServer [(1, rect 0 0 10 5 true false), (2, rect 4 8 10 5 true false),
      (3, rect 8 16 10 5 true false)]) ([1] ++ [2, 3]) ∧
    ∃ m', mark_dirty_overlapping 2 (mkServer [(1, rect 0 0 10 5 true false),
        (2, rect 4 8 10 5 true false), (3, rect 8 16 10 5 true false)]).mem (some 2) 1
        = .ok m' ∧
      WF ⟨m', (mkServer [(1, rect 0 0 10 5 true false), (2, rect 4 8 10 5 true false),
        (3, rect 8 16 10 5 true false)]).root⟩ ([1] ++ [2, 3]) ∧
      ∀ b wb, (mkServer [(1, rect 0 0 10 5 true false), (2, rect 4 8 10 5 true false),
          (3, rect 8 16 10 5 true false)]).mem b = some wb →
        ∃ wb', m' b = some wb' ∧ wb' = { wb with dirty := wb'.dirty } ∧
          (wb'.dirty = true ↔ (wb.dirty = true ∨
            ∃ c, c.Sublist [2, 3] ∧ IsChain (mkServer [(1, rect 0 0 10 5 true false),
              (2, rect 4 8 10 5 true false), (3, rect 8 16 10 5 true false)]).mem 1 c = true ∧
              c.getLast? = some b)) :=
  ⟨wf_mkServer _ (by decide),
    rule_B_cascade (mkServer [(1, rect 0 0 10 5 true false), (2, rect 4 8 10 5 true false),
      (3, rect 8 16 10 5 true false)]) [1] [2, 3] (some 2) 1 2 (wf_mkServer _ (by decide))
      ⟨rfl, _, rfl, rfl, _, rfl, rfl⟩ ⟨_, rfl⟩ (by decide)⟩

end Stui
